import Mathlib

/-!
# Nes_Oscs.cpp: the oscillators of the NES sound chip

A shallow embedding of `src/ThirdParty/NesSndEmu/nes_apu/Nes_Oscs.cpp`.

* `int` and `cpu_time_t` values are mathematical integers (`Int`): signed overflow is
  undefined in C, so the embedding describes the runs in which no arithmetic overflows.
  Where the source converts to `unsigned` the embedding takes the value `% 2^32`, and an
  assignment to an `unsigned char` register takes it `% 256`.
* Register bytes (`unsigned char regs [4]`) are natural numbers.
* C's `/` and `%` on `int` are `Int.tdiv` and `Int.tmod`; `&`, `|`, `^` on `int` are
  `Int.land`, `Int.lor`, `Int.xor`; `>>` is `>>>`.
* A `do ... while ( time < end_time )` loop is `doWhile`: it runs the translated body and
  yields `none` exactly when the given number of iterations did not reach the exit test.
  Every `run` passes `end_time - time` iterations, which suffices whenever the timer
  period is positive; with a period `<= 0` the C loop never exits and `run` is `none`.
* Calls into the output buffer (`synth.offset`, `offset_inline`, `offset_resampled`) are
  recorded, in order, as a list of `Emit`.
-/

namespace NesOscs

/-! ## Collaborators and constants declared outside `Nes_Oscs.cpp` -/

/-- One call into the band-limited synth: `offset`/`offset_inline` carry a clock time,
`offset_resampled` a resampled time. -/
inductive Emit where
  | offset (time delta : Int)
  | offset_resampled (rtime delta : Int)
deriving DecidableEq, Repr

/-- The amplitude step carried by an emission. -/
def Emit.delta : Emit → Int
  | Emit.offset _ d => d
  | Emit.offset_resampled _ d => d

/-- Sum of the amplitude steps of a list of emissions. -/
def deltaSum (out : List Emit) : Int := (out.map Emit.delta).sum

/-- Names used by `Nes_Oscs.cpp` whose declarations live in headers and collaborators that
are not part of the sources; they are parameters of the embedding. -/
structure Ext where
  /-- `min_period` of the square channel. -/
  min_period : Int
  /-- `trigger_none`. -/
  trigger_none : Int
  /-- `Nes_Apu::no_irq`. -/
  no_irq : Int
  /-- `output->resampled_duration( t )`. -/
  resampled_duration : Int → Int
  /-- `output->resampled_time( t )`. -/
  resampled_time : Int → Int
  /-- `BLIP_BUFFER_ACCURACY`. -/
  BLIP_BUFFER_ACCURACY : Nat
  /-- `rom_reader( rom_reader_data, addr )`; `require( rom_reader )` holds: a reader is set. -/
  rom_reader : Int → Int

/-- Modelled from the spec: `shift_mask` is declared in a header outside the sources; the
sweep shift is the low three bits of register 1. -/
def shift_mask : Nat := 0x07

/-- Modelled from the spec: `negate_flag` is declared in a header outside the sources; the
negate bit of register 1 is `0x08`. -/
def negate_flag : Nat := 0x08

/-- Modelled from the spec: `loop_flag` of the DMC is declared in a header outside the
sources; `write_register` enables the IRQ "only if loop disabled" with mask `0xC0 == 0x80`,
so the loop bit of register 0 is `0x40`. -/
def loop_flag : Nat := 0x40

/-- Modelled from the spec: `Nes_Osc::update_amp` is defined in a header outside the
sources; it returns `amp - last_amp` and sets `last_amp = amp`. The result is the pair
(delta, new `last_amp`). -/
def update_amp (last_amp amp : Int) : Int × Int := (amp - last_amp, amp)

/-- The edge-counting expression `(remain + timer_period - 1) / timer_period`. -/
def edge_count (remain timer_period : Int) : Int :=
  Int.tdiv (remain + timer_period - 1) timer_period

/-- The loop `do body while ( time < end_time )`, bounded by a number of iterations. -/
def doWhile {σ : Type} (body : σ → σ) (time : σ → Int) (end_time : Int) : Nat → σ → Option σ
  | 0, _ => none
  | fuel + 1, s =>
    if time (body s) < end_time then doWhile body time end_time fuel (body s)
    else some (body s)

/-- Number of timer edges `first + k * timer_period`, `k = 0, 1, ...`, that lie strictly
before `end_time` (for a positive timer period this is what `edges_spec` states). -/
def edges (first end_time timer_period : Int) : Nat :=
  ((end_time - first + timer_period - 1) / timer_period).toNat

/-! ## Nes_Osc and Nes_Envelope -/

/-- State common to all oscillators (`struct Nes_Osc`). -/
structure Nes_Osc where
  regs0 : Nat
  regs1 : Nat
  regs2 : Nat
  regs3 : Nat
  reg_written0 : Bool
  reg_written1 : Bool
  reg_written2 : Bool
  reg_written3 : Bool
  ages2 : Int
  ages3 : Int
  /-- Whether `output` is non-null. -/
  output : Bool
  length_counter : Int
  delay : Int
  last_amp : Int
  trigger : Int
  pal_mode : Bool
deriving DecidableEq, Repr

/-- Modelled from the spec: `Nes_Osc::period()` is defined in a header outside the sources;
it is `(regs[3] & 7) * 256 + regs[2]`. -/
def Nes_Osc.period (o : Nes_Osc) : Int := (((o.regs3 &&& 7) * 0x100 + o.regs2 : Nat) : Int)

/-- `Nes_Osc::clock_length`. -/
def Nes_Osc.clock_length (o : Nes_Osc) (halt_mask : Int) : Nes_Osc :=
  if o.length_counter ≠ 0 ∧ ¬ (Int.land o.regs0 halt_mask ≠ 0) then
    { o with length_counter := o.length_counter - 1 }
  else o

/-- State of an oscillator with an envelope (`struct Nes_Envelope`). -/
structure Nes_Envelope extends Nes_Osc where
  envelope : Int
  env_delay : Int
deriving DecidableEq, Repr

/-- `Nes_Envelope::clock_envelope`. -/
def Nes_Envelope.clock_envelope (e : Nes_Envelope) : Nes_Envelope :=
  let period : Int := ((e.regs0 &&& 15 : Nat) : Int)
  if e.reg_written3 then
    { e with reg_written3 := false, env_delay := period, envelope := 15 }
  else
    let e := { e with env_delay := e.env_delay - 1 }
    if e.env_delay < 0 then
      let e := { e with env_delay := period }
      if Int.lor e.envelope ((e.regs0 &&& 0x20 : Nat) : Int) ≠ 0 then
        { e with envelope := Int.land (e.envelope - 1) 15 }
      else e
    else e

/-- `Nes_Envelope::volume`. -/
def Nes_Envelope.volume (e : Nes_Envelope) : Int :=
  if e.length_counter = 0 then 0
  else if e.regs0 &&& 0x10 ≠ 0 then ((e.regs0 &&& 15 : Nat) : Int)
  else e.envelope

/-! ## Nes_Square -/

/-- State of a square channel (`struct Nes_Square`). -/
structure Nes_Square extends Nes_Envelope where
  phase : Int
  sweep_delay : Int
deriving DecidableEq, Repr

/-- Modelled from the spec: `Nes_Square::phase_range` is declared in a header outside the
sources; the square phase is periodic with a power of two and lies in `[0,8)`. -/
def Nes_Square.phase_range : Int := 8

/-- `Nes_Square::clock_sweep`. -/
def Nes_Square.clock_sweep (s : Nes_Square) (negative_adjust : Int) : Nes_Square :=
  let sweep := s.regs1
  let s : Nes_Square := { s with sweep_delay := s.sweep_delay - 1 }
  let s : Nes_Square :=
    if s.sweep_delay < 0 then
      let s : Nes_Square := { s with reg_written1 := true }
      let period : Int := s.period
      let shift : Nat := sweep &&& shift_mask
      if shift ≠ 0 ∧ sweep &&& 0x80 ≠ 0 ∧ period ≥ 8 then
        let offset : Int := period >>> shift
        let offset : Int := if sweep &&& negate_flag ≠ 0 then negative_adjust - offset else offset
        if period + offset < 0x800 then
          let period : Int := period + offset
          let r2 := (Int.land period 0xff % 256).toNat
          let r3 :=
            (Int.lor (Int.land s.regs3 (~~~7)) (Int.land (period >>> (8 : Nat)) 7) % 256).toNat
          { s with regs2 := r2, regs3 := r3, ages2 := 0, ages3 := 0 }
        else s
      else s
    else s
  if s.reg_written1 then
    { s with reg_written1 := false, sweep_delay := (((sweep >>> 4) &&& 7 : Nat) : Int) }
  else s

/-- `Nes_Square::maintain_phase`: the updated channel and the returned time. -/
def Nes_Square.maintain_phase (s : Nes_Square) (time end_time timer_period : Int) :
    Nes_Square × Int :=
  let remain := end_time - time
  if remain > 0 then
    let count := edge_count remain timer_period
    ({ s with phase := Int.land (s.phase + count) (Nes_Square.phase_range - 1) },
      time + count * timer_period)
  else (s, time)

/-- Variables of the `do ... while` loop of `Nes_Square::run`. -/
structure SquareLoop where
  time : Int
  delta : Int
  phase : Int
  trigger : Int
  out : List Emit
deriving DecidableEq, Repr

/-- Body of the `do ... while` loop of `Nes_Square::run`. -/
def Nes_Square.run_body (X : Ext) (duty timer_period : Int) (l : SquareLoop) : SquareLoop :=
  let phase := Int.land (l.phase + 1) (Nes_Square.phase_range - 1)
  let l := { l with phase := phase }
  let l :=
    if phase = 0 ∨ phase = duty then
      let delta := -l.delta
      { l with
        delta := delta
        out := l.out ++ [Emit.offset l.time delta]
        trigger :=
          if delta > 0 then X.resampled_duration l.time >>> X.BLIP_BUFFER_ACCURACY
          else l.trigger }
    else l
  { l with time := l.time + timer_period }

/-- The test `volume == 0 || period < min_period || (period + offset) >= 0x800` of
`Nes_Square::run`, with `offset` as computed just before it. -/
def Nes_Square.silent (X : Ext) (s : Nes_Square) : Prop :=
  let period := s.period
  let offset := period >>> (s.regs1 &&& shift_mask)
  let offset := if s.regs1 &&& negate_flag ≠ 0 then 0 else offset
  s.volume = 0 ∨ period < X.min_period ∨ period + offset ≥ 0x800

instance (X : Ext) (s : Nes_Square) : Decidable (Nes_Square.silent X s) := by
  unfold Nes_Square.silent; infer_instance

/-- The local `duty` of `Nes_Square::run` ("handle duty select"): 1, 2, 4, 2. -/
def Nes_Square.duty (s : Nes_Square) : Int :=
  let duty_select := (s.regs0 >>> 6) &&& 3
  if duty_select = 3 then 2 else ((1 <<< duty_select : Nat) : Int)

/-- The local `amp` of `Nes_Square::run` ("handle duty select") when the phase is `phase`. -/
def Nes_Square.amp_at (s : Nes_Square) (phase : Int) : Int :=
  let duty_select := (s.regs0 >>> 6) &&& 3
  let amp : Int := if duty_select = 3 then s.volume else 0
  if phase < s.duty then Int.xor amp s.volume else amp

/-- `Nes_Square::run`: the channel afterwards and the emissions, in order. -/
def Nes_Square.run (X : Ext) (s : Nes_Square) (time end_time : Int) :
    Option (Nes_Square × List Emit) :=
  let period := s.period
  let timer_period := (period + 1) * 2
  if !s.output then
    let r := s.maintain_phase (time + s.delay) end_time timer_period
    some ({ r.1 with delay := r.2 - end_time, trigger := X.trigger_none }, [])
  else
    let volume := s.volume
    if s.silent X then
      let out := if s.last_amp ≠ 0 then [Emit.offset time (-s.last_amp)] else []
      let s : Nes_Square := if s.last_amp ≠ 0 then { s with last_amp := 0 } else s
      let time := time + s.delay
      let r := s.maintain_phase time end_time timer_period
      some ({ r.1 with trigger := X.trigger_none, delay := r.2 - end_time }, out)
    else
      let duty := s.duty
      let amp := s.amp_at s.phase
      let u := update_amp s.last_amp amp
      let s : Nes_Square := { s with last_amp := u.2 }
      let out := if u.1 ≠ 0 then [Emit.offset time u.1] else []
      let time := time + s.delay
      if time < end_time then
        match doWhile (Nes_Square.run_body X duty timer_period) SquareLoop.time end_time
            (end_time - time).toNat ⟨time, amp * 2 - volume, s.phase, s.trigger, out⟩ with
        | none => none
        | some l =>
          some ({ s with
            trigger := l.trigger
            last_amp := (l.delta + volume) >>> (1 : Nat)
            phase := l.phase
            delay := l.time - end_time }, l.out)
      else some ({ s with delay := time - end_time }, out)

/-! ## Nes_Triangle -/

/-- State of the triangle channel (`struct Nes_Triangle`). -/
structure Nes_Triangle extends Nes_Osc where
  phase : Int
  linear_counter : Int
deriving DecidableEq, Repr

/-- Modelled from the spec: `Nes_Triangle::phase_range` is declared in a header outside the
sources; the triangle phase lies in `[1, phase_range*2] = [1,32]`. -/
def Nes_Triangle.phase_range : Int := 16

/-- `Nes_Triangle::clock_linear_counter`. -/
def Nes_Triangle.clock_linear_counter (t : Nes_Triangle) : Nes_Triangle :=
  let t :=
    if t.reg_written3 then { t with linear_counter := ((t.regs0 &&& 0x7f : Nat) : Int) }
    else if t.linear_counter ≠ 0 then { t with linear_counter := t.linear_counter - 1 }
    else t
  if ¬ (t.regs0 &&& 0x80 ≠ 0) then { t with reg_written3 := false } else t

/-- The body of `Nes_Triangle::calc_amp` for a given value of the member `phase`. -/
def Nes_Triangle.amp_of (phase : Int) : Int :=
  let amp := Nes_Triangle.phase_range - phase
  if amp < 0 then phase - (Nes_Triangle.phase_range + 1) else amp

/-- `Nes_Triangle::calc_amp`. -/
def Nes_Triangle.calc_amp (t : Nes_Triangle) : Int := Nes_Triangle.amp_of t.phase

/-- `Nes_Triangle::maintain_phase`: the updated channel and the returned time. -/
def Nes_Triangle.maintain_phase (t : Nes_Triangle) (time end_time timer_period : Int) :
    Nes_Triangle × Int :=
  let remain := end_time - time
  if remain > 0 then
    let count := edge_count remain timer_period
    let phase := Int.land ((t.phase + 1 - count) % 2 ^ 32) (Nes_Triangle.phase_range * 2 - 1)
    ({ t with phase := phase + 1 }, time + count * timer_period)
  else (t, time)

/-- Variables of the `do ... while` loop of `Nes_Triangle::run`. -/
structure TriangleLoop where
  time : Int
  phase : Int
  volume : Int
  trigger : Int
  out : List Emit
deriving DecidableEq, Repr

/-- The phase stored after the loop of `Nes_Triangle::run`:
`if ( volume < 0 ) phase += phase_range; this->phase = phase`. -/
def TriangleLoop.folded (l : TriangleLoop) : Int :=
  if l.volume < 0 then l.phase + Nes_Triangle.phase_range else l.phase

/-- Body of the `do ... while` loop of `Nes_Triangle::run`. -/
def Nes_Triangle.run_body (X : Ext) (timer_period : Int) (l : TriangleLoop) : TriangleLoop :=
  let l := { l with phase := l.phase - 1 }
  let l :=
    if l.phase = 0 then
      let volume := -l.volume
      { l with
        phase := Nes_Triangle.phase_range
        volume := volume
        trigger :=
          if volume > 0 then X.resampled_duration l.time >>> X.BLIP_BUFFER_ACCURACY
          else l.trigger }
    else { l with out := l.out ++ [Emit.offset l.time l.volume] }
  { l with time := l.time + timer_period }

/-- The loop variables on entry to the loop of `Nes_Triangle::run`: `phase` and `volume`
are unfolded from the member `phase` (`if ( phase > phase_range ) ...`). -/
def Nes_Triangle.loop_init (t : Nes_Triangle) (time : Int) (out : List Emit) : TriangleLoop :=
  if t.phase > Nes_Triangle.phase_range then
    ⟨time, t.phase - Nes_Triangle.phase_range, -1, t.trigger, out⟩
  else ⟨time, t.phase, 1, t.trigger, out⟩

/-- `Nes_Triangle::run`: the channel afterwards and the emissions, in order. -/
def Nes_Triangle.run (X : Ext) (t : Nes_Triangle) (time end_time : Int) :
    Option (Nes_Triangle × List Emit) :=
  let timer_period := t.period + 1
  if !t.output then
    let time := time + t.delay
    let t : Nes_Triangle := { t with delay := 0 }
    let t : Nes_Triangle :=
      if t.length_counter ≠ 0 ∧ t.linear_counter ≠ 0 ∧ timer_period ≥ 3 then
        let r := t.maintain_phase time end_time timer_period
        { r.1 with delay := r.2 - end_time }
      else t
    some ({ t with trigger := X.trigger_none }, [])
  else
    let u := update_amp t.last_amp t.calc_amp
    let t : Nes_Triangle := { t with last_amp := u.2 }
    let out := if u.1 ≠ 0 then [Emit.offset time u.1] else []
    let time := time + t.delay
    if t.length_counter = 0 ∨ t.linear_counter = 0 ∨ timer_period < 3 then
      some ({ t with trigger := X.trigger_none, delay := end_time - end_time }, out)
    else if time < end_time then
      match doWhile (Nes_Triangle.run_body X timer_period) TriangleLoop.time end_time
          (end_time - time).toNat (t.loop_init time out) with
      | none => none
      | some l =>
        let t : Nes_Triangle := { t with trigger := l.trigger, phase := l.folded }
        some ({ t with last_amp := t.calc_amp, delay := l.time - end_time }, l.out)
    else some ({ t with delay := time - end_time }, out)

/-! ## Nes_Dmc -/

/-- The part of the owner (`Nes_Apu`) that the DMC reads and writes through `apu->`. -/
structure Nes_Apu where
  last_time : Int
  osc_enables : Int
  /-- Number of calls of `irq_changed()` so far. -/
  irq_changed_calls : Nat
deriving DecidableEq, Repr

/-- `Nes_Apu::irq_changed`, as far as the DMC is concerned: the owner is notified once. -/
def Nes_Apu.irq_changed (a : Nes_Apu) : Nes_Apu :=
  { a with irq_changed_calls := a.irq_changed_calls + 1 }

/-- State of the sample-playback channel (`struct Nes_Dmc`), together with its owner. -/
structure Nes_Dmc extends Nes_Osc where
  address : Int
  period : Int
  buf : Int
  bits_remain : Int
  bits : Int
  buf_full : Bool
  silence : Bool
  dac : Int
  paused_dac : Int
  next_irq : Int
  irq_enabled : Bool
  irq_flag : Bool
  nonlinear : Bool
  apu : Nes_Apu
  /-- Addresses passed to `rom_reader` so far, oldest first. -/
  rom_reads : List Int
deriving DecidableEq, Repr

/-- The local `irq` of `Nes_Dmc::recalc_irq`. -/
def Nes_Dmc.irq_time (X : Ext) (d : Nes_Dmc) : Int :=
  if d.irq_enabled ∧ d.length_counter ≠ 0 then
    d.apu.last_time + d.delay +
      ((d.length_counter - 1) * 8 + d.bits_remain - 1) * d.period + 1
  else X.no_irq

/-- `Nes_Dmc::recalc_irq`. -/
def Nes_Dmc.recalc_irq (X : Ext) (d : Nes_Dmc) : Nes_Dmc :=
  let irq : Int := d.irq_time X
  if irq ≠ d.next_irq then { d with next_irq := irq, apu := d.apu.irq_changed } else d

/-- The local `first_read` of `Nes_Dmc::count_reads`. -/
def Nes_Dmc.first_read (d : Nes_Dmc) : Int :=
  d.apu.last_time + d.delay + (d.bits_remain - 1) * d.period

/-- `Nes_Dmc::count_reads`: the returned count and the value left in `*last_read` (the
assertions are not part of the result; they are `Nes_Dmc.count_reads_asserts`). -/
def Nes_Dmc.count_reads (d : Nes_Dmc) (time : Int) : Int × Int :=
  if d.length_counter = 0 then (0, time)
  else
    let first_read : Int := d.first_read
    let avail : Int := time - first_read
    if avail ≤ 0 then (0, time)
    else
      let count : Int := Int.tdiv (avail - 1) (d.period * 8) + 1
      let count : Int :=
        if ¬ (d.regs0 &&& loop_flag ≠ 0) ∧ count > d.length_counter then d.length_counter
        else count
      (count, first_read + (count - 1) * (d.period * 8) + 1)

/-- The three `assert`s of `Nes_Dmc::count_reads`, for the call
`count_reads( time, &last_read )`; they are reached only when reads are available
(`length_counter != 0` and `avail > 0`). -/
def Nes_Dmc.count_reads_asserts (d : Nes_Dmc) (time : Int) : Prop :=
  d.length_counter ≠ 0 → time - d.first_read > 0 →
    (d.count_reads time).2 ≤ time ∧
    (d.count_reads time).1 = (d.count_reads (d.count_reads time).2).1 ∧
    (d.count_reads time).1 - 1 = (d.count_reads ((d.count_reads time).2 - 1)).1

/-- Table `dmc_period_table`. -/
def dmc_period_table (pal_mode : Bool) : List Int :=
  if pal_mode then
    [0x18e, 0x162, 0x13c, 0x12a, 0x114, 0x0ec, 0x0d2, 0x0c6,
     0x0b0, 0x094, 0x084, 0x076, 0x062, 0x04e, 0x042, 0x032]
  else
    [0x1ac, 0x17c, 0x154, 0x140, 0x11e, 0x0fe, 0x0e2, 0x0d6,
     0x0be, 0x0a0, 0x08e, 0x080, 0x06a, 0x054, 0x048, 0x036]

/-- `Nes_Dmc::reload_sample`. -/
def Nes_Dmc.reload_sample (d : Nes_Dmc) : Nes_Dmc :=
  { d with
    address := 0x4000 + (d.regs2 : Int) * 0x40
    length_counter := (d.regs3 : Int) * 0x10 + 1 }

/-- Table `dac_table`. -/
def dac_table : List Int :=
  [ 0, 1, 2, 3, 4, 5, 6, 7, 7, 8, 9,10,11,12,13,14,
   15,15,16,17,18,19,20,20,21,22,23,24,24,25,26,27,
   27,28,29,30,31,31,32,33,33,34,35,36,36,37,38,38,
   39,40,41,41,42,43,43,44,45,45,46,47,47,48,48,49,
   50,50,51,52,52,53,53,54,55,55,56,56,57,58,58,59,
   59,60,60,61,61,62,63,63,64,64,65,65,66,66,67,67,
   68,68,69,70,70,71,71,72,72,73,73,74,74,75,75,75,
   76,76,77,77,78,78,79,79,80,80,81,81,82,82,82,83]

/-- `Nes_Dmc::write_register`. -/
def Nes_Dmc.write_register (X : Ext) (d : Nes_Dmc) (addr data : Int) : Nes_Dmc :=
  if addr = 0 then
    let irq_enabled : Bool := decide (Int.land data 0xC0 = 0x80)
    let d : Nes_Dmc :=
      { d with
        period := (dmc_period_table d.pal_mode).getD (Int.land data 15).toNat 0
        irq_enabled := irq_enabled
        irq_flag := d.irq_flag && irq_enabled }
    d.recalc_irq X
  else if addr = 1 then
    let old_dac := d.dac
    let d : Nes_Dmc := { d with dac := Int.land data 0x7F }
    let faked_nonlinear : Int :=
      d.dac - (dac_table.getD d.dac.toNat 0 - dac_table.getD old_dac.toNat 0)
    if !d.nonlinear then { d with last_amp := faked_nonlinear } else d
  else d

/-- `Nes_Dmc::fill_buffer`. -/
def Nes_Dmc.fill_buffer (X : Ext) (d : Nes_Dmc) : Nes_Dmc :=
  if !d.buf_full ∧ d.length_counter ≠ 0 then
    let addr : Int := (0x8000 + d.address) % 2 ^ 32
    let d : Nes_Dmc :=
      { d with
        buf := X.rom_reader addr
        rom_reads := d.rom_reads ++ [addr]
        address := Int.land (d.address + 1) 0x7FFF
        buf_full := true
        length_counter := d.length_counter - 1 }
    if d.length_counter = 0 then
      if d.regs0 &&& loop_flag ≠ 0 then d.reload_sample
      else
        { d with
          apu := Nes_Apu.irq_changed
            { d.apu with osc_enables := Int.land d.apu.osc_enables (~~~0x10) }
          irq_flag := d.irq_enabled
          next_irq := X.no_irq }
    else d
  else d

/-- `Nes_Dmc::start`. -/
def Nes_Dmc.start (X : Ext) (d : Nes_Dmc) : Nes_Dmc :=
  ((d.reload_sample).fill_buffer X).recalc_irq X

/-- Variables of the `do ... while` loop of `Nes_Dmc::run`: the channel (whose members
`silence`, `buf_full` and those written by `fill_buffer` change inside the loop) and the
locals `time`, `bits_remain`, `bits`, `dac`. -/
structure DmcLoop where
  d : Nes_Dmc
  time : Int
  bits_remain : Int
  bits : Int
  dac : Int
  out : List Emit
deriving DecidableEq, Repr

/-- The block `if ( !silence ) { ... }` of the loop of `Nes_Dmc::run`. -/
def Nes_Dmc.run_shift (l : DmcLoop) : DmcLoop :=
  if !l.d.silence then
    let step : Int := Int.land l.bits 1 * 4 - 2
    let l : DmcLoop := { l with bits := l.bits >>> (1 : Nat) }
    if (l.dac + step) % 2 ^ 32 ≤ 0x7F then
      { l with
        dac := l.dac + step
        out := if l.d.output then l.out ++ [Emit.offset l.time step] else l.out }
    else l
  else l

/-- The block `if ( --bits_remain == 0 ) { ... }` of the loop of `Nes_Dmc::run`. -/
def Nes_Dmc.run_reload (X : Ext) (l : DmcLoop) : DmcLoop :=
  let l : DmcLoop := { l with bits_remain := l.bits_remain - 1 }
  if l.bits_remain = 0 then
    let l : DmcLoop := { l with bits_remain := 8 }
    if !l.d.buf_full then { l with d := { l.d with silence := true } }
    else
      let d : Nes_Dmc := { l.d with silence := false, buf_full := false }
      let d : Nes_Dmc := if !d.output then { d with silence := true } else d
      { l with bits := l.d.buf, d := d.fill_buffer X }
  else l

/-- Body of the `do ... while` loop of `Nes_Dmc::run`. -/
def Nes_Dmc.run_body (X : Ext) (period : Int) (l : DmcLoop) : DmcLoop :=
  let l : DmcLoop := Nes_Dmc.run_shift l
  let l : DmcLoop := { l with time := l.time + period }
  Nes_Dmc.run_reload X l

/-- `Nes_Dmc::run`: the channel afterwards and the emissions, in order. The result is
`none` when the call does not return (the loop never exits, or the batch divides by a zero
period). -/
def Nes_Dmc.run (X : Ext) (d : Nes_Dmc) (time end_time : Int) :
    Option (Nes_Dmc × List Emit) :=
  let u := update_amp d.last_amp d.dac
  let d : Nes_Dmc := { d with last_amp := u.2 }
  let out := if u.1 ≠ 0 ∧ d.output then [Emit.offset time u.1] else []
  let time := time + d.delay
  if time < end_time then
    if d.silence ∧ !d.buf_full then
      if d.period = 0 then none
      else
        let count : Int := Int.tdiv (end_time - time + d.period - 1) d.period
        let bits_remain : Int := Int.tmod (d.bits_remain - 1 + 8 - Int.tmod count 8) 8 + 1
        let time := time + count * d.period
        some ({ d with bits_remain := bits_remain, delay := time - end_time }, out)
    else
      match doWhile (Nes_Dmc.run_body X d.period) DmcLoop.time end_time
          (end_time - time).toNat ⟨d, time, d.bits_remain, d.bits, d.dac, out⟩ with
      | none => none
      | some l =>
        some ({ l.d with
          dac := l.dac
          last_amp := l.dac
          bits := l.bits
          bits_remain := l.bits_remain
          delay := l.time - end_time }, l.out)
  else some ({ d with delay := time - end_time }, out)

/-- The `else` block of `Nes_Dmc::run` (the per-edge `do ... while` loop) run on every
state: `Nes_Dmc::run` without the batching of silent edges under
`if ( silence && !buf_full )`. -/
def Nes_Dmc.run_per_edge (X : Ext) (d : Nes_Dmc) (time end_time : Int) :
    Option (Nes_Dmc × List Emit) :=
  let u := update_amp d.last_amp d.dac
  let d : Nes_Dmc := { d with last_amp := u.2 }
  let out := if u.1 ≠ 0 ∧ d.output then [Emit.offset time u.1] else []
  let time := time + d.delay
  if time < end_time then
    match doWhile (Nes_Dmc.run_body X d.period) DmcLoop.time end_time
        (end_time - time).toNat ⟨d, time, d.bits_remain, d.bits, d.dac, out⟩ with
    | none => none
    | some l =>
      some ({ l.d with
        dac := l.dac
        last_amp := l.dac
        bits := l.bits
        bits_remain := l.bits_remain
        delay := l.time - end_time }, l.out)
  else some ({ d with delay := time - end_time }, out)

/-! ## Nes_Noise -/

/-- State of the noise channel (`struct Nes_Noise`). -/
structure Nes_Noise extends Nes_Envelope where
  noise : Int
deriving DecidableEq, Repr

/-- Table `noise_period_table`. -/
def noise_period_table (pal_mode : Bool) : List Int :=
  if pal_mode then
    [0x004, 0x008, 0x00E, 0x01E, 0x03C, 0x058, 0x076, 0x094,
     0x0BC, 0x0EC, 0x162, 0x1D8, 0x2C4, 0x3B0, 0x762, 0xEC2]
  else
    [0x004, 0x008, 0x010, 0x020, 0x040, 0x060, 0x080, 0x0A0,
     0x0CA, 0x0FE, 0x17C, 0x1FC, 0x2FA, 0x3F8, 0x7F2, 0xFE4]

/-- One step of the shift register in `Nes_Noise::run`:
`feedback = (noise & 1) ^ ((noise >> tap) & 1); noise = (noise >> 1) | (feedback << 14)`. -/
def Nes_Noise.lfsr (tap : Nat) (noise : Int) : Int :=
  let feedback : Int := Int.xor (Int.land noise 0x01) (Int.land (noise >>> tap) 0x01)
  Int.lor (noise >>> (1 : Nat)) (feedback <<< (14 : Int))

/-- Variables of the `do ... while` loops of `Nes_Noise::run`: the members `noise` and
`last_amp` and the locals `time`, `rtime`. -/
structure NoiseLoop where
  time : Int
  rtime : Int
  noise : Int
  last_amp : Int
  out : List Emit
deriving DecidableEq, Repr

/-- Body of the loop of `Nes_Noise::run` taken when `volume` is zero. -/
def Nes_Noise.run_body_silent (tap : Nat) (period : Int) (l : NoiseLoop) : NoiseLoop :=
  { l with noise := Nes_Noise.lfsr tap l.noise, time := l.time + period }

/-- Body of the loop of `Nes_Noise::run` taken when `volume` is non-zero. -/
def Nes_Noise.run_body (volume : Int) (tap : Nat) (period rperiod : Int) (l : NoiseLoop) :
    NoiseLoop :=
  let noise := Nes_Noise.lfsr tap l.noise
  let amp : Int := if Int.land noise 1 ≠ 0 then 0 else volume
  let u := update_amp l.last_amp amp
  { l with
    noise := noise
    last_amp := u.2
    out := if u.1 ≠ 0 then l.out ++ [Emit.offset_resampled l.rtime u.1] else l.out
    time := l.time + period
    rtime := l.rtime + rperiod }

/-- `Nes_Noise::run`: the channel afterwards and the emissions, in order. -/
def Nes_Noise.run (X : Ext) (n : Nes_Noise) (time end_time : Int) :
    Option (Nes_Noise × List Emit) :=
  if !n.output then some (n, [])
  else
    let volume := n.volume
    let amp : Int := if Int.land n.noise 1 ≠ 0 then 0 else volume
    let u := update_amp n.last_amp amp
    let n : Nes_Noise := { n with last_amp := u.2 }
    let out := if u.1 ≠ 0 then [Emit.offset time u.1] else []
    let time := time + n.delay
    if time < end_time then
      let mode_flag : Nat := 0x80
      let tap : Nat := if n.regs2 &&& mode_flag ≠ 0 then 6 else 1
      let period : Int := (noise_period_table n.pal_mode).getD (n.regs2 &&& 15) 0
      let l : NoiseLoop := ⟨time, X.resampled_time time, n.noise, n.last_amp, out⟩
      let r : Option NoiseLoop :=
        if volume = 0 then
          doWhile (Nes_Noise.run_body_silent tap period) NoiseLoop.time end_time
            (end_time - time).toNat l
        else
          doWhile (Nes_Noise.run_body volume tap period (X.resampled_duration period))
            NoiseLoop.time end_time (end_time - time).toNat l
      match r with
      | none => none
      | some l =>
        some ({ n with noise := l.noise, last_amp := l.last_amp, delay := l.time - end_time },
          l.out)
    else some ({ n with delay := time - end_time }, out)

/-! ## Concrete inputs -/

/-- A choice of the external parameters. -/
def exampleExt : Ext where
  min_period := 8
  trigger_none := -2
  no_irq := 1073741824
  resampled_duration := fun t => t * 65536
  resampled_time := fun t => t * 65536
  BLIP_BUFFER_ACCURACY := 16
  rom_reader := fun addr => addr % 256

/-- Registers for 50% duty, constant volume 15 and period 100, with an output bound. -/
def exampleOsc : Nes_Osc where
  regs0 := 0xBF
  regs1 := 0x08
  regs2 := 100
  regs3 := 0
  reg_written0 := false
  reg_written1 := false
  reg_written2 := false
  reg_written3 := false
  ages2 := 0
  ages3 := 0
  output := true
  length_counter := 5
  delay := 0
  last_amp := 0
  trigger := 0
  pal_mode := false

/-- An audible square channel at phase 0. -/
def exampleSquare : Nes_Square :=
  { exampleOsc with envelope := 0, env_delay := 0, phase := 0, sweep_delay := 0 }

/-- A square channel whose sweep unit is enabled with shift 1 and due to fire; the upper
bits of `regs[3]` hold the length index 0x15. -/
def exampleSweep : Nes_Square :=
  { exampleSquare with regs1 := 0x81, regs3 := 0xA8 }

/-- A ticking triangle channel with timer period 11, at phase 16 (amplitude 0). -/
def exampleTriangle : Nes_Triangle :=
  { exampleOsc with regs2 := 10, phase := 16, linear_counter := 3 }

/-- A DMC playing its last three bytes, with a byte buffered and `dac` near the top. -/
def exampleDmc : Nes_Dmc :=
  { exampleOsc with
    regs0 := 0
    length_counter := 3
    address := 0x7FFF
    period := 428
    buf := 0xA5
    bits_remain := 2
    bits := 3
    buf_full := true
    silence := false
    dac := 126
    paused_dac := 0
    next_irq := 0
    irq_enabled := true
    irq_flag := false
    nonlinear := false
    apu := ⟨0, 0x1F, 0⟩
    rom_reads := [] }

/-- A DMC that has run dry: silent, nothing buffered, three bits left in the cycle. -/
def exampleSilentDmc : Nes_Dmc :=
  { exampleDmc with
    length_counter := 0, buf_full := false, silence := true, bits_remain := 3, delay := 5,
    last_amp := 120 }

/-- The variables of the DMC loop on entry to `exampleDmc.run` at time 0. -/
def exampleDmcLoop : DmcLoop := ⟨exampleDmc, 0, 2, 3, 126, []⟩

/-- A noise channel whose shift register holds 1. -/
def exampleNoise : Nes_Noise :=
  { exampleOsc with envelope := 3, env_delay := 0, noise := 1 }

/-! ## Counting timer edges and unrolling the loops -/

theorem edges_spec (f e tp : Int) (htp : 0 < tp) (k : Nat) :
    k < edges f e tp ↔ f + k * tp < e := by
  unfold edges
  rw [Int.lt_toNat]
  constructor
  · intro h
    have h1 : ((k : Int) + 1) ≤ (e - f + tp - 1) / tp := h
    rw [Int.le_ediv_iff_mul_le htp] at h1
    linarith
  · intro h
    have h1 : ((k : Int) + 1) ≤ (e - f + tp - 1) / tp := by
      rw [Int.le_ediv_iff_mul_le htp]
      linarith
    exact h1

theorem edges_unique (f e tp : Int) (htp : 0 < tp) (n : Nat)
    (h : ∀ k : Nat, k < n ↔ f + k * tp < e) : edges f e tp = n := by
  apply le_antisymm
  · by_contra hc
    push_neg at hc
    have h1 := (edges_spec f e tp htp n).1 hc
    have h2 := (h n).2 h1
    omega
  · by_contra hc
    push_neg at hc
    have h1 := (h (edges f e tp)).1 hc
    have h2 := (edges_spec f e tp htp _).2 h1
    omega

theorem edges_eq_zero (f e tp : Int) (htp : 0 < tp) (h : e ≤ f) : edges f e tp = 0 := by
  apply edges_unique f e tp htp
  intro k
  constructor
  · intro hk; omega
  · intro hk
    have : (0:Int) ≤ k * tp := by positivity
    omega

theorem edges_pos (f e tp : Int) (htp : 0 < tp) (h : f < e) : 0 < edges f e tp := by
  rw [edges_spec f e tp htp]; simpa using h

theorem edges_succ (f e tp : Int) (htp : 0 < tp) (h : f < e) :
    edges f e tp = edges (f + tp) e tp + 1 := by
  apply edges_unique f e tp htp
  intro k
  cases k with
  | zero => simp; exact h
  | succ k =>
    rw [Nat.succ_lt_succ_iff, edges_spec _ _ _ htp]
    push_cast
    constructor <;> intro hk <;> linarith

theorem edges_split (f t1 t2 tp : Int) (htp : 0 < tp) (h12 : t1 ≤ t2) :
    edges f t2 tp = edges f t1 tp + edges (f + edges f t1 tp * tp) t2 tp := by
  apply edges_unique f t2 tp htp
  intro k
  by_cases hk : k < edges f t1 tp
  · have h1 := (edges_spec f t1 tp htp k).1 hk
    constructor
    · intro _; omega
    · intro _; omega
  · push_neg at hk
    obtain ⟨j, rfl⟩ := Nat.exists_eq_add_of_le hk
    have h2 := edges_spec (f + edges f t1 tp * tp) t2 tp htp j
    constructor
    · intro hj
      have := h2.1 (by omega)
      push_cast; linarith
    · intro hj
      have : j < edges (f + ↑(edges f t1 tp) * tp) t2 tp := by
        apply h2.2; push_cast at hj; linarith
      omega

/-- After the last edge before `end_time` the next edge is at or after `end_time`, less
than one period away. -/
theorem edges_bounds (f e tp : Int) (htp : 0 < tp) (h : f < e) :
    0 ≤ f + edges f e tp * tp - e ∧ f + edges f e tp * tp - e < tp := by
  have hp := edges_pos f e tp htp h
  have h1 := (edges_spec f e tp htp (edges f e tp)).not.1 (lt_irrefl _)
  have h2 := (edges_spec f e tp htp (edges f e tp - 1)).1 (by omega)
  have h3 : ((edges f e tp - 1 : Nat) : Int) = (edges f e tp : Int) - 1 := by omega
  rw [h3] at h2
  constructor
  · linarith
  · linarith

theorem edges_le (f e tp : Int) (htp : 0 < tp) : edges f e tp ≤ (e - f).toNat := by
  by_contra hc
  push_neg at hc
  have h1 := (edges_spec f e tp htp _).1 hc
  have h2 : (0 : Int) ≤ ((e - f).toNat : Int) := by positivity
  have h3 : ((e - f).toNat : Int) * 1 ≤ ((e - f).toNat : Int) * tp :=
    mul_le_mul_of_nonneg_left (by omega) h2
  omega

theorem edge_count_eq (f e tp : Int) (htp : 0 < tp) (h : e - f > 0) :
    edge_count (e - f) tp = (edges f e tp : Int) := by
  unfold edge_count edges
  rw [Int.tdiv_eq_ediv (by omega) (by omega), Int.toNat_of_nonneg]
  apply Int.ediv_nonneg <;> omega

theorem doWhile_iterate {σ : Type} (body : σ → σ) (time : σ → Int) (e tp : Int)
    (htp : 0 < tp) (hstep : ∀ s, time (body s) = time s + tp) :
    ∀ (fuel : Nat) (s : σ), time s < e → edges (time s) e tp ≤ fuel →
      doWhile body time e fuel s = some (body^[edges (time s) e tp] s) := by
  intro fuel
  induction fuel with
  | zero =>
    intro s hs hf
    have := edges_pos (time s) e tp htp hs
    omega
  | succ fuel ih =>
    intro s hs hf
    have hsucc := edges_succ (time s) e tp htp hs
    rw [doWhile, hstep]
    by_cases hlt : time s + tp < e
    · rw [if_pos hlt]
      have := ih (body s) (by rw [hstep]; exact hlt) (by rw [hstep]; omega)
      rw [this, hstep, hsucc, Function.iterate_succ_apply]
    · rw [if_neg hlt]
      have hz := edges_eq_zero (time s + tp) e tp htp (by omega)
      rw [hsucc, hz]
      rfl

theorem iterate_time {σ : Type} (body : σ → σ) (time : σ → Int) (tp : Int)
    (hstep : ∀ s, time (body s) = time s + tp) (n : Nat) (s : σ) :
    time (body^[n] s) = time s + n * tp := by
  induction n with
  | zero => simp
  | succ n ih =>
    rw [Function.iterate_succ_apply', hstep, ih]
    push_cast; ring

/-! ## Bit operations on `int` -/

theorem land_mask_nonneg (x : Int) (k : Nat) (hx : 0 ≤ x) :
    Int.land x (((2 ^ k - 1 : Nat)) : Int) = x % 2 ^ k := by
  obtain ⟨n, rfl⟩ := Int.eq_ofNat_of_zero_le hx
  show (((n &&& (2 ^ k - 1) : Nat)) : Int) = (n : Int) % 2 ^ k
  rw [Nat.and_pow_two_sub_one_eq_mod]
  push_cast
  rfl

theorem land_7 (x : Int) (hx : 0 ≤ x) : Int.land x 7 = x % 8 := by
  have := land_mask_nonneg x 3 hx
  simpa using this

theorem land_31 (x : Int) (hx : 0 ≤ x) : Int.land x 31 = x % 32 := by
  have := land_mask_nonneg x 5 hx
  simpa using this

theorem land_7FFF (x : Int) (hx : 0 ≤ x) : Int.land x 0x7FFF = x % 0x8000 := by
  have := land_mask_nonneg x 15 hx
  simpa using this

theorem ldiff_mask_lt (m n k : Nat) (hm : m < 2 ^ k) : Nat.ldiff m n < 2 ^ k := by
  apply Nat.lt_pow_two_of_testBit
  intro i hi
  rw [Nat.testBit_ldiff]
  have : m.testBit i = false := by
    apply Nat.testBit_lt_two_pow
    exact lt_of_lt_of_le hm (Nat.pow_le_pow_right (by norm_num) hi)
  simp [this]

/-- Masking any `int` with `2^k - 1` gives a value in `[0, 2^k)`. -/
theorem land_mask_range (x : Int) (m k : Nat) (hm : m < 2 ^ k) :
    0 ≤ Int.land x (m : Int) ∧ Int.land x (m : Int) < 2 ^ k := by
  cases x with
  | ofNat n =>
    show 0 ≤ (((n &&& m : Nat)) : Int) ∧ (((n &&& m : Nat)) : Int) < 2 ^ k
    have : n &&& m ≤ m := Nat.and_le_right
    constructor
    · positivity
    · exact_mod_cast lt_of_le_of_lt this hm
  | negSucc n =>
    show 0 ≤ (((Nat.ldiff m n : Nat)) : Int) ∧ (((Nat.ldiff m n : Nat)) : Int) < 2 ^ k
    have := ldiff_mask_lt m n k hm
    constructor
    · positivity
    · exact_mod_cast this

theorem land_one_cases (x : Int) : Int.land x 1 = 0 ∨ Int.land x 1 = 1 := by
  have h := land_mask_range x 1 1 (by norm_num)
  simp at h
  omega

theorem land_7F_range (x : Int) : 0 ≤ Int.land x 0x7F ∧ Int.land x 0x7F ≤ 127 := by
  have h := land_mask_range x 127 7 (by norm_num)
  simp at h
  omega

theorem xor_zero_left (v : Int) : Int.xor 0 v = v := by
  cases v with
  | ofNat n => show (((0 ^^^ n : Nat)) : Int) = (n : Int); simp
  | negSucc n => show Int.negSucc (0 ^^^ n) = Int.negSucc n; simp

theorem xor_self_eq (v : Int) : Int.xor v v = 0 := by
  cases v with
  | ofNat n => show (((n ^^^ n : Nat)) : Int) = 0; simp
  | negSucc n => show (((n ^^^ n : Nat)) : Int) = 0; simp

theorem shr_one (x : Int) : x >>> (1 : Nat) = x / 2 := by
  rw [Int.shiftRight_eq_div_pow]; rfl

/-! ## Nes_Square: closed form of `run` -/

theorem Nes_Osc.period_nonneg (o : Nes_Osc) : 0 ≤ o.period := by
  unfold Nes_Osc.period; positivity

theorem Nes_Square.timer_period_pos (s : Nes_Square) : 0 < (s.period + 1) * 2 := by
  have := s.period_nonneg
  omega

theorem Nes_Square.maintain_phase_eq (s : Nes_Square) (T e tp : Int) (htp : 0 < tp)
    (h0 : 0 ≤ s.phase) (h8 : s.phase < 8) :
    s.maintain_phase T e tp =
      ({ s with phase := (s.phase + edges T e tp) % 8 }, T + edges T e tp * tp) := by
  unfold Nes_Square.maintain_phase
  by_cases h : e - T > 0
  · simp only [h, if_true]
    rw [edge_count_eq T e tp htp h]
    have : Nes_Square.phase_range - 1 = 7 := by norm_num [Nes_Square.phase_range]
    rw [this, land_7 _ (by positivity)]
  · simp only [h, if_false]
    have hz := edges_eq_zero T e tp htp (by omega)
    rw [hz]
    have : (s.phase + ((0 : Nat) : Int)) % 8 = s.phase := by omega
    rw [this]
    simp

theorem Nes_Square.square_body_time (X : Ext) (duty tp : Int) (l : SquareLoop) :
    (Nes_Square.run_body X duty tp l).time = l.time + tp := by
  unfold Nes_Square.run_body
  simp only
  split <;> rfl

theorem Nes_Square.run_body_phase (X : Ext) (duty tp : Int) (l : SquareLoop)
    (h0 : 0 ≤ l.phase) :
    (Nes_Square.run_body X duty tp l).phase = (l.phase + 1) % 8 := by
  have h7 : Nes_Square.phase_range - 1 = 7 := by norm_num [Nes_Square.phase_range]
  unfold Nes_Square.run_body
  simp only [h7]
  rw [land_7 _ (by omega)]
  split <;> rfl

theorem Nes_Square.iterate_phase (X : Ext) (duty tp : Int) (n : Nat) (l : SquareLoop)
    (h0 : 0 ≤ l.phase) (h8 : l.phase < 8) :
    ((Nes_Square.run_body X duty tp)^[n] l).phase = (l.phase + n) % 8 := by
  induction n with
  | zero => simp only [Function.iterate_zero, id]; push_cast; omega
  | succ n ih =>
    rw [Function.iterate_succ_apply', Nes_Square.run_body_phase _ _ _ _ (by rw [ih]; omega), ih]
    push_cast; omega

theorem Nes_Square.duty_cases (s : Nes_Square) : s.duty = 1 ∨ s.duty = 2 ∨ s.duty = 4 := by
  unfold Nes_Square.duty
  have h : (s.regs0 >>> 6) &&& 3 ≤ 3 := Nat.and_le_right
  generalize (s.regs0 >>> 6) &&& 3 = ds at h
  interval_cases ds <;> simp

/-- The two levels of the square wave add up to the volume. -/
theorem Nes_Square.amp_at_levels (s : Nes_Square) :
    ∃ lo hi : Int, lo + hi = s.volume ∧
      ∀ p : Int, s.amp_at p = if p < s.duty then hi else lo := by
  by_cases h : (s.regs0 >>> 6) &&& 3 = 3
  · refine ⟨s.volume, 0, by ring, ?_⟩
    intro p
    unfold Nes_Square.amp_at
    simp only [h, if_true, xor_self_eq]
  · refine ⟨0, s.volume, by ring, ?_⟩
    intro p
    unfold Nes_Square.amp_at
    simp only [h, if_false, xor_zero_left]

theorem Nes_Square.run_body_delta (X : Ext) (s : Nes_Square) (tp : Int) (l : SquareLoop)
    (h0 : 0 ≤ l.phase) (h8 : l.phase < 8)
    (hd : l.delta = s.amp_at l.phase * 2 - s.volume) :
    (Nes_Square.run_body X s.duty tp l).delta =
      s.amp_at (Nes_Square.run_body X s.duty tp l).phase * 2 - s.volume := by
  obtain ⟨lo, hi, hv, hamp⟩ := s.amp_at_levels
  rw [Nes_Square.run_body_phase X _ _ _ h0]
  have h7 : Nes_Square.phase_range - 1 = 7 := by norm_num [Nes_Square.phase_range]
  unfold Nes_Square.run_body
  simp only [h7]
  rw [land_7 _ (by omega), hamp] at *
  have hduty := s.duty_cases
  split
  · rename_i hc
    simp only
    split <;> rw [hd] <;> split <;> omega
  · rename_i hc
    simp only
    split <;> rw [hd] <;> split <;> omega

theorem Nes_Square.iterate_delta (X : Ext) (s : Nes_Square) (tp : Int) (n : Nat)
    (l : SquareLoop) (h0 : 0 ≤ l.phase) (h8 : l.phase < 8)
    (hd : l.delta = s.amp_at l.phase * 2 - s.volume) :
    ((Nes_Square.run_body X s.duty tp)^[n] l).delta =
      s.amp_at ((Nes_Square.run_body X s.duty tp)^[n] l).phase * 2 - s.volume := by
  induction n with
  | zero => simpa using hd
  | succ n ih =>
    rw [Function.iterate_succ_apply']
    have hp := Nes_Square.iterate_phase X s.duty tp n l h0 h8
    exact Nes_Square.run_body_delta X s tp _ (by rw [hp]; omega) (by rw [hp]; omega) ih

theorem Nes_Square.square_run_unbound_eq (X : Ext) (s : Nes_Square) (t e : Int)
    (ho : s.output = false) (h0 : 0 ≤ s.phase) (h8 : s.phase < 8) :
    s.run X t e = some ({ s with
      phase := (s.phase + edges (t + s.delay) e ((s.period + 1) * 2)) % 8
      delay := t + s.delay + edges (t + s.delay) e ((s.period + 1) * 2) * ((s.period + 1) * 2) - e
      trigger := X.trigger_none }, []) := by
  unfold Nes_Square.run
  have hc : (!s.output) = true := by simp [ho]
  simp only [hc, if_true]
  rw [Nes_Square.maintain_phase_eq s _ _ _ s.timer_period_pos h0 h8]

theorem Nes_Square.run_silent_eq (X : Ext) (s : Nes_Square) (t e : Int)
    (ho : s.output = true) (hs : s.silent X) (h0 : 0 ≤ s.phase) (h8 : s.phase < 8) :
    s.run X t e = some ({ s with
      last_amp := 0
      phase := (s.phase + edges (t + s.delay) e ((s.period + 1) * 2)) % 8
      delay := t + s.delay + edges (t + s.delay) e ((s.period + 1) * 2) * ((s.period + 1) * 2) - e
      trigger := X.trigger_none },
      if s.last_amp ≠ 0 then [Emit.offset t (-s.last_amp)] else []) := by
  unfold Nes_Square.run
  have hc : (!s.output) = false := by simp [ho]
  simp only [hc, Bool.false_eq_true, hs, if_true, if_false]
  by_cases hl : s.last_amp = 0
  · simp only [hl, ne_eq, not_true_eq_false, if_false]
    rw [Nes_Square.maintain_phase_eq s _ _ _ s.timer_period_pos h0 h8]
    simp only [← hl]
  · simp only [hl, ne_eq, not_false_eq_true, if_true]
    have := Nes_Square.maintain_phase_eq { s with last_amp := 0 } (t + s.delay) e
      ((s.period + 1) * 2) s.timer_period_pos h0 h8
    rw [this]

/-- The loop variables with which an audible `Nes_Square::run` reaches its loop. -/
theorem Nes_Square.run_audible_eq (X : Ext) (s : Nes_Square) (t e : Int)
    (ho : s.output = true) (hs : ¬ s.silent X) (h0 : 0 ≤ s.phase) (h8 : s.phase < 8)
    (l : SquareLoop)
    (hl : l = (Nes_Square.run_body X s.duty ((s.period + 1) * 2))^[
      edges (t + s.delay) e ((s.period + 1) * 2)]
      ⟨t + s.delay, s.amp_at s.phase * 2 - s.volume, s.phase, s.trigger,
        if s.amp_at s.phase - s.last_amp ≠ 0 then
          [Emit.offset t (s.amp_at s.phase - s.last_amp)] else []⟩) :
    s.run X t e = some ({ s with
      trigger := l.trigger
      last_amp := s.amp_at l.phase
      phase := l.phase
      delay := l.time - e }, l.out) := by
  have htp := s.timer_period_pos
  unfold Nes_Square.run
  have hc : (!s.output) = false := by simp [ho]
  simp only [hc, Bool.false_eq_true, hs, if_false, update_amp]
  by_cases hlt : t + s.delay < e
  · simp only [hlt, if_true]
    have h := doWhile_iterate (Nes_Square.run_body X s.duty ((s.period + 1) * 2))
      SquareLoop.time e _ htp (Nes_Square.square_body_time X _ _) (e - (t + s.delay)).toNat
      ⟨t + s.delay, s.amp_at s.phase * 2 - s.volume, s.phase, s.trigger,
        if s.amp_at s.phase - s.last_amp ≠ 0 then
          [Emit.offset t (s.amp_at s.phase - s.last_amp)] else []⟩ hlt (edges_le _ _ _ htp)
    simp only at h
    rw [h, ← hl]
    simp only
    have hd := Nes_Square.iterate_delta X s ((s.period + 1) * 2)
      (edges (t + s.delay) e ((s.period + 1) * 2))
      ⟨t + s.delay, s.amp_at s.phase * 2 - s.volume, s.phase, s.trigger,
        if s.amp_at s.phase - s.last_amp ≠ 0 then
          [Emit.offset t (s.amp_at s.phase - s.last_amp)] else []⟩ h0 h8 rfl
    rw [← hl] at hd
    rw [hd, shr_one]
    have : (s.amp_at l.phase * 2 - s.volume + s.volume) / 2 = s.amp_at l.phase := by omega
    rw [this]
  · simp only [hlt, if_false]
    have hz := edges_eq_zero (t + s.delay) e _ htp (by omega)
    rw [hz] at hl
    simp only [Function.iterate_zero, id] at hl
    subst hl
    rfl

theorem Nes_Square.run_body_out (X : Ext) (duty tp : Int) (l : SquareLoop) (o : List Emit) :
    Nes_Square.run_body X duty tp { l with out := o ++ l.out } =
      { Nes_Square.run_body X duty tp l with
        out := o ++ (Nes_Square.run_body X duty tp l).out } := by
  unfold Nes_Square.run_body
  simp only
  split <;> simp

theorem Nes_Square.iterate_out (X : Ext) (duty tp : Int) (n : Nat) (l : SquareLoop)
    (o : List Emit) :
    (Nes_Square.run_body X duty tp)^[n] { l with out := o ++ l.out } =
      { (Nes_Square.run_body X duty tp)^[n] l with
        out := o ++ ((Nes_Square.run_body X duty tp)^[n] l).out } := by
  induction n with
  | zero => rfl
  | succ n ih =>
    rw [Function.iterate_succ_apply', ih, Function.iterate_succ_apply']
    exact Nes_Square.run_body_out X duty tp _ o

/-- C1 (window-splitting invariance of `Nes_Square::run`). With an output bound and the
phase in `[0,8)`, for `t1 <= t2` the calls `run(t0,t1); run(t1,t2)` both return, and the
single call `run(t0,t2)` returns the same final channel state (every field, in particular
phase, delay and last_amp) and the same sequence of emissions. The bounds `delay >= 0` and
`t0 <= t1` of the claim are not needed. -/
theorem square_window_splitting (X : Ext) (s : Nes_Square) (t0 t1 t2 : Int)
    (ho : s.output = true) (h0 : 0 ≤ s.phase) (h8 : s.phase < 8) (h12 : t1 ≤ t2) :
    ∃ s1 out1 s2 out2, s.run X t0 t1 = some (s1, out1) ∧
      s1.run X t1 t2 = some (s2, out2) ∧
      s.run X t0 t2 = some (s2, out1 ++ out2) := by
  have htp := s.timer_period_pos
  have hsplit := edges_split (t0 + s.delay) t1 t2 _ htp h12
  by_cases hs : s.silent X
  · have e1 := Nes_Square.run_silent_eq X s t0 t1 ho hs h0 h8
    have e3 := Nes_Square.run_silent_eq X s t0 t2 ho hs h0 h8
    obtain ⟨s1, hs1⟩ : ∃ x : Nes_Square, x = { s with
      last_amp := 0
      phase := (s.phase + edges (t0 + s.delay) t1 ((s.period + 1) * 2)) % 8
      delay := t0 + s.delay +
        edges (t0 + s.delay) t1 ((s.period + 1) * 2) * ((s.period + 1) * 2) - t1
      trigger := X.trigger_none } := ⟨_, rfl⟩
    rw [← hs1] at e1
    have ho1 : s1.output = true := by rw [hs1]; exact ho
    have hsil1 : s1.silent X := by rw [hs1]; exact hs
    have hph1 : s1.phase = (s.phase + edges (t0 + s.delay) t1 ((s.period + 1) * 2)) % 8 := by
      rw [hs1]
    have hper1 : s1.period = s.period := by rw [hs1]; rfl
    have hdel1 : t1 + s1.delay = t0 + s.delay +
        edges (t0 + s.delay) t1 ((s.period + 1) * 2) * ((s.period + 1) * 2) := by
      rw [hs1]; show t1 + (_ - t1) = _; ring
    have hla1 : s1.last_amp = 0 := by rw [hs1]
    have e2 := Nes_Square.run_silent_eq X s1 t1 t2 ho1 hsil1 (by rw [hph1]; omega)
      (by rw [hph1]; omega)
    rw [hper1, hph1, hdel1, hla1] at e2
    refine ⟨s1, _, _, _, e1, e2, ?_⟩
    rw [e3, hsplit, hs1]
    have hph : ((s.phase + edges (t0 + s.delay) t1 ((s.period + 1) * 2)) % 8 +
        edges (t0 + s.delay + edges (t0 + s.delay) t1 ((s.period + 1) * 2) *
          ((s.period + 1) * 2)) t2 ((s.period + 1) * 2)) % 8 =
        (s.phase + ((edges (t0 + s.delay) t1 ((s.period + 1) * 2) +
          edges (t0 + s.delay + edges (t0 + s.delay) t1 ((s.period + 1) * 2) *
          ((s.period + 1) * 2)) t2 ((s.period + 1) * 2) : Nat) : Int)) % 8 := by
      push_cast; omega
    rw [hph]
    simp only [ne_eq, not_true_eq_false, if_false, List.append_nil]
    push_cast
    rw [add_mul, ← add_assoc]
  · obtain ⟨tp, htpd⟩ : ∃ x : Int, x = (s.period + 1) * 2 := ⟨_, rfl⟩
    obtain ⟨l0, hl0⟩ : ∃ x : SquareLoop, x =
      ⟨t0 + s.delay, s.amp_at s.phase * 2 - s.volume, s.phase, s.trigger,
        if s.amp_at s.phase - s.last_amp ≠ 0 then
          [Emit.offset t0 (s.amp_at s.phase - s.last_amp)] else []⟩ := ⟨_, rfl⟩
    have hl0p : l0.phase = s.phase := by rw [hl0]
    have hl0t : l0.time = t0 + s.delay := by rw [hl0]
    have hl0d : l0.delta = s.amp_at l0.phase * 2 - s.volume := by rw [hl0]
    obtain ⟨n1, hn1⟩ : ∃ x : Nat, x = edges (t0 + s.delay) t1 tp := ⟨_, rfl⟩
    obtain ⟨n2, hn2⟩ : ∃ x : Nat, x = edges (t0 + s.delay + n1 * tp) t2 tp := ⟨_, rfl⟩
    rw [← htpd, ← hn1, ← hn2] at hsplit
    obtain ⟨L1, hL1⟩ : ∃ x : SquareLoop, x = (Nes_Square.run_body X s.duty tp)^[n1] l0 :=
      ⟨_, rfl⟩
    have e1 := Nes_Square.run_audible_eq X s t0 t1 ho hs h0 h8 L1
      (by rw [hL1, hl0, hn1, htpd])
    have hL1p : L1.phase = (s.phase + n1) % 8 := by
      rw [hL1, ← hl0p]
      exact Nes_Square.iterate_phase X _ _ _ _ (by rw [hl0p]; exact h0) (by rw [hl0p]; exact h8)
    have hL1t : L1.time = t0 + s.delay + n1 * tp := by
      rw [hL1, iterate_time _ SquareLoop.time _ (Nes_Square.square_body_time X _ _), hl0t]
    have hL1d : L1.delta = s.amp_at L1.phase * 2 - s.volume := by
      rw [hL1]
      exact Nes_Square.iterate_delta X s tp n1 l0 (by rw [hl0p]; exact h0)
        (by rw [hl0p]; exact h8) hl0d
    obtain ⟨s1, hs1⟩ : ∃ x : Nes_Square, x = { s with
      trigger := L1.trigger
      last_amp := s.amp_at L1.phase
      phase := L1.phase
      delay := L1.time - t1 } := ⟨_, rfl⟩
    rw [← hs1] at e1
    have ho1 : s1.output = true := by rw [hs1]; exact ho
    have hsil1 : ¬ s1.silent X := by rw [hs1]; exact hs
    have hph1 : s1.phase = L1.phase := by rw [hs1]
    have hper1 : (s1.period + 1) * 2 = tp := by rw [hs1, htpd]; rfl
    have hduty1 : s1.duty = s.duty := by rw [hs1]; rfl
    have hvol1 : s1.volume = s.volume := by rw [hs1]; rfl
    have hamp1 : ∀ p, s1.amp_at p = s.amp_at p := by intro p; rw [hs1]; rfl
    have htrig1 : s1.trigger = L1.trigger := by rw [hs1]
    have hla1 : s1.last_amp = s.amp_at L1.phase := by rw [hs1]
    have hdel1 : t1 + s1.delay = t0 + s.delay + n1 * tp := by
      rw [hs1, ← hL1t]; show t1 + (_ - t1) = _; ring
    obtain ⟨L2, hL2⟩ : ∃ x : SquareLoop, x =
      (Nes_Square.run_body X s.duty tp)^[n2] { L1 with out := [] } := ⟨_, rfl⟩
    have e2 := Nes_Square.run_audible_eq X s1 t1 t2 ho1 hsil1 (by rw [hph1, hL1p]; omega)
      (by rw [hph1, hL1p]; omega) L2 (by
        rw [hper1, hdel1, hduty1, hamp1, hvol1, hph1, htrig1, hla1, ← hn2, hL2, ← hL1d,
          ← hL1t]
        simp)
    refine ⟨s1, _, _, _, e1, e2, ?_⟩
    have hL : (Nes_Square.run_body X s.duty tp)^[n1 + n2] l0 =
        { L2 with out := L1.out ++ L2.out } := by
      rw [add_comm, Function.iterate_add_apply, ← hL1, hL2]
      have := Nes_Square.iterate_out X s.duty tp n2 { L1 with out := [] } L1.out
      simpa using this
    have e3 := Nes_Square.run_audible_eq X s t0 t2 ho hs h0 h8 _ rfl
    rw [← htpd, ← hl0, hsplit, hL] at e3
    rw [e3, hamp1, hs1]

/-- Closed form of the phase and delay left by `Nes_Square::run`, whatever path it takes. -/
theorem Nes_Square.run_phase_delay (X : Ext) (s : Nes_Square) (time end_time : Int)
    (h0 : 0 ≤ s.phase) (h8 : s.phase < 8) :
    ∃ r out, s.run X time end_time = some (r, out) ∧
      r.phase = (s.phase + edges (time + s.delay) end_time ((s.period + 1) * 2)) % 8 ∧
      r.delay = time + s.delay +
        edges (time + s.delay) end_time ((s.period + 1) * 2) * ((s.period + 1) * 2)
          - end_time := by
  by_cases ho : s.output = true
  · by_cases hs : s.silent X
    · exact ⟨_, _, Nes_Square.run_silent_eq X s time end_time ho hs h0 h8, rfl, rfl⟩
    · refine ⟨_, _, Nes_Square.run_audible_eq X s time end_time ho hs h0 h8 _ rfl, ?_, ?_⟩
      · exact Nes_Square.iterate_phase X _ _ _ _ h0 h8
      · show SquareLoop.time _ - end_time = _
        rw [iterate_time _ SquareLoop.time _ (Nes_Square.square_body_time X _ _)]
  · have ho' : s.output = false := by simpa using ho
    exact ⟨_, _, Nes_Square.square_run_unbound_eq X s time end_time ho' h0 h8, rfl, rfl⟩

/-- C3 (silent phase continuity of the square channel). Whatever path `Nes_Square::run`
takes (output unset, output bound but silent, output bound and audible: the state `s` is
arbitrary), with the phase in `[0,8)` the run returns, the phase has advanced by exactly
`n mod 8` and the new delay is `time + delay + n * timer_period - end_time`, where
`timer_period = (period() + 1) * 2` and `n` is the number of timer edges
`time + delay + k * timer_period` before `end_time`. Hence any other state `s'` with the
same phase, delay and period registers (for instance the same channel with the output
unset, or silenced) is left with the same phase and delay. The bounds `delay >= 0` and
`time <= end_time` of the claim are not needed. -/
theorem square_silent_phase_continuity (X : Ext) (s s' : Nes_Square) (time end_time : Int)
    (h0 : 0 ≤ s.phase) (h8 : s.phase < 8)
    (hphase : s'.phase = s.phase) (hdelay : s'.delay = s.delay)
    (hr2 : s'.regs2 = s.regs2) (hr3 : s'.regs3 = s.regs3) :
    ∃ r out r' out', s.run X time end_time = some (r, out) ∧
      s'.run X time end_time = some (r', out') ∧
      r.phase = (s.phase + edges (time + s.delay) end_time ((s.period + 1) * 2)) % 8 ∧
      r.delay = time + s.delay +
        edges (time + s.delay) end_time ((s.period + 1) * 2) * ((s.period + 1) * 2)
          - end_time ∧
      (∀ k : Nat, k < edges (time + s.delay) end_time ((s.period + 1) * 2) ↔
        time + s.delay + k * ((s.period + 1) * 2) < end_time) ∧
      r'.phase = r.phase ∧ r'.delay = r.delay := by
  have hspec := fun k => edges_spec (time + s.delay) end_time _ s.timer_period_pos k
  have hper : s'.period = s.period := by
    unfold Nes_Osc.period
    rw [hr2, hr3]
  obtain ⟨r, out, hr, hp, hd⟩ := Nes_Square.run_phase_delay X s time end_time h0 h8
  obtain ⟨r', out', hr', hp', hd'⟩ := Nes_Square.run_phase_delay X s' time end_time
    (by rw [hphase]; exact h0) (by rw [hphase]; exact h8)
  rw [hphase, hdelay, hper] at hp'
  rw [hdelay, hper] at hd'
  exact ⟨r, out, r', out', hr, hr', hp, hd, hspec, by rw [hp, hp'], by rw [hd, hd']⟩

/-! ## Nes_Triangle: the stepping loop -/

theorem deltaSum_append (a b : List Emit) : deltaSum (a ++ b) = deltaSum a + deltaSum b := by
  simp [deltaSum]

theorem deltaSum_nil : deltaSum [] = 0 := rfl

theorem deltaSum_singleton (e : Emit) : deltaSum [e] = e.delta := by
  simp [deltaSum]

theorem Nes_Triangle.triangle_body_time (X : Ext) (tp : Int) (l : TriangleLoop) :
    (Nes_Triangle.run_body X tp l).time = l.time + tp := by
  unfold Nes_Triangle.run_body
  simp only
  split <;> rfl

/-- One step of the triangle loop: the loop variables stay in range, the folded phase goes
down by one (wrapping from 1 to 32), and the step emits nothing when it turns around at
an extremum and otherwise one delta `+1` or `-1`, equal to the change of amplitude. -/
theorem Nes_Triangle.run_body_step (X : Ext) (tp : Int) (l : TriangleLoop)
    (h1 : 1 ≤ l.phase) (h16 : l.phase ≤ 16) (hv : l.volume = 1 ∨ l.volume = -1) :
    1 ≤ (Nes_Triangle.run_body X tp l).phase ∧ (Nes_Triangle.run_body X tp l).phase ≤ 16 ∧
    ((Nes_Triangle.run_body X tp l).volume = 1 ∨ (Nes_Triangle.run_body X tp l).volume = -1) ∧
    (Nes_Triangle.run_body X tp l).folded = (l.folded - 2) % 32 + 1 ∧
    ∃ o, (Nes_Triangle.run_body X tp l).out = l.out ++ o ∧
      (∀ e ∈ o, e.delta = 1 ∨ e.delta = -1) ∧
      deltaSum o = Nes_Triangle.amp_of (Nes_Triangle.run_body X tp l).folded -
        Nes_Triangle.amp_of l.folded := by
  unfold Nes_Triangle.run_body TriangleLoop.folded Nes_Triangle.amp_of Nes_Triangle.phase_range
  simp only
  by_cases hp : l.phase - 1 = 0
  · simp only [hp, if_true]
    refine ⟨by omega, by omega, by omega, ?_, [], by simp, by simp, ?_⟩
    · rcases hv with hv | hv <;> rw [hv] <;> simp <;> omega
    · rcases hv with hv | hv <;> rw [hv] <;> simp [deltaSum_nil] <;> split <;> omega
  · simp only [hp, if_false]
    refine ⟨by omega, by omega, hv, ?_, [Emit.offset l.time l.volume], rfl, ?_, ?_⟩
    · rcases hv with hv | hv <;> rw [hv] <;> simp <;> omega
    · intro e he
      simp only [List.mem_singleton] at he
      rw [he]
      exact hv
    · rw [deltaSum_singleton]
      rcases hv with hv | hv <;> rw [hv] <;> simp [Emit.delta] <;> split <;> split <;> omega

theorem Nes_Triangle.iterate_step (X : Ext) (tp : Int) (n : Nat) (l : TriangleLoop)
    (h1 : 1 ≤ l.phase) (h16 : l.phase ≤ 16) (hv : l.volume = 1 ∨ l.volume = -1) :
    1 ≤ ((Nes_Triangle.run_body X tp)^[n] l).phase ∧
    ((Nes_Triangle.run_body X tp)^[n] l).phase ≤ 16 ∧
    (((Nes_Triangle.run_body X tp)^[n] l).volume = 1 ∨
      ((Nes_Triangle.run_body X tp)^[n] l).volume = -1) ∧
    ((Nes_Triangle.run_body X tp)^[n] l).folded = (l.folded - 1 - n) % 32 + 1 ∧
    ∃ o, ((Nes_Triangle.run_body X tp)^[n] l).out = l.out ++ o ∧
      (∀ e ∈ o, e.delta = 1 ∨ e.delta = -1) ∧
      deltaSum o = Nes_Triangle.amp_of ((Nes_Triangle.run_body X tp)^[n] l).folded -
        Nes_Triangle.amp_of l.folded := by
  induction n with
  | zero =>
    refine ⟨h1, h16, hv, ?_, [], by simp, by simp, by simp [deltaSum_nil]⟩
    simp only [Function.iterate_zero, id]
    unfold TriangleLoop.folded Nes_Triangle.phase_range
    rcases hv with hv | hv <;> rw [hv] <;> simp <;> omega
  | succ n ih =>
    obtain ⟨i1, i16, iv, ifold, o, ho, hpm, hsum⟩ := ih
    rw [Function.iterate_succ_apply']
    obtain ⟨j1, j16, jv, jfold, o', ho', hpm', hsum'⟩ :=
      Nes_Triangle.run_body_step X tp _ i1 i16 iv
    refine ⟨j1, j16, jv, ?_, o ++ o', ?_, ?_, ?_⟩
    · rw [jfold, ifold]; push_cast; omega
    · rw [ho', ho, List.append_assoc]
    · intro e he
      rcases List.mem_append.1 he with he | he
      · exact hpm e he
      · exact hpm' e he
    · rw [deltaSum_append, hsum, hsum']; ring

theorem Nes_Triangle.loop_init_facts (t : Nes_Triangle) (T : Int) (o : List Emit) :
    (t.loop_init T o).time = T ∧ (t.loop_init T o).folded = t.phase ∧
    (t.loop_init T o).trigger = t.trigger ∧ (t.loop_init T o).out = o := by
  unfold Nes_Triangle.loop_init TriangleLoop.folded Nes_Triangle.phase_range
  split <;> simp

theorem Nes_Triangle.loop_init_range (t : Nes_Triangle) (T : Int) (o : List Emit)
    (h1 : 1 ≤ t.phase) (h32 : t.phase ≤ 32) :
    1 ≤ (t.loop_init T o).phase ∧ (t.loop_init T o).phase ≤ 16 ∧
    ((t.loop_init T o).volume = 1 ∨ (t.loop_init T o).volume = -1) := by
  unfold Nes_Triangle.loop_init Nes_Triangle.phase_range
  split <;> simp <;> omega

/-- Closed form of `Nes_Triangle::run` with an output bound while the channel ticks. -/
theorem Nes_Triangle.run_ticking_eq (X : Ext) (t : Nes_Triangle) (time e : Int)
    (ho : t.output = true)
    (htick : ¬ (t.length_counter = 0 ∨ t.linear_counter = 0 ∨ t.period + 1 < 3))
    (l : TriangleLoop)
    (hl : l = (Nes_Triangle.run_body X (t.period + 1))^[edges (time + t.delay) e (t.period + 1)]
      (t.loop_init (time + t.delay)
        (if t.calc_amp - t.last_amp ≠ 0 then [Emit.offset time (t.calc_amp - t.last_amp)]
          else []))) :
    t.run X time e = some ({ t with
      trigger := l.trigger
      phase := l.folded
      last_amp := Nes_Triangle.amp_of l.folded
      delay := l.time - e }, l.out) := by
  have htp : 0 < t.period + 1 := by have := t.period_nonneg; omega
  obtain ⟨o, hod⟩ : ∃ x : List Emit, x =
    (if t.calc_amp - t.last_amp ≠ 0 then [Emit.offset time (t.calc_amp - t.last_amp)]
      else []) := ⟨_, rfl⟩
  rw [← hod] at hl
  obtain ⟨f1, f2, f3, f4⟩ := Nes_Triangle.loop_init_facts t (time + t.delay) o
  unfold Nes_Triangle.run
  have hc : (!t.output) = false := by simp [ho]
  simp only [hc, Bool.false_eq_true, htick, if_false, update_amp, ← hod]
  have hinit : Nes_Triangle.loop_init
      { t with last_amp := t.calc_amp } (time + t.delay) o = t.loop_init (time + t.delay) o := rfl
  by_cases hlt : time + t.delay < e
  · simp only [hlt, if_true]
    have h := doWhile_iterate (Nes_Triangle.run_body X (t.period + 1)) TriangleLoop.time e _ htp
      (Nes_Triangle.triangle_body_time X _) (e - (time + t.delay)).toNat
      (t.loop_init (time + t.delay) o) (by rw [f1]; exact hlt)
      (by rw [f1]; exact edges_le _ _ _ htp)
    rw [f1, ← hl] at h
    rw [hinit, h]
    rfl
  · simp only [hlt, if_false]
    have hz := edges_eq_zero (time + t.delay) e _ htp (by omega)
    rw [hz] at hl
    simp only [Function.iterate_zero, id] at hl
    rw [hl, f1, f2, f3, f4]
    rfl

theorem deltaSum_initial (time d : Int) :
    deltaSum (if d ≠ 0 then [Emit.offset time d] else []) = d := by
  by_cases h : d = 0
  · simp [h, deltaSum_nil]
  · simp [h, deltaSum_singleton, Emit.delta]

/-- C2 (delta conservation for `Nes_Triangle::run`). With an output bound and the phase in
`[1,32]`, the run returns; the sum of all emitted deltas is `calc_amp(phase') - last_amp`
(`last_amp` before the call, `phase'` after it); afterwards `last_amp = calc_amp(phase')`
and `phase'` is in `[1,32]`; the emissions are the initial `update_amp` delta followed by
the deltas of the stepping loop, each of which is `+1` or `-1`; and the loop step that
turns around at an extremum (`--phase == 0`) flips `volume` and emits nothing, while every
other step emits exactly `volume`. The bound `time <= end_time` is not needed. -/
theorem triangle_delta_conservation (X : Ext) (t : Nes_Triangle) (time end_time : Int)
    (ho : t.output = true) (h1 : 1 ≤ t.phase) (h32 : t.phase ≤ 32) :
    ∃ r out loopOut, t.run X time end_time = some (r, out) ∧
      deltaSum out = r.calc_amp - t.last_amp ∧
      r.last_amp = r.calc_amp ∧ 1 ≤ r.phase ∧ r.phase ≤ 32 ∧
      out = (if t.calc_amp - t.last_amp ≠ 0 then
          [Emit.offset time (t.calc_amp - t.last_amp)] else []) ++ loopOut ∧
      (∀ e ∈ loopOut, e.delta = 1 ∨ e.delta = -1) ∧
      (∀ (tp : Int) (l : TriangleLoop), l.phase = 1 →
        (Nes_Triangle.run_body X tp l).out = l.out ∧
        (Nes_Triangle.run_body X tp l).volume = -l.volume) ∧
      (∀ (tp : Int) (l : TriangleLoop), l.phase ≠ 1 →
        (Nes_Triangle.run_body X tp l).out = l.out ++ [Emit.offset l.time l.volume] ∧
        (Nes_Triangle.run_body X tp l).volume = l.volume) := by
  have hflip : ∀ (tp : Int) (l : TriangleLoop), l.phase = 1 →
      (Nes_Triangle.run_body X tp l).out = l.out ∧
      (Nes_Triangle.run_body X tp l).volume = -l.volume := by
    intro tp l hl
    unfold Nes_Triangle.run_body
    simp [hl]
  have hstep : ∀ (tp : Int) (l : TriangleLoop), l.phase ≠ 1 →
      (Nes_Triangle.run_body X tp l).out = l.out ++ [Emit.offset l.time l.volume] ∧
      (Nes_Triangle.run_body X tp l).volume = l.volume := by
    intro tp l hl
    have : ¬ (l.phase - 1 = 0) := by omega
    unfold Nes_Triangle.run_body
    simp [this]
  by_cases htick : t.length_counter = 0 ∨ t.linear_counter = 0 ∨ t.period + 1 < 3
  · have e : t.run X time end_time = some ({ t with
        last_amp := t.calc_amp
        trigger := X.trigger_none
        delay := end_time - end_time },
        if t.calc_amp - t.last_amp ≠ 0 then [Emit.offset time (t.calc_amp - t.last_amp)]
        else []) := by
      unfold Nes_Triangle.run
      have hc : (!t.output) = false := by simp [ho]
      simp only [hc, Bool.false_eq_true, if_false, update_amp]
      rw [if_pos htick]
    refine ⟨_, _, [], e, ?_, rfl, h1, h32, by simp, by simp, hflip, hstep⟩
    show deltaSum _ = t.calc_amp - t.last_amp
    rw [deltaSum_initial]
  · obtain ⟨f1, f2, f3, f4⟩ := Nes_Triangle.loop_init_facts t (time + t.delay)
      (if t.calc_amp - t.last_amp ≠ 0 then [Emit.offset time (t.calc_amp - t.last_amp)]
        else [])
    obtain ⟨r1, r16, rv⟩ := Nes_Triangle.loop_init_range t (time + t.delay)
      (if t.calc_amp - t.last_amp ≠ 0 then [Emit.offset time (t.calc_amp - t.last_amp)]
        else []) h1 h32
    obtain ⟨i1, i16, iv, ifold, o, hout, hpm, hsum⟩ :=
      Nes_Triangle.iterate_step X (t.period + 1)
        (edges (time + t.delay) end_time (t.period + 1)) _ r1 r16 rv
    refine ⟨_, _, o, Nes_Triangle.run_ticking_eq X t time end_time ho htick _ rfl, ?_, rfl, ?_, ?_,
      ?_, hpm, hflip, hstep⟩
    · rw [hout, deltaSum_append, hsum, f2, f4, deltaSum_initial]
      show _ = Nes_Triangle.amp_of _ - t.last_amp
      unfold Nes_Triangle.calc_amp
      ring
    · show 1 ≤ TriangleLoop.folded _
      rw [ifold]; omega
    · show TriangleLoop.folded _ ≤ 32
      rw [ifold]; omega
    · rw [hout, f4]

/-- Closed form of `Nes_Triangle::run` with the output unset while the channel ticks and at
least one timer edge lies in the window: the `maintain_phase` path. -/
theorem Nes_Triangle.triangle_run_unbound_eq (X : Ext) (t : Nes_Triangle) (time e : Int)
    (ho : t.output = false)
    (htick : ¬ (t.length_counter = 0 ∨ t.linear_counter = 0 ∨ t.period + 1 < 3))
    (hlt : time + t.delay < e) :
    t.run X time e = some ({ t with
      phase := (t.phase + 1 - edges (time + t.delay) e (t.period + 1)) % 32 + 1
      delay := time + t.delay +
        edges (time + t.delay) e (t.period + 1) * (t.period + 1) - e
      trigger := X.trigger_none }, []) := by
  have htp : 0 < t.period + 1 := by have := t.period_nonneg; omega
  have htick' : t.length_counter ≠ 0 ∧ t.linear_counter ≠ 0 ∧ t.period + 1 ≥ 3 := by
    push_neg at htick; exact htick
  unfold Nes_Triangle.run Nes_Triangle.maintain_phase
  have hc : (!t.output) = true := by simp [ho]
  have hr : e - (time + t.delay) > 0 := by omega
  simp only [hc, if_true, hr, htick'.1, htick'.2.1, htick'.2.2, ne_eq, not_false_eq_true,
    and_self]
  rw [edge_count_eq _ _ _ htp hr]
  have h31 : Nes_Triangle.phase_range * 2 - 1 = 31 := by norm_num [Nes_Triangle.phase_range]
  rw [h31, land_31 _ (by omega)]
  have : (t.phase + 1 - (edges (time + t.delay) e (t.period + 1) : Int)) % 2 ^ 32 % 32 =
      (t.phase + 1 - (edges (time + t.delay) e (t.period + 1) : Int)) % 32 := by omega
  rw [this]

/-- The two paths of `Nes_Triangle::run` leave the same delay but never the same phase: once
a timer edge lies in the window, `maintain_phase` ends two steps away from the stepping
loop. -/
theorem Nes_Triangle.maintain_phase_off_by_two (X : Ext) (t : Nes_Triangle) (time e : Int)
    (ho : t.output = true) (h1 : 1 ≤ t.phase) (h32 : t.phase ≤ 32)
    (htick : ¬ (t.length_counter = 0 ∨ t.linear_counter = 0 ∨ t.period + 1 < 3))
    (hlt : time + t.delay < e) :
    ∃ r out r' out', t.run X time e = some (r, out) ∧
      Nes_Triangle.run X { t with output := false } time e = some (r', out') ∧
      r'.delay = r.delay ∧ r'.phase ≠ r.phase ∧ r'.phase = (r.phase + 1) % 32 + 1 := by
  have e1 := Nes_Triangle.run_ticking_eq X t time e ho htick _ rfl
  have e2 := Nes_Triangle.triangle_run_unbound_eq X { t with output := false } time e rfl htick hlt
  obtain ⟨f1, f2, f3, f4⟩ := Nes_Triangle.loop_init_facts t (time + t.delay)
      (if t.calc_amp - t.last_amp ≠ 0 then [Emit.offset time (t.calc_amp - t.last_amp)]
        else [])
  obtain ⟨r1, r16, rv⟩ := Nes_Triangle.loop_init_range t (time + t.delay)
      (if t.calc_amp - t.last_amp ≠ 0 then [Emit.offset time (t.calc_amp - t.last_amp)]
        else []) h1 h32
  obtain ⟨i1, i16, iv, ifold, o, hout, hpm, hsum⟩ :=
      Nes_Triangle.iterate_step X (t.period + 1)
        (edges (time + t.delay) e (t.period + 1)) _ r1 r16 rv
  have htime := iterate_time _ TriangleLoop.time _ (Nes_Triangle.triangle_body_time X (t.period + 1))
    (edges (time + t.delay) e (t.period + 1)) (t.loop_init (time + t.delay)
      (if t.calc_amp - t.last_amp ≠ 0 then [Emit.offset time (t.calc_amp - t.last_amp)]
        else []))
  refine ⟨_, _, _, _, e1, e2, ?_, ?_, ?_⟩
  · show _ = TriangleLoop.time _ - e
    rw [htime, f1]
    rfl
  · show (t.phase + 1 - _) % 32 + 1 ≠ TriangleLoop.folded _
    rw [ifold, f2]
    have hp : Nes_Osc.period { t with output := false }.toNes_Osc = t.period := rfl
    have hd : Nes_Osc.delay { t with output := false }.toNes_Osc = t.delay := rfl
    rw [hp, hd]
    omega
  · show (t.phase + 1 - _) % 32 + 1 = (TriangleLoop.folded _ + 1) % 32 + 1
    rw [ifold, f2]
    have hp : Nes_Osc.period { t with output := false }.toNes_Osc = t.period := rfl
    have hd : Nes_Osc.delay { t with output := false }.toNes_Osc = t.delay := rfl
    rw [hp, hd]
    omega

/-! ## The delay left by `run` -/

theorem Nes_Square.maintain_phase_time (s : Nes_Square) (T e tp : Int) (htp : 0 < tp) :
    (s.maintain_phase T e tp).2 = T + edges T e tp * tp := by
  unfold Nes_Square.maintain_phase
  by_cases h : e - T > 0
  · simp only [h, if_true]
    rw [edge_count_eq T e tp htp h]
  · simp only [h, if_false]
    rw [edges_eq_zero T e tp htp (by omega)]
    simp

/-- `Nes_Square::run` always returns, and the delay it leaves is the distance from
`end_time` to the first timer edge at or after it. -/
theorem Nes_Square.square_run_delay (X : Ext) (s : Nes_Square) (t e : Int) :
    ∃ r out, s.run X t e = some (r, out) ∧
      r.delay = t + s.delay + edges (t + s.delay) e ((s.period + 1) * 2) * ((s.period + 1) * 2)
        - e := by
  have htp := s.timer_period_pos
  unfold Nes_Square.run
  simp only [update_amp]
  split
  · exact ⟨_, _, rfl, by
      show (s.maintain_phase _ _ _).2 - e = _
      rw [Nes_Square.maintain_phase_time _ _ _ _ htp]⟩
  · split
    · refine ⟨_, _, rfl, ?_⟩
      show (Nes_Square.maintain_phase _ _ _ _).2 - e = _
      rw [Nes_Square.maintain_phase_time _ _ _ _ htp]
      split <;> rfl
    · by_cases hlt : t + s.delay < e
      · have h := doWhile_iterate (Nes_Square.run_body X s.duty ((s.period + 1) * 2))
          SquareLoop.time e _ htp (Nes_Square.square_body_time X _ _) (e - (t + s.delay)).toNat
          ⟨t + s.delay, s.amp_at s.phase * 2 - s.volume, s.phase, s.trigger,
            if s.amp_at s.phase - s.last_amp ≠ 0 then
              [Emit.offset t (s.amp_at s.phase - s.last_amp)] else []⟩ hlt
          (edges_le _ _ _ htp)
        simp only at h
        simp only [hlt, if_true]
        rw [h]
        refine ⟨_, _, rfl, ?_⟩
        show SquareLoop.time _ - e = _
        rw [iterate_time _ SquareLoop.time _ (Nes_Square.square_body_time X _ _)]
      · simp only [hlt, if_false]
        refine ⟨_, _, rfl, ?_⟩
        show t + s.delay - e = _
        rw [edges_eq_zero _ _ _ htp (by omega)]
        simp

/-- `Nes_Triangle::run` always returns, with an output bound or not; a channel that does
not tick is left with delay 0, a ticking one with the distance from `end_time` to the first
timer edge at or after it. -/
theorem Nes_Triangle.triangle_run_delay (X : Ext) (t : Nes_Triangle) (time e : Int) :
    ∃ r out, t.run X time e = some (r, out) ∧
      ((t.length_counter = 0 ∨ t.linear_counter = 0 ∨ t.period + 1 < 3) → r.delay = 0) ∧
      (¬ (t.length_counter = 0 ∨ t.linear_counter = 0 ∨ t.period + 1 < 3) →
        r.delay = time + t.delay + edges (time + t.delay) e (t.period + 1) * (t.period + 1)
          - e) := by
  have htp : 0 < t.period + 1 := by have := t.period_nonneg; omega
  by_cases ho : t.output = true
  · by_cases htick : t.length_counter = 0 ∨ t.linear_counter = 0 ∨ t.period + 1 < 3
    · have e1 : t.run X time e = some ({ t with
          last_amp := t.calc_amp
          trigger := X.trigger_none
          delay := e - e },
          if t.calc_amp - t.last_amp ≠ 0 then [Emit.offset time (t.calc_amp - t.last_amp)]
          else []) := by
        unfold Nes_Triangle.run
        have hc : (!t.output) = false := by simp [ho]
        simp only [hc, Bool.false_eq_true, if_false, update_amp]
        rw [if_pos htick]
      exact ⟨_, _, e1, fun _ => by show e - e = 0; ring, fun h => absurd htick h⟩
    · refine ⟨_, _, Nes_Triangle.run_ticking_eq X t time e ho htick _ rfl,
        fun h => absurd h htick, fun _ => ?_⟩
      show TriangleLoop.time _ - e = _
      rw [iterate_time _ TriangleLoop.time _ (Nes_Triangle.triangle_body_time X (t.period + 1)),
        (Nes_Triangle.loop_init_facts t _ _).1]
  · -- the output is unset: the `maintain_phase` path
    have ho' : t.output = false := by simpa using ho
    have hc : (!t.output) = true := by simp [ho']
    by_cases htick : t.length_counter = 0 ∨ t.linear_counter = 0 ∨ t.period + 1 < 3
    · have hno : ¬ (t.length_counter ≠ 0 ∧ t.linear_counter ≠ 0 ∧ t.period + 1 ≥ 3) := by
        rintro ⟨h1, h2, h3⟩
        rcases htick with h | h | h
        · exact h1 h
        · exact h2 h
        · omega
      have e1 : t.run X time e =
          some ({ t with delay := 0, trigger := X.trigger_none }, []) := by
        unfold Nes_Triangle.run
        simp only [hc, if_true]
        rw [if_neg hno]
      exact ⟨_, _, e1, fun _ => rfl, fun h => absurd htick h⟩
    · by_cases hlt : time + t.delay < e
      · exact ⟨_, _, Nes_Triangle.triangle_run_unbound_eq X t time e ho' htick hlt,
          fun h => absurd h htick, fun _ => rfl⟩
      · have hyes : t.length_counter ≠ 0 ∧ t.linear_counter ≠ 0 ∧ t.period + 1 ≥ 3 := by
          push_neg at htick; exact htick
        have hr : ¬ (e - (time + t.delay) > 0) := by omega
        have e1 : t.run X time e =
            some ({ t with delay := time + t.delay - e, trigger := X.trigger_none }, []) := by
          unfold Nes_Triangle.run Nes_Triangle.maintain_phase
          simp only [hc, if_true, hr, if_false]
          rw [if_pos hyes]
        refine ⟨_, _, e1, fun h => absurd h htick, fun _ => ?_⟩
        show time + t.delay - e = _
        rw [edges_eq_zero _ _ _ htp (by omega)]
        simp

theorem Nes_Dmc.dmc_body_time (X : Ext) (period : Int) (l : DmcLoop) :
    (Nes_Dmc.run_body X period l).time = l.time + period := by
  have h1 : ∀ l : DmcLoop, (Nes_Dmc.run_shift l).time = l.time := by
    intro l
    unfold Nes_Dmc.run_shift
    simp only
    split
    · split <;> rfl
    · rfl
  have h2 : ∀ l : DmcLoop, (Nes_Dmc.run_reload X l).time = l.time := by
    intro l
    unfold Nes_Dmc.run_reload
    simp only
    split
    · split <;> rfl
    · rfl
  unfold Nes_Dmc.run_body
  simp only [h2, h1]

/-- `Nes_Dmc::run` with a positive period always returns, and the delay it leaves is the
distance from `end_time` to the first timer edge at or after it. -/
theorem Nes_Dmc.dmc_run_delay (X : Ext) (d : Nes_Dmc) (time e : Int) (hp : 0 < d.period) :
    ∃ r out, d.run X time e = some (r, out) ∧
      r.delay = time + d.delay + edges (time + d.delay) e d.period * d.period - e := by
  unfold Nes_Dmc.run
  simp only [update_amp]
  by_cases hlt : time + d.delay < e
  · simp only [hlt, if_true]
    split
    · have hne : d.period ≠ 0 := by omega
      simp only [hne, if_false]
      refine ⟨_, _, rfl, ?_⟩
      show time + d.delay + Int.tdiv (e - (time + d.delay) + d.period - 1) d.period * d.period
        - e = _
      have := edge_count_eq (time + d.delay) e d.period hp (by omega)
      unfold edge_count at this
      rw [this]
    · have h := doWhile_iterate (Nes_Dmc.run_body X d.period) DmcLoop.time e _ hp
        (Nes_Dmc.dmc_body_time X _) (e - (time + d.delay)).toNat
        ⟨{ d with last_amp := d.dac }, time + d.delay, d.bits_remain, d.bits, d.dac,
          if d.dac - d.last_amp ≠ 0 ∧ d.output = true then
            [Emit.offset time (d.dac - d.last_amp)] else []⟩ hlt (edges_le _ _ _ hp)
      simp only at h
      rw [h]
      refine ⟨_, _, rfl, ?_⟩
      show DmcLoop.time _ - e = _
      rw [iterate_time _ DmcLoop.time _ (Nes_Dmc.dmc_body_time X _)]
  · simp only [hlt, if_false]
    refine ⟨_, _, rfl, ?_⟩
    show time + d.delay - e = _
    rw [edges_eq_zero _ _ _ hp (by omega)]
    simp

theorem noise_period_pos (pal_mode : Bool) (i : Nat) (hi : i < 16) :
    0 < (noise_period_table pal_mode).getD i 0 := by
  cases pal_mode <;> interval_cases i <;> decide

/-- The timer period of the noise channel: the table entry selected by register 2. -/
theorem Nes_Noise.period_pos (n : Nes_Noise) :
    0 < (noise_period_table n.pal_mode).getD (n.regs2 &&& 15) 0 :=
  noise_period_pos _ _ (Nat.lt_succ_of_le Nat.and_le_right)

theorem Nes_Noise.run_body_silent_time (tap : Nat) (period : Int) (l : NoiseLoop) :
    (Nes_Noise.run_body_silent tap period l).time = l.time + period := rfl

theorem Nes_Noise.noise_body_time (volume : Int) (tap : Nat) (period rperiod : Int)
    (l : NoiseLoop) :
    (Nes_Noise.run_body volume tap period rperiod l).time = l.time + period := rfl

/-- `Nes_Noise::run` with an output bound always returns, and the delay it leaves is the
distance from `end_time` to the first timer edge at or after it. -/
theorem Nes_Noise.noise_run_delay (X : Ext) (n : Nes_Noise) (time e : Int) (ho : n.output = true) :
    ∃ r out, n.run X time e = some (r, out) ∧
      r.delay = time + n.delay +
        edges (time + n.delay) e ((noise_period_table n.pal_mode).getD (n.regs2 &&& 15) 0) *
          ((noise_period_table n.pal_mode).getD (n.regs2 &&& 15) 0) - e := by
  have hp := n.period_pos
  unfold Nes_Noise.run
  have hc : (!n.output) = false := by simp [ho]
  simp only [hc, Bool.false_eq_true, if_false, update_amp]
  by_cases hlt : time + n.delay < e
  · simp only [hlt, if_true]
    by_cases hv : n.volume = 0
    · simp only [hv, if_true]
      have h := doWhile_iterate (Nes_Noise.run_body_silent (if n.regs2 &&& 0x80 ≠ 0 then 6 else 1)
          ((noise_period_table n.pal_mode).getD (n.regs2 &&& 15) 0)) NoiseLoop.time e _ hp
        (Nes_Noise.run_body_silent_time _ _) (e - (time + n.delay)).toNat
        ⟨time + n.delay, X.resampled_time (time + n.delay), n.noise,
          if Int.land n.noise 1 ≠ 0 then 0 else 0,
          if (if Int.land n.noise 1 ≠ 0 then 0 else 0) - n.last_amp ≠ 0 then
            [Emit.offset time ((if Int.land n.noise 1 ≠ 0 then 0 else 0) - n.last_amp)]
          else []⟩ hlt (edges_le _ _ _ hp)
      simp only at h
      rw [h]
      refine ⟨_, _, rfl, ?_⟩
      show NoiseLoop.time _ - e = _
      rw [iterate_time _ NoiseLoop.time _ (Nes_Noise.run_body_silent_time _ _)]
    · simp only [hv, if_false]
      have h := doWhile_iterate (Nes_Noise.run_body n.volume (if n.regs2 &&& 0x80 ≠ 0 then 6 else 1)
          ((noise_period_table n.pal_mode).getD (n.regs2 &&& 15) 0)
          (X.resampled_duration ((noise_period_table n.pal_mode).getD (n.regs2 &&& 15) 0)))
        NoiseLoop.time e _ hp
        (Nes_Noise.noise_body_time _ _ _ _) (e - (time + n.delay)).toNat
        ⟨time + n.delay, X.resampled_time (time + n.delay), n.noise,
          if Int.land n.noise 1 ≠ 0 then 0 else n.volume,
          if (if Int.land n.noise 1 ≠ 0 then 0 else n.volume) - n.last_amp ≠ 0 then
            [Emit.offset time ((if Int.land n.noise 1 ≠ 0 then 0 else n.volume) - n.last_amp)]
          else []⟩ hlt (edges_le _ _ _ hp)
      simp only at h
      rw [h]
      refine ⟨_, _, rfl, ?_⟩
      show NoiseLoop.time _ - e = _
      rw [iterate_time _ NoiseLoop.time _ (Nes_Noise.noise_body_time _ _ _ _)]
  · simp only [hlt, if_false]
    refine ⟨_, _, rfl, ?_⟩
    show time + n.delay - e = _
    rw [edges_eq_zero _ _ _ hp (by omega)]
    simp

/-- C5 (delay invariant). For the square and triangle channels (any state, with an output
bound or not), the noise channel (output bound) and the DMC (positive period),
`run(time, end_time)` returns and leaves `delay >= 0`; and whenever
`time + delay < end_time` on entry (and, for the triangle, the channel ticks), at least
one timer edge is processed, the new delay is
`time + delay + n * timer_period - end_time` for the number `n` of timer edges before
`end_time` (`edges`, characterised by `edges_spec`), and `0 <= delay < timer_period`.
The timer periods are `(period()+1)*2`, `period()+1`, `period` and the noise table entry.
The bounds `delay >= 0` and `time <= end_time` are not needed. -/
theorem delay_invariant (X : Ext) (s : Nes_Square) (t : Nes_Triangle) (d : Nes_Dmc)
    (n : Nes_Noise) (time end_time : Int)
    (hn : n.output = true) (hd : 0 < d.period) :
    (∃ r out, s.run X time end_time = some (r, out) ∧ 0 ≤ r.delay ∧
      (time + s.delay < end_time →
        0 < edges (time + s.delay) end_time ((s.period + 1) * 2) ∧
        r.delay = time + s.delay +
          edges (time + s.delay) end_time ((s.period + 1) * 2) * ((s.period + 1) * 2)
          - end_time ∧
        r.delay < (s.period + 1) * 2)) ∧
    (∃ r out, t.run X time end_time = some (r, out) ∧ 0 ≤ r.delay ∧
      (time + t.delay < end_time →
        ¬ (t.length_counter = 0 ∨ t.linear_counter = 0 ∨ t.period + 1 < 3) →
        0 < edges (time + t.delay) end_time (t.period + 1) ∧
        r.delay = time + t.delay +
          edges (time + t.delay) end_time (t.period + 1) * (t.period + 1) - end_time ∧
        r.delay < t.period + 1)) ∧
    (∃ r out, d.run X time end_time = some (r, out) ∧ 0 ≤ r.delay ∧
      (time + d.delay < end_time →
        0 < edges (time + d.delay) end_time d.period ∧
        r.delay = time + d.delay +
          edges (time + d.delay) end_time d.period * d.period - end_time ∧
        r.delay < d.period)) ∧
    (∃ r out, n.run X time end_time = some (r, out) ∧ 0 ≤ r.delay ∧
      (time + n.delay < end_time →
        0 < edges (time + n.delay) end_time
          ((noise_period_table n.pal_mode).getD (n.regs2 &&& 15) 0) ∧
        r.delay = time + n.delay +
          edges (time + n.delay) end_time
            ((noise_period_table n.pal_mode).getD (n.regs2 &&& 15) 0) *
            ((noise_period_table n.pal_mode).getD (n.regs2 &&& 15) 0) - end_time ∧
        r.delay < (noise_period_table n.pal_mode).getD (n.regs2 &&& 15) 0)) := by
  have key : ∀ (T tp x : Int), 0 < tp → x = T + edges T end_time tp * tp - end_time →
      0 ≤ x ∧ (T < end_time → 0 < edges T end_time tp ∧
        x = T + edges T end_time tp * tp - end_time ∧ x < tp) := by
    intro T tp x htp hx
    by_cases hlt : T < end_time
    · have hb := edges_bounds T end_time tp htp hlt
      exact ⟨by rw [hx]; exact hb.1, fun _ => ⟨edges_pos T end_time tp htp hlt, hx,
        by rw [hx]; exact hb.2⟩⟩
    · refine ⟨?_, fun h => absurd h hlt⟩
      rw [hx, edges_eq_zero T end_time tp htp (by omega)]
      simp only [Nat.cast_zero, zero_mul, add_zero]
      omega
  refine ⟨?_, ?_, ?_, ?_⟩
  · obtain ⟨r, out, hr, hdel⟩ := Nes_Square.square_run_delay X s time end_time
    have k := key _ _ _ s.timer_period_pos hdel
    exact ⟨r, out, hr, k.1, k.2⟩
  · obtain ⟨r, out, hr, hsil, htick⟩ := Nes_Triangle.triangle_run_delay X t time end_time
    have htp : 0 < t.period + 1 := by have := t.period_nonneg; omega
    by_cases hc : t.length_counter = 0 ∨ t.linear_counter = 0 ∨ t.period + 1 < 3
    · exact ⟨r, out, hr, by rw [hsil hc], fun _ h => absurd hc h⟩
    · have k := key _ _ _ htp (htick hc)
      exact ⟨r, out, hr, k.1, fun h _ => k.2 h⟩
  · obtain ⟨r, out, hr, hdel⟩ := Nes_Dmc.dmc_run_delay X d time end_time hd
    have k := key _ _ _ hd hdel
    exact ⟨r, out, hr, k.1, k.2⟩
  · obtain ⟨r, out, hr, hdel⟩ := Nes_Noise.noise_run_delay X n time end_time hn
    have k := key _ _ _ n.period_pos hdel
    exact ⟨r, out, hr, k.1, k.2⟩

/-! ## Nes_Noise: the shift register -/

theorem iterate_invariant {σ : Type} (body : σ → σ) (P : σ → Prop)
    (h : ∀ s, P s → P (body s)) (n : Nat) (s : σ) (hs : P s) : P (body^[n] s) := by
  induction n with
  | zero => exact hs
  | succ n ih => rw [Function.iterate_succ_apply']; exact h _ ih

/-- On a non-negative register the shift-register step is the same computation on natural
numbers. -/
theorem Nes_Noise.lfsr_coe (tap m : Nat) :
    Nes_Noise.lfsr tap (m : Int) =
      (((m >>> 1) ||| (((m &&& 1) ^^^ ((m >>> tap) &&& 1)) <<< 14) : Nat) : Int) := by
  unfold Nes_Noise.lfsr
  have h1 : Int.land (m : Int) 0x01 = ((m &&& 1 : Nat) : Int) := rfl
  have h2 : ((m : Int) >>> tap) = ((m >>> tap : Nat) : Int) := rfl
  have h3 : Int.land ((m >>> tap : Nat) : Int) 0x01 = (((m >>> tap) &&& 1 : Nat) : Int) := rfl
  have h4 : Int.xor ((m &&& 1 : Nat) : Int) (((m >>> tap) &&& 1 : Nat) : Int) =
      (((m &&& 1) ^^^ ((m >>> tap) &&& 1) : Nat) : Int) := rfl
  have h5 : ((m : Int) >>> (1 : Nat)) = ((m >>> 1 : Nat) : Int) := rfl
  simp only [h1, h2, h3, h4, h5]
  have h6 : ((((m &&& 1) ^^^ ((m >>> tap) &&& 1) : Nat) : Int) <<< (14 : Int)) =
      ((((m &&& 1) ^^^ ((m >>> tap) &&& 1)) <<< 14 : Nat) : Int) :=
    Int.shiftLeft_coe_nat _ 14
  rw [h6]
  rfl

theorem or_pos_of_left_pos (x y : Nat) (hx : 1 ≤ x) : 1 ≤ x ||| y := by
  obtain ⟨i, hi⟩ := Nat.ne_zero_implies_bit_true (by omega : x ≠ 0)
  have h : (x ||| y).testBit i = true := by rw [Nat.testBit_or, hi]; rfl
  rcases Nat.eq_zero_or_pos (x ||| y) with h0 | h0
  · rw [h0] at h; simp at h
  · exact h0

theorem Nes_Noise.lfsr_range (tap : Nat) (noise : Int) (htap : tap = 1 ∨ tap = 6)
    (h1 : 1 ≤ noise) (h15 : noise < 2 ^ 15) :
    1 ≤ Nes_Noise.lfsr tap noise ∧ Nes_Noise.lfsr tap noise < 2 ^ 15 := by
  obtain ⟨m, rfl⟩ := Int.eq_ofNat_of_zero_le (by omega : 0 ≤ noise)
  have hm1 : 1 ≤ m := by exact_mod_cast h1
  have hm15 : m < 2 ^ 15 := by exact_mod_cast h15
  rw [Nes_Noise.lfsr_coe]
  have hfb : ((m &&& 1) ^^^ ((m >>> tap) &&& 1)) < 2 ^ 1 :=
    Nat.xor_lt_two_pow (lt_of_le_of_lt Nat.and_le_right (by norm_num))
      (lt_of_le_of_lt Nat.and_le_right (by norm_num))
  have hhi : (((m &&& 1) ^^^ ((m >>> tap) &&& 1)) <<< 14) < 2 ^ 15 := by
    rw [Nat.shiftLeft_eq]
    omega
  have hlo : m >>> 1 < 2 ^ 15 := by
    rw [Nat.shiftRight_eq_div_pow]
    omega
  constructor
  · by_cases hm : m = 1
    · subst hm
      rcases htap with rfl | rfl <;> decide
    · have : 1 ≤ m >>> 1 := by
        rw [Nat.shiftRight_eq_div_pow]
        omega
      exact_mod_cast or_pos_of_left_pos (m >>> 1)
        (((m &&& 1) ^^^ ((m >>> tap) &&& 1)) <<< 14) this
  · exact_mod_cast Nat.or_lt_two_pow hlo hhi

/-- C6 (noise register never zero). For a shift register `noise` with
`1 <= noise < 2^15`, one step of the register with either tap (1 or 6) again gives a value
in `[1, 2^15)`; and `Nes_Noise::run`, started with such a register (output bound or not,
any window), returns with the register still in `[1, 2^15)`. -/
theorem noise_register_never_zero (X : Ext) (n : Nes_Noise) (time end_time : Int)
    (h1 : 1 ≤ n.noise) (h15 : n.noise < 2 ^ 15) :
    (∀ tap : Nat, tap = 1 ∨ tap = 6 →
      1 ≤ Nes_Noise.lfsr tap n.noise ∧ Nes_Noise.lfsr tap n.noise < 2 ^ 15) ∧
    ∃ r out, n.run X time end_time = some (r, out) ∧ 1 ≤ r.noise ∧ r.noise < 2 ^ 15 := by
  refine ⟨fun tap htap => Nes_Noise.lfsr_range tap n.noise htap h1 h15, ?_⟩
  have hp := n.period_pos
  have htap : (if n.regs2 &&& 0x80 ≠ 0 then 6 else 1 : Nat) = 1 ∨
      (if n.regs2 &&& 0x80 ≠ 0 then 6 else 1 : Nat) = 6 := by
    split
    · right; rfl
    · left; rfl
  unfold Nes_Noise.run
  by_cases ho : n.output = true
  · have hc : (!n.output) = false := by simp [ho]
    simp only [hc, Bool.false_eq_true, if_false, update_amp]
    by_cases hlt : time + n.delay < end_time
    · simp only [hlt, if_true]
      by_cases hv : n.volume = 0
      · simp only [hv, if_true]
        have h := doWhile_iterate
          (Nes_Noise.run_body_silent (if n.regs2 &&& 0x80 ≠ 0 then 6 else 1)
            ((noise_period_table n.pal_mode).getD (n.regs2 &&& 15) 0)) NoiseLoop.time end_time _ hp
          (Nes_Noise.run_body_silent_time _ _) (end_time - (time + n.delay)).toNat
          ⟨time + n.delay, X.resampled_time (time + n.delay), n.noise,
            if Int.land n.noise 1 ≠ 0 then 0 else 0,
            if (if Int.land n.noise 1 ≠ 0 then 0 else 0) - n.last_amp ≠ 0 then
              [Emit.offset time ((if Int.land n.noise 1 ≠ 0 then 0 else 0) - n.last_amp)]
            else []⟩ hlt (edges_le _ _ _ hp)
        simp only at h
        rw [h]
        refine ⟨_, _, rfl, ?_⟩
        exact iterate_invariant _ (fun l : NoiseLoop => 1 ≤ l.noise ∧ l.noise < 2 ^ 15)
          (fun l hl => Nes_Noise.lfsr_range _ l.noise htap hl.1 hl.2) _ _ ⟨h1, h15⟩
      · simp only [hv, if_false]
        have h := doWhile_iterate
          (Nes_Noise.run_body n.volume (if n.regs2 &&& 0x80 ≠ 0 then 6 else 1)
            ((noise_period_table n.pal_mode).getD (n.regs2 &&& 15) 0)
            (X.resampled_duration ((noise_period_table n.pal_mode).getD (n.regs2 &&& 15) 0)))
          NoiseLoop.time end_time _ hp
          (Nes_Noise.noise_body_time _ _ _ _) (end_time - (time + n.delay)).toNat
          ⟨time + n.delay, X.resampled_time (time + n.delay), n.noise,
            if Int.land n.noise 1 ≠ 0 then 0 else n.volume,
            if (if Int.land n.noise 1 ≠ 0 then 0 else n.volume) - n.last_amp ≠ 0 then
              [Emit.offset time
                ((if Int.land n.noise 1 ≠ 0 then 0 else n.volume) - n.last_amp)]
            else []⟩ hlt (edges_le _ _ _ hp)
        simp only at h
        rw [h]
        refine ⟨_, _, rfl, ?_⟩
        exact iterate_invariant _ (fun l : NoiseLoop => 1 ≤ l.noise ∧ l.noise < 2 ^ 15)
          (fun l hl => Nes_Noise.lfsr_range _ l.noise htap hl.1 hl.2) _ _ ⟨h1, h15⟩
    · simp only [hlt, if_false]
      exact ⟨_, _, rfl, h1, h15⟩
  · have hc : (!n.output) = true := by simpa using ho
    simp only [hc, if_true]
    exact ⟨_, _, rfl, h1, h15⟩

/-! ## Nes_Dmc: `count_reads` -/

/-- One tick after `k` whole bytes past the first read, `count_reads` reports `k + 1`. -/
theorem Nes_Dmc.count_reads_at (d : Nes_Dmc) (k : Int) (hk : 0 ≤ k)
    (hl : d.length_counter ≠ 0) (hp : 0 < d.period)
    (hc : d.regs0 &&& loop_flag ≠ 0 ∨ k + 1 ≤ d.length_counter) :
    (d.count_reads (d.first_read + k * (d.period * 8) + 1)).1 = k + 1 := by
  have hP : 0 < d.period * 8 := by omega
  have hkP : 0 ≤ k * (d.period * 8) := mul_nonneg hk (le_of_lt hP)
  unfold Nes_Dmc.count_reads
  have hav : ¬ (d.first_read + k * (d.period * 8) + 1 - d.first_read ≤ 0) := by omega
  simp only [hl, if_false, hav]
  have e : d.first_read + k * (d.period * 8) + 1 - d.first_read - 1 = k * (d.period * 8) := by
    ring
  rw [e, Int.tdiv_eq_ediv hkP (le_of_lt hP), Int.mul_ediv_cancel _ (ne_of_gt hP)]
  split
  · rename_i h
    rcases hc with hc | hc
    · exact absurd hc h.1
    · omega
  · rfl

/-- Exactly `k` whole bytes past the first read, `count_reads` still reports `k`. -/
theorem Nes_Dmc.count_reads_before (d : Nes_Dmc) (k : Int) (hk : 0 ≤ k)
    (hl : d.length_counter ≠ 0) (hp : 0 < d.period)
    (hc : d.regs0 &&& loop_flag ≠ 0 ∨ k ≤ d.length_counter) :
    (d.count_reads (d.first_read + k * (d.period * 8))).1 = k := by
  have hP : 0 < d.period * 8 := by omega
  unfold Nes_Dmc.count_reads
  simp only [hl, if_false]
  by_cases hk0 : k = 0
  · subst hk0
    have hav : d.first_read + 0 * (d.period * 8) - d.first_read ≤ 0 := by simp
    simp only [hav, if_true]
  · have hk1 : 1 ≤ k := by omega
    have hkP : d.period * 8 ≤ k * (d.period * 8) := by
      have := mul_le_mul_of_nonneg_right hk1 (le_of_lt hP)
      linarith
    have hav : ¬ (d.first_read + k * (d.period * 8) - d.first_read ≤ 0) := by omega
    simp only [hav, if_false]
    have e : d.first_read + k * (d.period * 8) - d.first_read - 1 =
        (d.period * 8 - 1) + (k - 1) * (d.period * 8) := by ring
    rw [e, Int.tdiv_eq_ediv (by nlinarith) (le_of_lt hP),
      Int.add_mul_ediv_right _ _ (ne_of_gt hP),
      Int.ediv_eq_zero_of_lt (by omega) (by omega)]
    split
    · rename_i h
      rcases hc with hc | hc
      · exact absurd hc h.1
      · omega
    · ring

/-- The value of `count_reads` when reads are available, with the clamp made explicit. -/
theorem Nes_Dmc.count_reads_avail (d : Nes_Dmc) (time : Int) (hl : d.length_counter ≠ 0)
    (hp : 0 < d.period) (hav : 0 < time - d.first_read) :
    ∃ c : Int, d.count_reads time = (c, d.first_read + (c - 1) * (d.period * 8) + 1) ∧
      c ≤ (time - d.first_read - 1) / (d.period * 8) + 1 ∧
      (d.regs0 &&& loop_flag ≠ 0 ∨ c ≤ d.length_counter) ∧
      (1 ≤ d.length_counter → 1 ≤ c) := by
  have hP : 0 < d.period * 8 := by omega
  have hq : 0 ≤ (time - d.first_read - 1) / (d.period * 8) :=
    Int.ediv_nonneg (by omega) (le_of_lt hP)
  unfold Nes_Dmc.count_reads
  have hav' : ¬ (time - d.first_read ≤ 0) := by omega
  simp only [hl, if_false, hav']
  rw [Int.tdiv_eq_ediv (by omega) (le_of_lt hP)]
  split
  · rename_i h
    exact ⟨_, rfl, by omega, Or.inr (le_refl _), fun h1 => h1⟩
  · rename_i h
    refine ⟨_, rfl, le_refl _, ?_, fun _ => by omega⟩
    by_cases hloop : d.regs0 &&& loop_flag ≠ 0
    · exact Or.inl hloop
    · right
      by_contra hgt
      exact h ⟨hloop, by omega⟩

/-- C7 (self-consistency of `count_reads`: its three assertions hold). For a DMC state
with `length_counter > 0` and `period > 0` (loop flag set or clear) and a time at which
`count_reads(time, &last_read)` returns `count >= 1`: `last_read <= time`,
`count_reads(last_read) = count` and `count_reads(last_read - 1) = count - 1`, so the
three `assert`s hold. In particular, when the returned count is 3, and likewise when
exactly 3 bytes remain with the loop flag clear, `count_reads` returns 2 one tick before
the third read's completion time and 3 at it. The bound `bits_remain >= 1` is not needed. -/
theorem count_reads_self_consistent (d : Nes_Dmc) (time : Int)
    (hl : 0 < d.length_counter) (hp : 0 < d.period) (hc : 1 ≤ (d.count_reads time).1) :
    (d.count_reads time).2 ≤ time ∧
    (d.count_reads (d.count_reads time).2).1 = (d.count_reads time).1 ∧
    (d.count_reads ((d.count_reads time).2 - 1)).1 = (d.count_reads time).1 - 1 ∧
    d.count_reads_asserts time ∧
    ((d.count_reads time).1 = 3 →
      (d.count_reads ((d.count_reads time).2 - 1)).1 = 2 ∧
      (d.count_reads (d.count_reads time).2).1 = 3) ∧
    (d.length_counter = 3 → ¬ (d.regs0 &&& loop_flag ≠ 0) →
      (d.count_reads (d.first_read + 2 * (d.period * 8) + 1 - 1)).1 = 2 ∧
      (d.count_reads (d.first_read + 2 * (d.period * 8) + 1)).1 = 3) := by
  have hl0 : d.length_counter ≠ 0 := by omega
  have hP : 0 < d.period * 8 := by omega
  have hav : 0 < time - d.first_read := by
    by_contra h
    have : (d.count_reads time).1 = 0 := by
      unfold Nes_Dmc.count_reads
      have h' : time - d.first_read ≤ 0 := by omega
      simp only [hl0, if_false, h', if_true]
    omega
  obtain ⟨c, hcr, hcq, hclamp, hc1⟩ := Nes_Dmc.count_reads_avail d time hl0 hp hav
  have h1c : 1 ≤ c := hc1 (by omega)
  rw [hcr]
  simp only
  have hle : d.first_read + (c - 1) * (d.period * 8) + 1 ≤ time := by
    have h1 : (c - 1) * (d.period * 8) ≤
        (time - d.first_read - 1) / (d.period * 8) * (d.period * 8) :=
      mul_le_mul_of_nonneg_right (by omega) (le_of_lt hP)
    have h2 := Int.ediv_mul_le (time - d.first_read - 1) (ne_of_gt hP)
    omega
  have hat : (d.count_reads (d.first_read + (c - 1) * (d.period * 8) + 1)).1 = c := by
    have := Nes_Dmc.count_reads_at d (c - 1) (by omega) hl0 hp
      (by rcases hclamp with h | h
          · exact Or.inl h
          · exact Or.inr (by omega))
    rw [this]; ring
  have hbefore : (d.count_reads (d.first_read + (c - 1) * (d.period * 8) + 1 - 1)).1 =
      c - 1 := by
    have := Nes_Dmc.count_reads_before d (c - 1) (by omega) hl0 hp
      (by rcases hclamp with h | h
          · exact Or.inl h
          · exact Or.inr (by omega))
    have e : d.first_read + (c - 1) * (d.period * 8) + 1 - 1 =
        d.first_read + (c - 1) * (d.period * 8) := by ring
    rw [e]; exact this
  refine ⟨hle, hat, hbefore, ?_, ?_, ?_⟩
  · intro _ _
    rw [hcr]
    exact ⟨hle, hat.symm, hbefore.symm⟩
  · intro h3
    rw [hbefore, hat, h3]
    exact ⟨rfl, rfl⟩
  · intro h3 hloop
    constructor
    · have := Nes_Dmc.count_reads_before d 2 (by norm_num) hl0 hp (Or.inr (by omega))
      have e : d.first_read + 2 * (d.period * 8) + 1 - 1 =
          d.first_read + 2 * (d.period * 8) := by ring
      rw [e]; exact this
    · have := Nes_Dmc.count_reads_at d 2 (by norm_num) hl0 hp (Or.inr (by omega))
      rw [this]; norm_num

/-! ## Nes_Dmc: IRQ scheduling, DAC and buffer -/

/-- C8 (`recalc_irq` notifies exactly on change). `recalc_irq` sets `next_irq` to `no_irq`
when `irq_enabled` is false or `length_counter = 0`, and otherwise to
`last_time + delay + ((length_counter - 1) * 8 + bits_remain - 1) * period + 1`; the value
depends only on `irq_enabled`, `length_counter`, `bits_remain`, `period`, `last_time` and
`delay`; `irq_changed` is called exactly once if the value differs from the previous
`next_irq` and not at all (nothing changes) if it is equal; nothing but `next_irq` and the
notification count changes; and a second `recalc_irq` changes nothing, so it never
notifies. -/
theorem recalc_irq_notifies_on_change (X : Ext) (d : Nes_Dmc) :
    ((d.irq_enabled = false ∨ d.length_counter = 0) →
      (d.recalc_irq X).next_irq = X.no_irq) ∧
    (¬ (d.irq_enabled = false ∨ d.length_counter = 0) →
      (d.recalc_irq X).next_irq = d.apu.last_time + d.delay +
        ((d.length_counter - 1) * 8 + d.bits_remain - 1) * d.period + 1) ∧
    (∀ d' : Nes_Dmc, d'.irq_enabled = d.irq_enabled → d'.length_counter = d.length_counter →
      d'.bits_remain = d.bits_remain → d'.period = d.period →
      d'.apu.last_time = d.apu.last_time → d'.delay = d.delay →
      (d'.recalc_irq X).next_irq = (d.recalc_irq X).next_irq) ∧
    ((d.recalc_irq X).next_irq ≠ d.next_irq →
      (d.recalc_irq X).apu.irq_changed_calls = d.apu.irq_changed_calls + 1) ∧
    ((d.recalc_irq X).next_irq = d.next_irq → d.recalc_irq X = d) ∧
    d.recalc_irq X = { d with
      next_irq := (d.recalc_irq X).next_irq
      apu := { d.apu with irq_changed_calls := (d.recalc_irq X).apu.irq_changed_calls } } ∧
    (d.recalc_irq X).recalc_irq X = d.recalc_irq X := by
  have hnext : ∀ d : Nes_Dmc, (d.recalc_irq X).next_irq = d.irq_time X := by
    intro d
    unfold Nes_Dmc.recalc_irq
    simp only
    split
    · rfl
    · rename_i h
      simp only [ne_eq, not_not] at h
      exact h.symm
  refine ⟨?_, ?_, ?_, ?_, ?_, ?_, ?_⟩
  · intro h
    rw [hnext]
    unfold Nes_Dmc.irq_time
    have : ¬ (d.irq_enabled = true ∧ d.length_counter ≠ 0) := by
      rintro ⟨h1, h2⟩
      rcases h with h | h
      · rw [h] at h1; exact Bool.noConfusion h1
      · exact h2 h
    rw [if_neg this]
  · intro h
    rw [hnext]
    unfold Nes_Dmc.irq_time
    have : d.irq_enabled = true ∧ d.length_counter ≠ 0 := by
      push_neg at h
      exact ⟨by simpa using h.1, h.2⟩
    rw [if_pos this]
  · intro d' h1 h2 h3 h4 h5 h6
    rw [hnext, hnext]
    unfold Nes_Dmc.irq_time
    rw [h1, h2, h3, h4, h5, h6]
  · intro h
    rw [hnext] at h
    unfold Nes_Dmc.recalc_irq
    simp only [h, ne_eq, not_false_eq_true, if_true]
    rfl
  · intro h
    rw [hnext] at h
    unfold Nes_Dmc.recalc_irq
    simp only [h, ne_eq, not_true_eq_false, if_false]
  · unfold Nes_Dmc.recalc_irq
    simp only
    split <;> rfl
  · have h1 := hnext d
    have hsame : Nes_Dmc.irq_time X (d.recalc_irq X) = d.irq_time X := by
      unfold Nes_Dmc.recalc_irq
      simp only
      split <;> rfl
    rw [← h1] at hsame
    generalize d.recalc_irq X = d1 at hsame
    unfold Nes_Dmc.recalc_irq
    simp only [hsame, ne_eq, not_true_eq_false, if_false]

theorem doWhile_invariant {σ : Type} (body : σ → σ) (time : σ → Int) (e : Int)
    (P : σ → Prop) (h : ∀ s, P s → P (body s)) :
    ∀ (fuel : Nat) (s s' : σ), P s → doWhile body time e fuel s = some s' → P s' := by
  intro fuel
  induction fuel with
  | zero => intro s s' _ hr; simp [doWhile] at hr
  | succ fuel ih =>
    intro s s' hs hr
    rw [doWhile] at hr
    split at hr
    · exact ih _ _ (h s hs) hr
    · simp only [Option.some.injEq] at hr
      rw [← hr]; exact h s hs

/-- The shift step of the DMC loop on a non-silent edge. -/
theorem Nes_Dmc.run_shift_step (l : DmcLoop) (hs : l.d.silence = false)
    (h0 : 0 ≤ l.dac) (h127 : l.dac ≤ 127) :
    (Int.land l.bits 1 = 1 ∨ Int.land l.bits 1 = 0) ∧
    (Nes_Dmc.run_shift l).bits = l.bits >>> (1 : Nat) ∧
    (Nes_Dmc.run_shift l).dac =
      (if 0 ≤ l.dac + (Int.land l.bits 1 * 4 - 2) ∧ l.dac + (Int.land l.bits 1 * 4 - 2) ≤ 127
        then l.dac + (Int.land l.bits 1 * 4 - 2) else l.dac) ∧
    (Nes_Dmc.run_shift l).out =
      (if l.d.output = true ∧ (Nes_Dmc.run_shift l).dac ≠ l.dac
        then l.out ++ [Emit.offset l.time (Int.land l.bits 1 * 4 - 2)] else l.out) ∧
    0 ≤ (Nes_Dmc.run_shift l).dac ∧ (Nes_Dmc.run_shift l).dac ≤ 127 := by
  have hb := land_one_cases l.bits
  have hb' : Int.land l.bits 1 = 1 ∨ Int.land l.bits 1 = 0 := hb.symm
  have hpow : (2 : Int) ^ 32 = 4294967296 := by norm_num
  have hc : (!l.d.silence) = true := by simp [hs]
  by_cases hin : (l.dac + (Int.land l.bits 1 * 4 - 2)) % 4294967296 ≤ 127
  · have hr : 0 ≤ l.dac + (Int.land l.bits 1 * 4 - 2) ∧
        l.dac + (Int.land l.bits 1 * 4 - 2) ≤ 127 := by
      rcases hb with hb | hb <;> rw [hb] at hin ⊢ <;> omega
    have hne : l.dac + (Int.land l.bits 1 * 4 - 2) ≠ l.dac := by
      rcases hb with hb | hb <;> rw [hb] <;> omega
    have hrs : Nes_Dmc.run_shift l = { l with
        bits := l.bits >>> (1 : Nat)
        dac := l.dac + (Int.land l.bits 1 * 4 - 2)
        out := if l.d.output = true then
          l.out ++ [Emit.offset l.time (Int.land l.bits 1 * 4 - 2)] else l.out } := by
      unfold Nes_Dmc.run_shift
      simp only [hc, if_true, hpow, hin]
    rw [hrs]
    refine ⟨hb', rfl, ?_, ?_, hr.1, hr.2⟩
    · show l.dac + (Int.land l.bits 1 * 4 - 2) = _
      rw [if_pos hr]
    · show (if l.d.output = true then _ else _) = _
      by_cases ho : l.d.output = true
      · rw [if_pos ho, if_pos ⟨ho, hne⟩]
      · rw [if_neg ho, if_neg (fun h => ho h.1)]
  · have hr : ¬ (0 ≤ l.dac + (Int.land l.bits 1 * 4 - 2) ∧
        l.dac + (Int.land l.bits 1 * 4 - 2) ≤ 127) := by
      rcases hb with hb | hb <;> rw [hb] at hin ⊢ <;> omega
    have hrs : Nes_Dmc.run_shift l = { l with bits := l.bits >>> (1 : Nat) } := by
      unfold Nes_Dmc.run_shift
      simp only [hc, if_true, hpow, hin, if_false]
    rw [hrs]
    refine ⟨hb', rfl, ?_, ?_, h0, h127⟩
    · show l.dac = _
      rw [if_neg hr]
    · show l.out = _
      rw [if_neg (fun h => h.2 rfl)]

theorem Nes_Dmc.run_shift_silent (l : DmcLoop) (hs : l.d.silence = true) :
    Nes_Dmc.run_shift l = l := by
  unfold Nes_Dmc.run_shift
  have hc : (!l.d.silence) = false := by simp [hs]
  simp only [hc, Bool.false_eq_true, if_false]

theorem Nes_Dmc.run_reload_dac (X : Ext) (l : DmcLoop) :
    (Nes_Dmc.run_reload X l).dac = l.dac ∧ (Nes_Dmc.run_reload X l).out = l.out := by
  unfold Nes_Dmc.run_reload
  simp only
  split
  · split <;> exact ⟨rfl, rfl⟩
  · exact ⟨rfl, rfl⟩

theorem Nes_Dmc.run_body_dac (X : Ext) (period : Int) (l : DmcLoop) :
    (Nes_Dmc.run_body X period l).dac = (Nes_Dmc.run_shift l).dac ∧
    (Nes_Dmc.run_body X period l).out = (Nes_Dmc.run_shift l).out := by
  unfold Nes_Dmc.run_body
  simp only
  exact Nes_Dmc.run_reload_dac X _

theorem Nes_Dmc.run_body_dac_range (X : Ext) (period : Int) (l : DmcLoop)
    (h : 0 ≤ l.dac ∧ l.dac ≤ 127) :
    0 ≤ (Nes_Dmc.run_body X period l).dac ∧ (Nes_Dmc.run_body X period l).dac ≤ 127 := by
  rw [(Nes_Dmc.run_body_dac X period l).1]
  by_cases hs : l.d.silence = true
  · rw [Nes_Dmc.run_shift_silent l hs]; exact h
  · have := Nes_Dmc.run_shift_step l (by simpa using hs) h.1 h.2
    exact this.2.2.2.2

/-- C9 (DMC DAC clamping). With `dac` in `[0,127]`, one pass of the loop of `Nes_Dmc::run`
on a non-silent edge shifts one bit out of `bits` and moves `dac` by the step `+2` (bit 1)
or `-2` (bit 0) when the result lies in `[0,127]`, leaving it unchanged otherwise; the step
is emitted, at the edge's time, exactly when an output is bound and `dac` changed; a silent
edge changes neither `dac` nor the emissions. Consequently whenever `run` returns, `dac` is
in `[0,127]`, and `run` does return when the period is positive. `write_register(1, data)`
leaves `dac = data & 0x7F`, which is in `[0,127]`. -/
theorem dmc_dac_clamping (X : Ext) (d : Nes_Dmc) (l : DmcLoop)
    (period time end_time data : Int)
    (hd0 : 0 ≤ d.dac) (hd127 : d.dac ≤ 127) (hl0 : 0 ≤ l.dac) (hl127 : l.dac ≤ 127) :
    (l.d.silence = false →
      (Int.land l.bits 1 = 1 ∨ Int.land l.bits 1 = 0) ∧
      (Nes_Dmc.run_shift l).bits = l.bits >>> (1 : Nat) ∧
      (Int.land l.bits 1 = 1 → (Nes_Dmc.run_body X period l).dac =
        if 0 ≤ l.dac + 2 ∧ l.dac + 2 ≤ 127 then l.dac + 2 else l.dac) ∧
      (Int.land l.bits 1 = 0 → (Nes_Dmc.run_body X period l).dac =
        if 0 ≤ l.dac - 2 ∧ l.dac - 2 ≤ 127 then l.dac - 2 else l.dac) ∧
      (Nes_Dmc.run_body X period l).out =
        (if l.d.output = true ∧ (Nes_Dmc.run_body X period l).dac ≠ l.dac
          then l.out ++ [Emit.offset l.time (Int.land l.bits 1 * 4 - 2)] else l.out)) ∧
    (l.d.silence = true →
      (Nes_Dmc.run_body X period l).dac = l.dac ∧ (Nes_Dmc.run_body X period l).out = l.out) ∧
    (0 ≤ (Nes_Dmc.run_body X period l).dac ∧ (Nes_Dmc.run_body X period l).dac ≤ 127) ∧
    (∀ r out, d.run X time end_time = some (r, out) → 0 ≤ r.dac ∧ r.dac ≤ 127) ∧
    (0 < d.period → ∃ r out, d.run X time end_time = some (r, out)) ∧
    (d.write_register X 1 data).dac = Int.land data 0x7F ∧
    0 ≤ (d.write_register X 1 data).dac ∧ (d.write_register X 1 data).dac ≤ 127 := by
  obtain ⟨hbd, hbo⟩ := Nes_Dmc.run_body_dac X period l
  have hwr : (d.write_register X 1 data).dac = Int.land data 0x7F := by
    unfold Nes_Dmc.write_register
    simp only [one_ne_zero, if_false, if_true]
    split <;> rfl
  refine ⟨?_, ?_, Nes_Dmc.run_body_dac_range X period l ⟨hl0, hl127⟩, ?_, ?_, hwr, ?_⟩
  · intro hs
    obtain ⟨h1, h2, h3, h4, _, _⟩ := Nes_Dmc.run_shift_step l hs hl0 hl127
    refine ⟨h1, h2, ?_, ?_, ?_⟩
    · intro hb
      rw [hbd, h3, hb]
      norm_num
    · intro hb
      rw [hbd, h3, hb]
      norm_num
      rfl
    · rw [hbo, hbd, h4]
  · intro hs
    rw [hbd, hbo, Nes_Dmc.run_shift_silent l hs]
    exact ⟨rfl, rfl⟩
  · intro r out hrun
    unfold Nes_Dmc.run at hrun
    simp only [update_amp] at hrun
    split at hrun
    · split at hrun
      · split at hrun
        · exact Option.noConfusion hrun
        · simp only [Option.some.injEq, Prod.mk.injEq] at hrun
          rw [← hrun.1]
          exact ⟨hd0, hd127⟩
      · split at hrun
        · exact Option.noConfusion hrun
        · rename_i l' hl'
          have hinv := doWhile_invariant (Nes_Dmc.run_body X d.period) DmcLoop.time end_time
            (fun l => 0 ≤ l.dac ∧ l.dac ≤ 127) (Nes_Dmc.run_body_dac_range X d.period)
            _ _ l' ⟨hd0, hd127⟩ hl'
          simp only [Option.some.injEq, Prod.mk.injEq] at hrun
          rw [← hrun.1]
          exact hinv
    · simp only [Option.some.injEq, Prod.mk.injEq] at hrun
      rw [← hrun.1]
      exact ⟨hd0, hd127⟩
  · intro hp
    obtain ⟨r, out, h, _⟩ := Nes_Dmc.dmc_run_delay X d time end_time hp
    exact ⟨r, out, h⟩
  · rw [hwr]
    exact land_7F_range data

/-- C10 (`fill_buffer` postcondition). With `address` in `[0, 0x7FFF]` (a memory reader is
a parameter of the embedding, so one is configured): if `buf_full` is set or
`length_counter = 0`, `fill_buffer` changes nothing and reads nothing. Otherwise it calls
the reader exactly once, at `0x8000 + address`, which lies in `[0x8000, 0xFFFF]`, stores the
byte in `buf`, sets `address` to `(address + 1) & 0x7FFF`, sets `buf_full` and decrements
`length_counter`; if the counter thereby reaches 0 then, with the loop flag set, the sample
is reloaded (`address = 0x4000 + regs[2] * 0x40`, `length_counter = regs[3] * 0x10 + 1`) and,
with the loop flag clear, bit `0x10` of the owner's `osc_enables` is cleared,
`irq_flag = irq_enabled`, `next_irq = no_irq` and `irq_changed` is notified once. Nothing
else changes. -/
theorem fill_buffer_postcondition (X : Ext) (d : Nes_Dmc)
    (ha0 : 0 ≤ d.address) (ha : d.address ≤ 0x7FFF) :
    ((d.buf_full = true ∨ d.length_counter = 0) → d.fill_buffer X = d) ∧
    (¬ (d.buf_full = true ∨ d.length_counter = 0) →
      0x8000 ≤ 0x8000 + d.address ∧ 0x8000 + d.address ≤ 0xFFFF ∧
      Int.land (d.address + 1) 0x7FFF = (d.address + 1) % 0x8000 ∧
      (d.length_counter - 1 ≠ 0 →
        d.fill_buffer X = { d with
          buf := X.rom_reader (0x8000 + d.address)
          rom_reads := d.rom_reads ++ [0x8000 + d.address]
          address := Int.land (d.address + 1) 0x7FFF
          buf_full := true
          length_counter := d.length_counter - 1 }) ∧
      (d.length_counter - 1 = 0 → d.regs0 &&& loop_flag ≠ 0 →
        d.fill_buffer X = { d with
          buf := X.rom_reader (0x8000 + d.address)
          rom_reads := d.rom_reads ++ [0x8000 + d.address]
          address := 0x4000 + (d.regs2 : Int) * 0x40
          buf_full := true
          length_counter := (d.regs3 : Int) * 0x10 + 1 }) ∧
      (d.length_counter - 1 = 0 → ¬ (d.regs0 &&& loop_flag ≠ 0) →
        d.fill_buffer X = { d with
          buf := X.rom_reader (0x8000 + d.address)
          rom_reads := d.rom_reads ++ [0x8000 + d.address]
          address := Int.land (d.address + 1) 0x7FFF
          buf_full := true
          length_counter := 0
          apu := { d.apu with
            osc_enables := Int.land d.apu.osc_enables (~~~0x10)
            irq_changed_calls := d.apu.irq_changed_calls + 1 }
          irq_flag := d.irq_enabled
          next_irq := X.no_irq } ∧
        Int.testBit (d.fill_buffer X).apu.osc_enables 4 = false)) := by
  have haddr : (0x8000 + d.address) % 2 ^ 32 = 0x8000 + d.address := by
    have hpow : (2 : Int) ^ 32 = 4294967296 := by norm_num
    rw [hpow]; omega
  constructor
  · intro h
    unfold Nes_Dmc.fill_buffer
    have : ¬ ((!d.buf_full) = true ∧ d.length_counter ≠ 0) := by
      rintro ⟨h1, h2⟩
      rcases h with h | h
      · rw [h] at h1; exact Bool.noConfusion h1
      · exact h2 h
    rw [if_neg this]
  · intro h
    have hc : (!d.buf_full) = true ∧ d.length_counter ≠ 0 := by
      push_neg at h
      exact ⟨by simpa using h.1, h.2⟩
    refine ⟨by omega, by omega, land_7FFF _ (by omega), ?_, ?_, ?_⟩
    · intro hne
      unfold Nes_Dmc.fill_buffer
      rw [if_pos hc]
      simp only [haddr, hne, if_false]
    · intro h0 hloop
      unfold Nes_Dmc.fill_buffer
      rw [if_pos hc]
      simp only [haddr, h0, if_true, hloop, ne_eq, not_false_eq_true]
      rfl
    · intro h0 hloop
      have hfb : d.fill_buffer X = { d with
          buf := X.rom_reader (0x8000 + d.address)
          rom_reads := d.rom_reads ++ [0x8000 + d.address]
          address := Int.land (d.address + 1) 0x7FFF
          buf_full := true
          length_counter := 0
          apu := { d.apu with
            osc_enables := Int.land d.apu.osc_enables (~~~0x10)
            irq_changed_calls := d.apu.irq_changed_calls + 1 }
          irq_flag := d.irq_enabled
          next_irq := X.no_irq } := by
        unfold Nes_Dmc.fill_buffer
        rw [if_pos hc]
        simp only [haddr, h0, if_true, hloop, if_false]
        rfl
      refine ⟨hfb, ?_⟩
      rw [hfb]
      show Int.testBit (Int.land d.apu.osc_enables (~~~0x10)) 4 = false
      rw [Int.testBit_land]
      have : Int.testBit (~~~(0x10 : Int)) 4 = false := by decide
      rw [this, Bool.and_false]

/-! ## The theorems at concrete inputs -/

theorem square_window_splitting_witness :
    exampleSquare.output = true ∧ 0 ≤ exampleSquare.phase ∧ exampleSquare.phase < 8 ∧
    (300 : Int) ≤ 1000 ∧
    ∃ s1 out1 s2 out2, exampleSquare.run exampleExt 0 300 = some (s1, out1) ∧
      s1.run exampleExt 300 1000 = some (s2, out2) ∧
      exampleSquare.run exampleExt 0 1000 = some (s2, out1 ++ out2) :=
  ⟨by decide, by decide, by decide, by decide,
    square_window_splitting exampleExt exampleSquare 0 300 1000 (by decide) (by decide)
      (by decide) (by decide)⟩

theorem triangle_delta_conservation_witness :
    exampleTriangle.output = true ∧ 1 ≤ exampleTriangle.phase ∧ exampleTriangle.phase ≤ 32 ∧
    ∃ r out, exampleTriangle.run exampleExt 0 400 = some (r, out) ∧
      deltaSum out = r.calc_amp - exampleTriangle.last_amp ∧ r.last_amp = r.calc_amp ∧
      1 ≤ r.phase ∧ r.phase ≤ 32 := by
  refine ⟨by decide, by decide, by decide, ?_⟩
  obtain ⟨r, out, _, h1, h2, h3, h4, h5, _⟩ :=
    triangle_delta_conservation exampleExt exampleTriangle 0 400 (by decide) (by decide)
      (by decide)
  exact ⟨r, out, h1, h2, h3, h4, h5⟩

theorem square_silent_phase_continuity_witness :
    0 ≤ exampleSquare.phase ∧ exampleSquare.phase < 8 ∧
    ∃ r out r' out', exampleSquare.run exampleExt 0 1000 = some (r, out) ∧
      Nes_Square.run exampleExt { exampleSquare with output := false } 0 1000 =
        some (r', out') ∧
      r'.phase = r.phase ∧ r'.delay = r.delay := by
  obtain ⟨r, out, r', out', h1, h2, _, _, _, h3, h4⟩ :=
    square_silent_phase_continuity exampleExt exampleSquare
      { exampleSquare with output := false } 0 1000 (by decide) (by decide) rfl rfl rfl rfl
  exact ⟨by decide, by decide, r, out, r', out', h1, h2, h3, h4⟩

/-- C4 (silent phase continuity of the triangle channel) fails on the code: for the
ticking channel `exampleTriangle` (length and linear counters positive, timer period 11,
phase 16, delay 0) and the window `[0, 11)`, which contains one timer edge, the stepping
loop (output bound) leaves phase 15 and delay 0, while `maintain_phase` (output unset)
leaves phase 17 and delay 0. -/
theorem triangle_maintain_phase_mismatch :
    0 < exampleTriangle.length_counter ∧ 0 < exampleTriangle.linear_counter ∧
    3 ≤ exampleTriangle.period + 1 ∧ 1 ≤ exampleTriangle.phase ∧ exampleTriangle.phase ≤ 32 ∧
    0 ≤ exampleTriangle.delay ∧
    (exampleTriangle.run exampleExt 0 11).map (fun r => (r.1.phase, r.1.delay)) =
      some (15, 0) ∧
    (Nes_Triangle.run exampleExt { exampleTriangle with output := false } 0 11).map
      (fun r => (r.1.phase, r.1.delay)) = some (17, 0) := by
  decide

theorem delay_invariant_witness :
    exampleNoise.output = true ∧ 0 < exampleDmc.period ∧
    (∃ r out, exampleSquare.run exampleExt 0 1000 = some (r, out) ∧ 0 ≤ r.delay) ∧
    (∃ r out, Nes_Triangle.run exampleExt { exampleTriangle with output := false } 0 1000 =
      some (r, out) ∧ 0 ≤ r.delay ∧ r.delay = 1 ∧ r.delay < 11) ∧
    (∃ r out, exampleDmc.run exampleExt 0 1000 = some (r, out) ∧ 0 ≤ r.delay) ∧
    (∃ r out, exampleNoise.run exampleExt 0 1000 = some (r, out) ∧ 0 ≤ r.delay) := by
  obtain ⟨⟨r1, o1, h1, d1, _⟩, ⟨r2, o2, h2, d2, k2⟩, ⟨r3, o3, h3, d3, _⟩, ⟨r4, o4, h4, d4, _⟩⟩ :=
    delay_invariant exampleExt exampleSquare { exampleTriangle with output := false }
      exampleDmc exampleNoise 0 1000 (by decide) (by decide)
  obtain ⟨-, k2e, k2lt⟩ := k2 (by decide) (by decide)
  exact ⟨by decide, by decide, ⟨r1, o1, h1, d1⟩, ⟨r2, o2, h2, d2, k2e, k2lt⟩,
    ⟨r3, o3, h3, d3⟩, ⟨r4, o4, h4, d4⟩⟩

theorem noise_register_never_zero_witness :
    1 ≤ exampleNoise.noise ∧ exampleNoise.noise < 2 ^ 15 ∧
    (∀ tap : Nat, tap = 1 ∨ tap = 6 →
      1 ≤ Nes_Noise.lfsr tap exampleNoise.noise ∧
      Nes_Noise.lfsr tap exampleNoise.noise < 2 ^ 15) ∧
    ∃ r out, exampleNoise.run exampleExt 0 1000 = some (r, out) ∧ 1 ≤ r.noise ∧
      r.noise < 2 ^ 15 :=
  ⟨by decide, by decide,
    noise_register_never_zero exampleExt exampleNoise 0 1000 (by decide) (by decide)⟩

theorem count_reads_self_consistent_witness :
    0 < exampleDmc.length_counter ∧ 0 < exampleDmc.period ∧
    1 ≤ (exampleDmc.count_reads 10000).1 ∧
    (exampleDmc.count_reads 10000).2 ≤ 10000 ∧
    (exampleDmc.count_reads (exampleDmc.count_reads 10000).2).1 =
      (exampleDmc.count_reads 10000).1 ∧
    (exampleDmc.count_reads ((exampleDmc.count_reads 10000).2 - 1)).1 =
      (exampleDmc.count_reads 10000).1 - 1 := by
  obtain ⟨h1, h2, h3, _⟩ :=
    count_reads_self_consistent exampleDmc 10000 (by decide) (by decide) (by decide)
  exact ⟨by decide, by decide, by decide, h1, h2, h3⟩

theorem dmc_dac_clamping_witness :
    0 ≤ exampleDmc.dac ∧ exampleDmc.dac ≤ 127 ∧ 0 ≤ exampleDmcLoop.dac ∧
    exampleDmcLoop.dac ≤ 127 ∧
    (0 ≤ (Nes_Dmc.run_body exampleExt 428 exampleDmcLoop).dac ∧
      (Nes_Dmc.run_body exampleExt 428 exampleDmcLoop).dac ≤ 127) ∧
    (∀ r out, exampleDmc.run exampleExt 0 10000 = some (r, out) → 0 ≤ r.dac ∧ r.dac ≤ 127) ∧
    (0 < exampleDmc.period → ∃ r out, exampleDmc.run exampleExt 0 10000 = some (r, out)) := by
  obtain ⟨_, _, h3, h4, h5, _⟩ :=
    dmc_dac_clamping exampleExt exampleDmc exampleDmcLoop 428 0 10000 0xFF (by decide)
      (by decide) (by decide) (by decide)
  exact ⟨by decide, by decide, by decide, by decide, h3, h4, h5⟩

theorem fill_buffer_postcondition_witness :
    0 ≤ exampleDmc.address ∧ exampleDmc.address ≤ 0x7FFF ∧
    ((exampleDmc.buf_full = true ∨ exampleDmc.length_counter = 0) →
      exampleDmc.fill_buffer exampleExt = exampleDmc) := by
  obtain ⟨h1, _⟩ := fill_buffer_postcondition exampleExt exampleDmc (by decide) (by decide)
  exact ⟨by decide, by decide, h1⟩

/-! ## The frame-sequencer clocks -/

/-- C13 (length counter monotonicity). For an oscillator with `length_counter >= 0` and any
`halt_mask`, `clock_length` leaves `0 <= length_counter' <= length_counter`;
`length_counter' = length_counter - 1` exactly when `length_counter > 0` and
`(regs[0] & halt_mask) = 0`, otherwise `length_counter' = length_counter`; no other field
changes. -/
theorem clock_length_monotone (o : Nes_Osc) (halt_mask : Int) (h : 0 ≤ o.length_counter) :
    0 ≤ (o.clock_length halt_mask).length_counter ∧
    (o.clock_length halt_mask).length_counter ≤ o.length_counter ∧
    ((o.clock_length halt_mask).length_counter = o.length_counter - 1 ↔
      (0 < o.length_counter ∧ Int.land o.regs0 halt_mask = 0)) ∧
    (¬ (0 < o.length_counter ∧ Int.land o.regs0 halt_mask = 0) →
      (o.clock_length halt_mask).length_counter = o.length_counter) ∧
    o.clock_length halt_mask =
      { o with length_counter := (o.clock_length halt_mask).length_counter } := by
  unfold Nes_Osc.clock_length
  by_cases hc : o.length_counter ≠ 0 ∧ ¬ (Int.land o.regs0 halt_mask ≠ 0)
  · rw [if_pos hc]
    have hpos : 0 < o.length_counter := by
      have := hc.1
      omega
    have hz : Int.land o.regs0 halt_mask = 0 := by
      have := hc.2
      simpa using this
    refine ⟨?_, ?_, ?_, ?_, rfl⟩
    · show 0 ≤ o.length_counter - 1
      omega
    · show o.length_counter - 1 ≤ o.length_counter
      omega
    · exact ⟨fun _ => ⟨hpos, hz⟩, fun _ => rfl⟩
    · intro hn
      exact absurd ⟨hpos, hz⟩ hn
  · rw [if_neg hc]
    have hn : ¬ (0 < o.length_counter ∧ Int.land o.regs0 halt_mask = 0) := by
      rintro ⟨h1, h2⟩
      exact hc ⟨by omega, by simp [h2]⟩
    refine ⟨h, le_refl _, ?_, fun _ => rfl, rfl⟩
    constructor
    · intro he
      omega
    · intro hp
      exact absurd hp hn

theorem clock_length_monotone_witness :
    0 ≤ exampleOsc.length_counter ∧
    0 ≤ (exampleOsc.clock_length 0x20).length_counter ∧
    (exampleOsc.clock_length 0x20).length_counter ≤ exampleOsc.length_counter := by
  obtain ⟨h1, h2, _⟩ := clock_length_monotone exampleOsc 0x20 (by decide)
  exact ⟨by decide, h1, h2⟩

theorem nat_or_eq_zero (a b : Nat) : a ||| b = 0 ↔ a = 0 ∧ b = 0 := by
  constructor
  · intro h
    constructor
    · by_contra ha
      have := or_pos_of_left_pos a b (by omega)
      omega
    · by_contra hb
      have := or_pos_of_left_pos b a (by omega)
      rw [Nat.or_comm] at this
      omega
  · rintro ⟨rfl, rfl⟩
    rfl

theorem land_neg_one_15 : Int.land (-1) 15 = 15 := by
  show ((Nat.ldiff 15 0 : Nat) : Int) = 15
  have : Nat.ldiff 15 0 = 15 := by
    apply Nat.eq_of_testBit_eq
    intro i
    rw [Nat.testBit_ldiff]
    simp
  rw [this]
  rfl

theorem land_pred_15 (x : Int) (h0 : 0 ≤ x) : Int.land (x - 1) 15 = (x - 1) % 16 := by
  by_cases hx : x = 0
  · subst hx
    exact land_neg_one_15
  · have := land_mask_nonneg (x - 1) 4 (by omega)
    simpa using this

/-- C12 (`clock_envelope` postcondition). With `envelope` in `[0,15]`: if `reg_written[3]`
is set, afterwards `env_delay = regs[0] & 15`, `envelope = 15` and the flag is clear.
Otherwise `env_delay` is decremented and, only if it became negative, reloaded with
`regs[0] & 15`, and then `envelope` becomes `(envelope - 1) & 15` (which is
`(envelope - 1) mod 16`) unless `envelope = 0` with the loop bit `0x20` clear, in which case
it stays 0. Nothing else changes; `envelope` stays in `[0,15]`; with the loop bit clear and
no register-3 write it never increases. -/
theorem clock_envelope_postcondition (e : Nes_Envelope)
    (h0 : 0 ≤ e.envelope) (h15 : e.envelope ≤ 15) :
    (e.reg_written3 = true → e.clock_envelope =
      { e with reg_written3 := false, env_delay := ((e.regs0 &&& 15 : Nat) : Int),
               envelope := 15 }) ∧
    (e.reg_written3 = false → ¬ (e.env_delay - 1 < 0) →
      e.clock_envelope = { e with env_delay := e.env_delay - 1 }) ∧
    (e.reg_written3 = false → e.env_delay - 1 < 0 →
      ¬ (e.envelope = 0 ∧ e.regs0 &&& 0x20 = 0) →
      e.clock_envelope = { e with env_delay := ((e.regs0 &&& 15 : Nat) : Int),
                                  envelope := Int.land (e.envelope - 1) 15 } ∧
      Int.land (e.envelope - 1) 15 = (e.envelope - 1) % 16) ∧
    (e.reg_written3 = false → e.env_delay - 1 < 0 →
      (e.envelope = 0 ∧ e.regs0 &&& 0x20 = 0) →
      e.clock_envelope = { e with env_delay := ((e.regs0 &&& 15 : Nat) : Int) } ∧
      e.clock_envelope.envelope = 0) ∧
    0 ≤ e.clock_envelope.envelope ∧ e.clock_envelope.envelope ≤ 15 ∧
    (e.reg_written3 = false → e.regs0 &&& 0x20 = 0 →
      e.clock_envelope.envelope ≤ e.envelope) := by
  obtain ⟨n, hn⟩ := Int.eq_ofNat_of_zero_le h0
  have hlor : Int.lor e.envelope ((e.regs0 &&& 0x20 : Nat) : Int) ≠ 0 ↔
      ¬ (e.envelope = 0 ∧ e.regs0 &&& 0x20 = 0) := by
    rw [hn]
    show (((n ||| (e.regs0 &&& 0x20) : Nat)) : Int) ≠ 0 ↔ _
    rw [Ne, Int.natCast_eq_zero, nat_or_eq_zero]
    simp
  have hland := land_pred_15 e.envelope h0
  by_cases hw : e.reg_written3 = true
  · have hce : e.clock_envelope =
        { e with reg_written3 := false, env_delay := ((e.regs0 &&& 15 : Nat) : Int),
                 envelope := 15 } := by
      unfold Nes_Envelope.clock_envelope
      simp only [hw, if_true]
    refine ⟨fun _ => hce, fun h => ?_, fun h => ?_, fun h => ?_, ?_, ?_, fun h => ?_⟩
    · rw [hw] at h; exact Bool.noConfusion h
    · rw [hw] at h; exact Bool.noConfusion h
    · rw [hw] at h; exact Bool.noConfusion h
    · rw [hce]; show (0 : Int) ≤ 15; norm_num
    · rw [hce]
    · rw [hw] at h; exact Bool.noConfusion h
  · have hw' : e.reg_written3 = false := by simpa using hw
    by_cases hu : e.env_delay - 1 < 0
    · by_cases hz : e.envelope = 0 ∧ e.regs0 &&& 0x20 = 0
      · have hce : e.clock_envelope =
            { e with env_delay := ((e.regs0 &&& 15 : Nat) : Int) } := by
          unfold Nes_Envelope.clock_envelope
          have : ¬ (Int.lor e.envelope ((e.regs0 &&& 0x20 : Nat) : Int) ≠ 0) := by
            rw [hlor]; exact not_not.2 hz
          simp only [hw', Bool.false_eq_true, if_false, hu, if_true, this]
        refine ⟨fun h => absurd h hw, fun _ h => absurd hu h, fun _ _ h => absurd hz h,
          fun _ _ _ => ⟨hce, by rw [hce]; exact hz.1⟩, ?_, ?_, fun _ _ => ?_⟩
        · rw [hce]; exact h0
        · rw [hce]; exact h15
        · rw [hce]
      · have hce : e.clock_envelope =
            { e with env_delay := ((e.regs0 &&& 15 : Nat) : Int),
                     envelope := Int.land (e.envelope - 1) 15 } := by
          unfold Nes_Envelope.clock_envelope
          have : Int.lor e.envelope ((e.regs0 &&& 0x20 : Nat) : Int) ≠ 0 := by
            rw [hlor]; exact hz
          simp only [hw', Bool.false_eq_true, if_false, hu, if_true]
          rw [if_pos this]
        have hval : e.clock_envelope.envelope = (e.envelope - 1) % 16 := by
          rw [hce]; exact hland
        refine ⟨fun h => absurd h hw, fun _ h => absurd hu h, fun _ _ _ => ⟨hce, hland⟩,
          fun _ _ h => absurd h hz, ?_, ?_, fun _ hl => ?_⟩
        · rw [hval]; omega
        · rw [hval]; omega
        · rw [hval]
          have : e.envelope ≠ 0 := fun h => hz ⟨h, hl⟩
          omega
    · have hce : e.clock_envelope = { e with env_delay := e.env_delay - 1 } := by
        unfold Nes_Envelope.clock_envelope
        simp only [hw', Bool.false_eq_true, if_false, hu]
      refine ⟨fun h => absurd h hw, fun _ _ => hce, fun _ h => absurd h hu,
        fun _ h => absurd h hu, ?_, ?_, fun _ _ => ?_⟩
      · rw [hce]; exact h0
      · rw [hce]; exact h15
      · rw [hce]

theorem clock_envelope_postcondition_witness :
    0 ≤ exampleSquare.toNes_Envelope.envelope ∧ exampleSquare.toNes_Envelope.envelope ≤ 15 ∧
    0 ≤ exampleSquare.toNes_Envelope.clock_envelope.envelope ∧
    exampleSquare.toNes_Envelope.clock_envelope.envelope ≤ 15 := by
  obtain ⟨_, _, _, _, h1, h2, _⟩ :=
    clock_envelope_postcondition exampleSquare.toNes_Envelope (by decide) (by decide)
  exact ⟨by decide, by decide, h1, h2⟩

/-! ## Nes_Dmc: the scheduled IRQ and the reads of `run` -/

/-- C19 (the scheduled IRQ time is the moment the sample exhausts according to
`count_reads`). With the IRQ enabled, `length_counter = L >= 1` and `period > 0` (in
particular with the loop flag clear), the time `T` that `recalc_irq` stores in `next_irq` is
`last_time + delay + ((L - 1) * 8 + bits_remain - 1) * period + 1`, and
`count_reads(T) = L`, `count_reads(T - 1) = L - 1`, and `count_reads(t) < L` for every
`t < T`: `T` is the earliest time by which all `L` remaining bytes have been read. The
bounds on the loop flag and on `bits_remain` are not needed. -/
theorem irq_time_is_exhaustion (X : Ext) (d : Nes_Dmc) (hirq : d.irq_enabled = true)
    (hl : 1 ≤ d.length_counter) (hp : 0 < d.period) :
    (d.recalc_irq X).next_irq = d.apu.last_time + d.delay +
      ((d.length_counter - 1) * 8 + d.bits_remain - 1) * d.period + 1 ∧
    (d.count_reads (d.recalc_irq X).next_irq).1 = d.length_counter ∧
    (d.count_reads ((d.recalc_irq X).next_irq - 1)).1 = d.length_counter - 1 ∧
    ∀ t : Int, t < (d.recalc_irq X).next_irq → (d.count_reads t).1 < d.length_counter := by
  have hl0 : d.length_counter ≠ 0 := by omega
  have hP : 0 < d.period * 8 := by omega
  have hT : (d.recalc_irq X).next_irq =
      d.first_read + (d.length_counter - 1) * (d.period * 8) + 1 := by
    have : (d.recalc_irq X).next_irq = d.irq_time X := by
      unfold Nes_Dmc.recalc_irq
      simp only
      split
      · rfl
      · rename_i h
        simp only [ne_eq, not_not] at h
        exact h.symm
    rw [this]
    unfold Nes_Dmc.irq_time Nes_Dmc.first_read
    rw [if_pos ⟨hirq, hl0⟩]
    ring
  have hat := Nes_Dmc.count_reads_at d (d.length_counter - 1) (by omega) hl0 hp
    (Or.inr (by omega))
  have hbefore := Nes_Dmc.count_reads_before d (d.length_counter - 1) (by omega) hl0 hp
    (Or.inr (by omega))
  refine ⟨?_, ?_, ?_, ?_⟩
  · rw [hT]
    unfold Nes_Dmc.first_read
    ring
  · rw [hT, hat]
    ring
  · have e : d.first_read + (d.length_counter - 1) * (d.period * 8) + 1 - 1 =
        d.first_read + (d.length_counter - 1) * (d.period * 8) := by ring
    rw [hT, e, hbefore]
  · intro t ht
    rw [hT] at ht
    by_cases hav : 0 < t - d.first_read
    · obtain ⟨c, hcr, hcq, _, _⟩ := Nes_Dmc.count_reads_avail d t hl0 hp hav
      rw [hcr]
      show c < d.length_counter
      have hq : (t - d.first_read - 1) / (d.period * 8) < d.length_counter - 1 :=
        Int.ediv_lt_of_lt_mul hP (by omega)
      omega
    · have : (d.count_reads t).1 = 0 := by
        unfold Nes_Dmc.count_reads
        have h' : t - d.first_read ≤ 0 := by omega
        simp only [hl0, if_false, h', if_true]
      omega

theorem irq_time_is_exhaustion_witness :
    exampleDmc.irq_enabled = true ∧ exampleDmc.regs0 &&& loop_flag = 0 ∧
    1 ≤ exampleDmc.length_counter ∧ 0 < exampleDmc.period ∧
    (exampleDmc.count_reads (exampleDmc.recalc_irq exampleExt).next_irq).1 =
      exampleDmc.length_counter ∧
    (exampleDmc.count_reads ((exampleDmc.recalc_irq exampleExt).next_irq - 1)).1 =
      exampleDmc.length_counter - 1 := by
  obtain ⟨_, h1, h2, _⟩ :=
    irq_time_is_exhaustion exampleExt exampleDmc (by decide) (by decide) (by decide)
  exact ⟨by decide, by decide, by decide, by decide, h1, h2⟩

/-! ## Nes_Noise: the two loops and the unbound channel -/

theorem Nes_Noise.iterate_silent (tap : Nat) (period : Int) (k : Nat) (l : NoiseLoop) :
    ((Nes_Noise.run_body_silent tap period)^[k] l).noise = (Nes_Noise.lfsr tap)^[k] l.noise ∧
    ((Nes_Noise.run_body_silent tap period)^[k] l).out = l.out ∧
    ((Nes_Noise.run_body_silent tap period)^[k] l).last_amp = l.last_amp := by
  induction k with
  | zero => exact ⟨rfl, rfl, rfl⟩
  | succ k ih =>
    rw [Function.iterate_succ_apply', Function.iterate_succ_apply']
    refine ⟨?_, ?_, ?_⟩
    · show Nes_Noise.lfsr tap _ = _
      rw [ih.1]
    · show NoiseLoop.out _ = _
      exact ih.2.1
    · show NoiseLoop.last_amp _ = _
      exact ih.2.2

theorem Nes_Noise.iterate_loud (volume : Int) (tap : Nat) (period rperiod : Int) (k : Nat)
    (l : NoiseLoop) :
    ((Nes_Noise.run_body volume tap period rperiod)^[k] l).noise =
      (Nes_Noise.lfsr tap)^[k] l.noise := by
  induction k with
  | zero => rfl
  | succ k ih =>
    rw [Function.iterate_succ_apply', Function.iterate_succ_apply']
    show Nes_Noise.lfsr tap _ = _
    rw [ih]

/-- Closed form of `Nes_Noise::run` with an output bound: the register is stepped once per
timer edge before `end_time`, whichever loop runs, and the loop taken when `volume` is
zero adds no emission to the initial one. -/
theorem Nes_Noise.run_bound_eq (X : Ext) (n : Nes_Noise) (time e : Int)
    (ho : n.output = true) :
    ∃ r out, n.run X time e = some (r, out) ∧
      r.noise = (Nes_Noise.lfsr (if n.regs2 &&& 0x80 ≠ 0 then 6 else 1))^[
        edges (time + n.delay) e ((noise_period_table n.pal_mode).getD (n.regs2 &&& 15) 0)]
        n.noise ∧
      r.delay = time + n.delay +
        edges (time + n.delay) e ((noise_period_table n.pal_mode).getD (n.regs2 &&& 15) 0) *
          ((noise_period_table n.pal_mode).getD (n.regs2 &&& 15) 0) - e ∧
      (n.volume = 0 →
        out = (if 0 - n.last_amp ≠ 0 then [Emit.offset time (0 - n.last_amp)] else []) ∧
        r.last_amp = 0) := by
  have hp := n.period_pos
  unfold Nes_Noise.run
  have hc : (!n.output) = false := by simp [ho]
  simp only [hc, Bool.false_eq_true, if_false, update_amp]
  by_cases hlt : time + n.delay < e
  · simp only [hlt, if_true]
    by_cases hv : n.volume = 0
    · simp only [hv, if_true]
      have h := doWhile_iterate
        (Nes_Noise.run_body_silent (if n.regs2 &&& 0x80 ≠ 0 then 6 else 1)
          ((noise_period_table n.pal_mode).getD (n.regs2 &&& 15) 0)) NoiseLoop.time e _ hp
        (Nes_Noise.run_body_silent_time _ _) (e - (time + n.delay)).toNat
        ⟨time + n.delay, X.resampled_time (time + n.delay), n.noise,
          if Int.land n.noise 1 ≠ 0 then 0 else 0,
          if (if Int.land n.noise 1 ≠ 0 then 0 else 0) - n.last_amp ≠ 0 then
            [Emit.offset time ((if Int.land n.noise 1 ≠ 0 then 0 else 0) - n.last_amp)]
          else []⟩ hlt (edges_le _ _ _ hp)
      simp only at h
      rw [h]
      obtain ⟨i1, i2, i3⟩ := Nes_Noise.iterate_silent (if n.regs2 &&& 0x80 ≠ 0 then 6 else 1)
        ((noise_period_table n.pal_mode).getD (n.regs2 &&& 15) 0)
        (edges (time + n.delay) e ((noise_period_table n.pal_mode).getD (n.regs2 &&& 15) 0))
        ⟨time + n.delay, X.resampled_time (time + n.delay), n.noise,
          if Int.land n.noise 1 ≠ 0 then 0 else 0,
          if (if Int.land n.noise 1 ≠ 0 then 0 else 0) - n.last_amp ≠ 0 then
            [Emit.offset time ((if Int.land n.noise 1 ≠ 0 then 0 else 0) - n.last_amp)]
          else []⟩
      refine ⟨_, _, rfl, i1, ?_, fun _ => ⟨?_, ?_⟩⟩
      · show NoiseLoop.time _ - e = _
        rw [iterate_time _ NoiseLoop.time _ (Nes_Noise.run_body_silent_time _ _)]
      · show NoiseLoop.out _ = _
        rw [i2]
        simp
      · show NoiseLoop.last_amp _ = _
        rw [i3]
        simp
    · simp only [hv, if_false]
      have h := doWhile_iterate
        (Nes_Noise.run_body n.volume (if n.regs2 &&& 0x80 ≠ 0 then 6 else 1)
          ((noise_period_table n.pal_mode).getD (n.regs2 &&& 15) 0)
          (X.resampled_duration ((noise_period_table n.pal_mode).getD (n.regs2 &&& 15) 0)))
        NoiseLoop.time e _ hp
        (Nes_Noise.noise_body_time _ _ _ _) (e - (time + n.delay)).toNat
        ⟨time + n.delay, X.resampled_time (time + n.delay), n.noise,
          if Int.land n.noise 1 ≠ 0 then 0 else n.volume,
          if (if Int.land n.noise 1 ≠ 0 then 0 else n.volume) - n.last_amp ≠ 0 then
            [Emit.offset time
              ((if Int.land n.noise 1 ≠ 0 then 0 else n.volume) - n.last_amp)]
          else []⟩ hlt (edges_le _ _ _ hp)
      simp only at h
      rw [h]
      refine ⟨_, _, rfl, Nes_Noise.iterate_loud _ _ _ _ _ _, ?_, fun h0 => False.elim h0⟩
      show NoiseLoop.time _ - e = _
      rw [iterate_time _ NoiseLoop.time _ (Nes_Noise.noise_body_time _ _ _ _)]
  · simp only [hlt, if_false]
    rw [edges_eq_zero _ _ _ hp (by omega)]
    refine ⟨_, _, rfl, rfl, ?_, fun hv => ⟨?_, ?_⟩⟩
    · show time + n.delay - e = _
      simp
    · simp [hv]
    · show (if Int.land n.noise 1 ≠ 0 then 0 else n.volume) = 0
      simp [hv]

/-- C14 (the noise silent fast path preserves the register). For two noise states, both
with an output bound, that agree on the shift register, `delay`, `regs[2]` and `pal_mode`,
one with `volume() = 0` and the other with any volume (in particular `volume() > 0`, when
it takes the other loop): both runs return and leave the
same shift register and the same delay; and the emissions of the volume-0 run are just the
initial `update_amp` delta at `time` (if non-zero), so its loop emits nothing. The bound
`time <= end_time` is not needed. -/
theorem noise_silent_fast_path (X : Ext) (a b : Nes_Noise) (time end_time : Int)
    (hoa : a.output = true) (hob : b.output = true)
    (hnoise : a.noise = b.noise) (hdelay : a.delay = b.delay)
    (hregs : a.regs2 = b.regs2) (hpal : a.pal_mode = b.pal_mode)
    (hva : a.volume = 0) :
    ∃ ra outa rb outb, a.run X time end_time = some (ra, outa) ∧
      b.run X time end_time = some (rb, outb) ∧
      ra.noise = rb.noise ∧ ra.delay = rb.delay ∧
      outa = (if 0 - a.last_amp ≠ 0 then [Emit.offset time (0 - a.last_amp)] else []) := by
  obtain ⟨ra, outa, hra, hna, hda, hsa⟩ := Nes_Noise.run_bound_eq X a time end_time hoa
  obtain ⟨rb, outb, hrb, hnb, hdb, _⟩ := Nes_Noise.run_bound_eq X b time end_time hob
  refine ⟨ra, outa, rb, outb, hra, hrb, ?_, ?_, (hsa hva).1⟩
  · rw [hna, hnb, hnoise, hdelay, hregs, hpal]
  · rw [hda, hdb, hdelay, hregs, hpal]

theorem noise_silent_fast_path_witness :
    Nes_Osc.output { exampleNoise with length_counter := 0 }.toNes_Envelope.toNes_Osc = true ∧
    exampleNoise.output = true ∧
    Nes_Envelope.volume { exampleNoise with length_counter := 0 }.toNes_Envelope = 0 ∧
    0 < exampleNoise.volume ∧
    ∃ ra outa rb outb,
      Nes_Noise.run exampleExt { exampleNoise with length_counter := 0 } 0 1000 =
        some (ra, outa) ∧
      exampleNoise.run exampleExt 0 1000 = some (rb, outb) ∧
      ra.noise = rb.noise ∧ ra.delay = rb.delay := by
  obtain ⟨ra, outa, rb, outb, h1, h2, h3, h4, _⟩ :=
    noise_silent_fast_path exampleExt { exampleNoise with length_counter := 0 } exampleNoise
      0 1000 (by decide) (by decide) rfl rfl rfl rfl (by decide)
  exact ⟨by decide, by decide, by decide, by decide, ra, outa, rb, outb, h1, h2, h3, h4⟩


/-- C15 fails on the code: `Nes_Noise::run` starts with `if ( !output ) return;`. For
`exampleNoise` (register 1, delay 0, timer period 64) and the window `[0, 1000)`, the run
with an output bound steps the register 16 times (to 24576) and leaves delay 24, while the
run with the output unset leaves the register at 1 and the delay at 0. -/
theorem noise_unset_differs_from_bound :
    (exampleNoise.run exampleExt 0 1000).map (fun r => (r.1.noise, r.1.delay)) =
      some (24576, 24) ∧
    (Nes_Noise.run exampleExt { exampleNoise with output := false } 0 1000).map
      (fun r => (r.1.noise, r.1.delay)) = some (1, 0) := by
  decide

/-- C15, amended: with the output unset `Nes_Noise::run` returns at once; it emits nothing
and leaves the whole state, the shift register and `delay` included, unchanged, for every
state and window. -/
theorem noise_unset_is_noop (X : Ext) (n : Nes_Noise) (time end_time : Int)
    (ho : n.output = false) :
    n.run X time end_time = some (n, []) := by
  unfold Nes_Noise.run
  have hc : (!n.output) = true := by simp [ho]
  simp only [hc, if_true]

theorem noise_unset_is_noop_witness :
    Nes_Osc.output { exampleNoise with output := false }.toNes_Envelope.toNes_Osc = false ∧
    Nes_Noise.run exampleExt { exampleNoise with output := false } 0 1000 =
      some ({ exampleNoise with output := false }, []) :=
  ⟨by decide, noise_unset_is_noop exampleExt { exampleNoise with output := false } 0 1000
    (by decide)⟩

/-! ## Nes_Square: the empty window and the concrete scenario -/

/-- C16 fails on the code: for `exampleSquare` (audible, phase 0, delay 0, `last_amp = 0`,
output bound) the empty window `run(7, 7)` emits the delta `+15` at time 7 and sets
`last_amp` to 15; and for a silenced channel (`length_counter = 0`) with `last_amp = 15` it
emits `-15`, sets `last_amp` to 0 and `trigger` to `trigger_none`. -/
theorem square_empty_window_emits :
    0 ≤ exampleSquare.delay ∧ 0 ≤ exampleSquare.phase ∧ exampleSquare.phase < 8 ∧
    exampleSquare.run exampleExt 7 7 =
      some ({ exampleSquare with last_amp := 15 }, [Emit.offset 7 15]) ∧
    Nes_Square.run exampleExt { exampleSquare with length_counter := 0, last_amp := 15 } 7 7 =
      some ({ exampleSquare with length_counter := 0, last_amp := 0, trigger := -2 },
        [Emit.offset 7 (-15)]) := by
  decide

/-- C16, amended: for a square channel with `delay >= 0`, `run(t, t)` returns and leaves
phase, delay, the registers, envelope and length_counter unchanged. With the output unset
it emits nothing and leaves `last_amp` unchanged (only `trigger` becomes `trigger_none`).
With an output bound it brings `last_amp` to the current target amplitude (0 when the
channel is silent, together with `trigger = trigger_none`; otherwise the duty level of the
current phase) and emits the single delta `target - last_amp` at `t` when that is
non-zero; so it emits nothing and changes none of these fields when `last_amp` already
equals the target. The bound on the phase is not needed. -/
theorem square_empty_window (X : Ext) (s : Nes_Square) (t : Int) (hd : 0 ≤ s.delay) :
    (s.output = false → s.run X t t = some ({ s with trigger := X.trigger_none }, [])) ∧
    (s.output = true → s.silent X →
      s.run X t t = some ({ s with last_amp := 0, trigger := X.trigger_none },
        if s.last_amp ≠ 0 then [Emit.offset t (0 - s.last_amp)] else [])) ∧
    (s.output = true → ¬ s.silent X →
      s.run X t t = some ({ s with last_amp := s.amp_at s.phase },
        if s.amp_at s.phase - s.last_amp ≠ 0 then
          [Emit.offset t (s.amp_at s.phase - s.last_amp)] else [])) ∧
    (∃ r out, s.run X t t = some (r, out) ∧ r.phase = s.phase ∧ r.delay = s.delay ∧
      r.regs0 = s.regs0 ∧ r.regs1 = s.regs1 ∧ r.regs2 = s.regs2 ∧ r.regs3 = s.regs3 ∧
      r.envelope = s.envelope ∧ r.length_counter = s.length_counter) := by
  have hrem : ¬ (t - (t + s.delay) > 0) := by omega
  have hlt : ¬ (t + s.delay < t) := by omega
  have hdel : t + s.delay - t = s.delay := by ring
  have h1 : s.output = false → s.run X t t = some ({ s with trigger := X.trigger_none }, []) := by
    intro ho
    unfold Nes_Square.run Nes_Square.maintain_phase
    have hc : (!s.output) = true := by simp [ho]
    simp only [hc, if_true, hrem, if_false, hdel]
  have h2 : s.output = true → s.silent X →
      s.run X t t = some ({ s with last_amp := 0, trigger := X.trigger_none },
        if s.last_amp ≠ 0 then [Emit.offset t (0 - s.last_amp)] else []) := by
    intro ho hs
    unfold Nes_Square.run Nes_Square.maintain_phase
    have hc : (!s.output) = false := by simp [ho]
    simp only [hc, Bool.false_eq_true, if_false, hs, if_true]
    by_cases hl : s.last_amp = 0
    · simp only [hl, ne_eq, not_true_eq_false, if_false, hrem, hdel]
    · simp only [hl, ne_eq, not_false_eq_true, if_true, hrem, if_false, hdel, zero_sub]
  have h3 : s.output = true → ¬ s.silent X →
      s.run X t t = some ({ s with last_amp := s.amp_at s.phase },
        if s.amp_at s.phase - s.last_amp ≠ 0 then
          [Emit.offset t (s.amp_at s.phase - s.last_amp)] else []) := by
    intro ho hs
    unfold Nes_Square.run
    have hc : (!s.output) = false := by simp [ho]
    simp only [hc, Bool.false_eq_true, if_false, hs, update_amp, hlt, hdel]
  refine ⟨h1, h2, h3, ?_⟩
  by_cases ho : s.output = true
  · by_cases hs : s.silent X
    · exact ⟨_, _, h2 ho hs, rfl, rfl, rfl, rfl, rfl, rfl, rfl, rfl⟩
    · exact ⟨_, _, h3 ho hs, rfl, rfl, rfl, rfl, rfl, rfl, rfl, rfl⟩
  · exact ⟨_, _, h1 (by simpa using ho), rfl, rfl, rfl, rfl, rfl, rfl, rfl, rfl⟩

theorem square_empty_window_witness :
    0 ≤ exampleSquare.delay ∧
    ∃ r out, exampleSquare.run exampleExt 7 7 = some (r, out) ∧
      r.phase = exampleSquare.phase ∧ r.delay = exampleSquare.delay ∧
      r.regs0 = exampleSquare.regs0 ∧ r.regs1 = exampleSquare.regs1 ∧
      r.regs2 = exampleSquare.regs2 ∧ r.regs3 = exampleSquare.regs3 ∧
      r.envelope = exampleSquare.envelope ∧
      r.length_counter = exampleSquare.length_counter :=
  ⟨by decide, (square_empty_window exampleExt exampleSquare 7 (by decide)).2.2.2⟩

/-- C17 fails on the code: `exampleSquare` is the scenario of the claim (duty select 2,
constant volume 15, period 100, length counter 5, phase 0, delay 0, `last_amp = 0`, output
bound) and the window `[0, 10000)` holds 50 timer edges (the multiples of 202), but
`run(0, 10000)` emits 13 deltas only: `+15` at 0, then one at every fourth edge
(606, 1414, 2222, ...); the edges at 202 and 404 emit nothing. -/
theorem square_scenario_not_every_edge :
    (exampleSquare.regs0 >>> 6) &&& 3 = 2 ∧ exampleSquare.volume = 15 ∧
    exampleSquare.period = 100 ∧ ¬ exampleSquare.silent exampleExt ∧
    exampleSquare.phase = 0 ∧ exampleSquare.delay = 0 ∧ exampleSquare.last_amp = 0 ∧
    exampleSquare.output = true ∧
    edges 0 10000 202 = 50 ∧
    (exampleSquare.run exampleExt 0 10000).map (fun r => r.2) =
      some [Emit.offset 0 15, Emit.offset 606 (-15), Emit.offset 1414 15,
        Emit.offset 2222 (-15), Emit.offset 3030 15, Emit.offset 3838 (-15),
        Emit.offset 4646 15, Emit.offset 5454 (-15), Emit.offset 6262 15,
        Emit.offset 7070 (-15), Emit.offset 7878 15, Emit.offset 8686 (-15),
        Emit.offset 9494 15] := by
  decide

/-- Apart from `trigger`, the loop variables of `Nes_Square::run` evolve independently of
the resampling parameters and of `trigger`. -/
theorem Nes_Square.square_body_indep (X Y : Ext) (duty tp : Int) (a b : SquareLoop)
    (h : a.time = b.time ∧ a.delta = b.delta ∧ a.phase = b.phase ∧ a.out = b.out) :
    (Nes_Square.run_body X duty tp a).time = (Nes_Square.run_body Y duty tp b).time ∧
    (Nes_Square.run_body X duty tp a).delta = (Nes_Square.run_body Y duty tp b).delta ∧
    (Nes_Square.run_body X duty tp a).phase = (Nes_Square.run_body Y duty tp b).phase ∧
    (Nes_Square.run_body X duty tp a).out = (Nes_Square.run_body Y duty tp b).out := by
  obtain ⟨h1, h2, h3, h4⟩ := h
  unfold Nes_Square.run_body
  simp only [h1, h2, h3, h4]
  split <;> exact ⟨rfl, rfl, rfl, rfl⟩

theorem Nes_Square.square_iterate_indep (X Y : Ext) (duty tp : Int) (n : Nat) :
    ∀ a b : SquareLoop,
    (a.time = b.time ∧ a.delta = b.delta ∧ a.phase = b.phase ∧ a.out = b.out) →
    ((Nes_Square.run_body X duty tp)^[n] a).time =
      ((Nes_Square.run_body Y duty tp)^[n] b).time ∧
    ((Nes_Square.run_body X duty tp)^[n] a).delta =
      ((Nes_Square.run_body Y duty tp)^[n] b).delta ∧
    ((Nes_Square.run_body X duty tp)^[n] a).phase =
      ((Nes_Square.run_body Y duty tp)^[n] b).phase ∧
    ((Nes_Square.run_body X duty tp)^[n] a).out =
      ((Nes_Square.run_body Y duty tp)^[n] b).out := by
  induction n with
  | zero => intro a b h; exact h
  | succ n ih =>
    intro a b h
    rw [Function.iterate_succ_apply, Function.iterate_succ_apply]
    exact ih _ _ (Nes_Square.square_body_indep X Y duty tp a b h)

set_option maxRecDepth 8000 in
/-- The loop of the concrete scenario: 50 edges from phase 0 with duty 4 and period 202. -/
theorem Nes_Square.square_scenario_loop :
    ((Nes_Square.run_body exampleExt 4 202)^[50] ⟨0, 15, 0, 0, [Emit.offset 0 15]⟩).time =
      10100 ∧
    ((Nes_Square.run_body exampleExt 4 202)^[50] ⟨0, 15, 0, 0, [Emit.offset 0 15]⟩).delta =
      15 ∧
    ((Nes_Square.run_body exampleExt 4 202)^[50] ⟨0, 15, 0, 0, [Emit.offset 0 15]⟩).phase =
      2 ∧
    ((Nes_Square.run_body exampleExt 4 202)^[50] ⟨0, 15, 0, 0, [Emit.offset 0 15]⟩).out =
      [Emit.offset 0 15, Emit.offset 606 (-15), Emit.offset 1414 15,
        Emit.offset 2222 (-15), Emit.offset 3030 15, Emit.offset 3838 (-15),
        Emit.offset 4646 15, Emit.offset 5454 (-15), Emit.offset 6262 15,
        Emit.offset 7070 (-15), Emit.offset 7878 15, Emit.offset 8686 (-15),
        Emit.offset 9494 15] := by
  decide

/-- C17, amended: for a square channel with duty select 2, constant volume 15, period 100
(timer period 202), a non-zero length counter, phase 0, delay 0, `last_amp = 0`, an output
bound and `min_period <= 100` (with period 100 the sweep cannot overflow), `run(0, 10000)`
returns; it steps the phase at each of the 50 timer edges (the multiples of 202 below
10000) but emits a delta only where the phase reaches the duty boundary 4 or wraps to 0:
`+15` at time 0 for the initial amplitude, then `-15` at 606, `+15` at 1414 and so on
every 808 cycles, 13 deltas alternating in sign. The edge after the window close (10100)
emits nothing; afterwards phase = 2, delay = 100 and `last_amp = 15`. -/
theorem square_scenario_emissions (X : Ext) (s : Nes_Square)
    (hr0 : s.regs0 = 0x9F ∨ s.regs0 = 0xBF) (hr2 : s.regs2 = 100) (hr3 : s.regs3 &&& 7 = 0)
    (hlen : s.length_counter ≠ 0) (hph : s.phase = 0) (hdl : s.delay = 0)
    (hla : s.last_amp = 0) (ho : s.output = true) (hmin : X.min_period ≤ 100) :
    ∃ r, s.run X 0 10000 = some (r,
      [Emit.offset 0 15, Emit.offset 606 (-15), Emit.offset 1414 15,
        Emit.offset 2222 (-15), Emit.offset 3030 15, Emit.offset 3838 (-15),
        Emit.offset 4646 15, Emit.offset 5454 (-15), Emit.offset 6262 15,
        Emit.offset 7070 (-15), Emit.offset 7878 15, Emit.offset 8686 (-15),
        Emit.offset 9494 15]) ∧
      r.phase = 2 ∧ r.delay = 100 ∧ r.last_amp = 15 ∧
      r.regs0 = s.regs0 ∧ r.regs1 = s.regs1 ∧ r.regs2 = s.regs2 ∧ r.regs3 = s.regs3 ∧
      r.length_counter = s.length_counter ∧ r.envelope = s.envelope := by
  have hper : s.period = 100 := by
    unfold Nes_Osc.period
    rw [hr3, hr2]
    rfl
  have hvol : s.volume = 15 := by
    unfold Nes_Envelope.volume
    rw [if_neg hlen]
    rcases hr0 with h | h <;> rw [h] <;> rfl
  have hduty : s.duty = 4 := by
    unfold Nes_Square.duty
    rcases hr0 with h | h <;> rw [h] <;> rfl
  have hamp : ∀ p : Int, s.amp_at p = if p < 4 then 15 else 0 := by
    intro p
    unfold Nes_Square.amp_at
    rw [hduty, hvol]
    rcases hr0 with h | h <;> rw [h] <;> rfl
  have hoff : s.period >>> (s.regs1 &&& shift_mask) ≤ 100 := by
    rw [hper, Int.shiftRight_eq_div_pow]
    exact Int.ediv_le_self _ (by norm_num)
  have hsil : ¬ s.silent X := by
    unfold Nes_Square.silent
    simp only
    rw [hvol]
    split <;> rw [hper] at * <;> omega
  obtain ⟨l, hl⟩ : ∃ l, l = (Nes_Square.run_body X s.duty ((s.period + 1) * 2))^[
      edges (0 + s.delay) 10000 ((s.period + 1) * 2)]
      ⟨0 + s.delay, s.amp_at s.phase * 2 - s.volume, s.phase, s.trigger,
        if s.amp_at s.phase - s.last_amp ≠ 0 then
          [Emit.offset 0 (s.amp_at s.phase - s.last_amp)] else []⟩ := ⟨_, rfl⟩
  have hrun := Nes_Square.run_audible_eq X s 0 10000 ho hsil (by rw [hph]) (by rw [hph]; norm_num)
    l hl
  have hedges : edges (0 + s.delay) 10000 ((s.period + 1) * 2) = 50 := by
    rw [hdl, hper]; decide
  rw [hedges, hduty, hper, hamp, hph, hvol, hdl, hla] at hl
  have hl0 : (⟨0 + 0, (if (0 : Int) < 4 then 15 else 0) * 2 - 15, 0, s.trigger,
      if (if (0 : Int) < 4 then (15 : Int) else 0) - 0 ≠ 0 then
        [Emit.offset 0 ((if (0 : Int) < 4 then 15 else 0) - 0)] else []⟩ : SquareLoop) =
      ⟨0, 15, 0, s.trigger, [Emit.offset 0 15]⟩ := by
    norm_num
  have h202 : ((100 : Int) + 1) * 2 = 202 := by norm_num
  rw [hl0, h202] at hl
  have hind := Nes_Square.square_iterate_indep X exampleExt 4 202 50
    ⟨0, 15, 0, s.trigger, [Emit.offset 0 15]⟩
    ⟨0, 15, 0, 0, [Emit.offset 0 15]⟩ ⟨rfl, rfl, rfl, rfl⟩
  rw [← hl] at hind
  obtain ⟨e1, -, e3, e4⟩ := Nes_Square.square_scenario_loop
  rw [e1, e3, e4] at hind
  obtain ⟨ht, -, hp, hout⟩ := hind
  rw [hout] at hrun
  refine ⟨_, hrun, hp, ?_, ?_, rfl, rfl, rfl, rfl, rfl, rfl⟩
  · show l.time - 10000 = 100
    rw [ht]; rfl
  · show s.amp_at l.phase = 15
    rw [hp, hamp]; rfl

theorem square_scenario_emissions_witness :
    exampleExt.min_period ≤ 100 ∧ exampleSquare.length_counter ≠ 0 ∧
    ∃ r, exampleSquare.run exampleExt 0 10000 = some (r,
      [Emit.offset 0 15, Emit.offset 606 (-15), Emit.offset 1414 15,
        Emit.offset 2222 (-15), Emit.offset 3030 15, Emit.offset 3838 (-15),
        Emit.offset 4646 15, Emit.offset 5454 (-15), Emit.offset 6262 15,
        Emit.offset 7070 (-15), Emit.offset 7878 15, Emit.offset 8686 (-15),
        Emit.offset 9494 15]) ∧
      r.phase = 2 ∧ r.delay = 100 ∧ r.last_amp = 15 ∧
      r.regs0 = exampleSquare.regs0 ∧ r.regs1 = exampleSquare.regs1 ∧
      r.regs2 = exampleSquare.regs2 ∧ r.regs3 = exampleSquare.regs3 ∧
      r.length_counter = exampleSquare.length_counter ∧
      r.envelope = exampleSquare.envelope :=
  ⟨by decide, by decide,
    square_scenario_emissions exampleExt exampleSquare (by decide) (by decide) (by decide)
      (by decide) (by decide) (by decide) (by decide) (by decide) (by decide)⟩

/-! ## Nes_Square: the sweep unit -/

theorem ldiff7_or_low (r hi : Nat) (hhi : hi < 8) :
    ((Nat.ldiff r 7 ||| hi) % 256) &&& 7 = hi := by
  apply Nat.eq_of_testBit_eq
  intro i
  have h256 : 256 = 2 ^ 8 := by norm_num
  have h7 : 7 = 2 ^ 3 - 1 := by norm_num
  rw [Nat.testBit_and, h256, Nat.testBit_mod_two_pow, Nat.testBit_lor, Nat.testBit_ldiff]
  nth_rewrite 1 [h7]
  nth_rewrite 1 [h7]
  rw [Nat.testBit_two_pow_sub_one]
  by_cases hi3 : i < 3
  · have : i < 8 := by omega
    simp [hi3, this]
  · have : hi.testBit i = false := by
      apply Nat.testBit_lt_two_pow
      exact lt_of_lt_of_le hhi (Nat.pow_le_pow_right (by norm_num) (by omega) : 2 ^ 3 ≤ 2 ^ i)
    simp [hi3, this]

theorem ldiff7_or_high (r hi : Nat) (hr : r < 256) (hhi : hi < 8) :
    ((Nat.ldiff r 7 ||| hi) % 256) >>> 3 = r >>> 3 := by
  apply Nat.eq_of_testBit_eq
  intro i
  have h256 : 256 = 2 ^ 8 := by norm_num
  have h7 : 7 = 2 ^ 3 - 1 := by norm_num
  rw [Nat.testBit_shiftRight, Nat.testBit_shiftRight, h256, Nat.testBit_mod_two_pow,
    Nat.testBit_lor, Nat.testBit_ldiff, h7, Nat.testBit_two_pow_sub_one]
  have h1 : hi.testBit (3 + i) = false := by
    apply Nat.testBit_lt_two_pow
    exact lt_of_lt_of_le hhi (Nat.pow_le_pow_right (by norm_num) (by omega) : 2 ^ 3 ≤ 2 ^ (3 + i))
  have h2 : ¬ (3 + i < 3) := by omega
  by_cases h8 : 3 + i < 8
  · simp [h1, h2, h8]
  · have : r.testBit (3 + i) = false := by
      apply Nat.testBit_lt_two_pow
      exact lt_of_lt_of_le hr (Nat.pow_le_pow_right (by norm_num) (by omega) : 2 ^ 8 ≤ 2 ^ (3 + i))
    simp [h8, this]

/-- The two register bytes written by the sweep hold the new 11-bit period, and the upper
five bits of a byte-valued `regs[3]` are kept. -/
theorem sweep_regs (r3 : Nat) (q : Int) (h0 : 0 ≤ q) (h : q < 0x800) :
    ((((Int.lor (Int.land r3 (~~~7)) (Int.land (q >>> (8 : Nat)) 7) % 256).toNat &&& 7) * 0x100 +
      (Int.land q 0xff % 256).toNat : Nat) : Int) = q ∧
    (r3 < 256 →
      (Int.lor (Int.land r3 (~~~7)) (Int.land (q >>> (8 : Nat)) 7) % 256).toNat >>> 3 =
        r3 >>> 3) := by
  obtain ⟨n, rfl⟩ := Int.eq_ofNat_of_zero_le h0
  have hn : n < 0x800 := by exact_mod_cast h
  have e3 : Int.lor (Int.land r3 (~~~7)) (Int.land ((n : Int) >>> (8 : Nat)) 7) =
      ((Nat.ldiff r3 7 ||| ((n >>> 8) &&& 7) : Nat) : Int) := rfl
  have e2 : Int.land (n : Int) 0xff = ((n &&& 255 : Nat) : Int) := rfl
  rw [e3, e2]
  have t3 : ((((Nat.ldiff r3 7 ||| ((n >>> 8) &&& 7) : Nat) : Int)) % 256).toNat =
      (Nat.ldiff r3 7 ||| ((n >>> 8) &&& 7)) % 256 := by
    omega
  have t2 : ((((n &&& 255 : Nat) : Int)) % 256).toNat = (n &&& 255) % 256 := by omega
  rw [t3, t2]
  have hhi : (n >>> 8) &&& 7 < 8 := lt_of_le_of_lt Nat.and_le_right (by norm_num)
  have hlo : n &&& 255 = n % 256 := Nat.and_pow_two_sub_one_eq_mod n 8
  have hhi2 : (n >>> 8) &&& 7 = n / 256 := by
    have := Nat.and_pow_two_sub_one_eq_mod (n >>> 8) 3
    rw [Nat.shiftRight_eq_div_pow] at this ⊢
    norm_num at this ⊢
    omega
  constructor
  · rw [ldiff7_or_low _ _ hhi, hlo, hhi2]
    push_cast
    omega
  · intro hr
    exact ldiff7_or_high _ _ hr hhi

theorem shr_half_le (p : Int) (k : Nat) (hp : 0 ≤ p) (hk : k ≠ 0) :
    0 ≤ p >>> k ∧ (p >>> k) * 2 ≤ p := by
  rw [Int.shiftRight_eq_div_pow]
  have h2 : (2 : Int) ≤ ((2 ^ k : Nat) : Int) := by
    have : 2 ^ 1 ≤ 2 ^ k := Nat.pow_le_pow_right (by norm_num) (by omega)
    exact_mod_cast this
  have hq : 0 ≤ p / ((2 ^ k : Nat) : Int) := Int.ediv_nonneg hp (by omega)
  have hm : p / ((2 ^ k : Nat) : Int) * ((2 ^ k : Nat) : Int) ≤ p :=
    Int.ediv_mul_le p (by omega)
  refine ⟨hq, ?_⟩
  nlinarith

/-- The branches of `clock_sweep`, with the period read once from the incoming state. -/
theorem Nes_Square.clock_sweep_eq (s : Nes_Square) (negative_adjust : Int) (q : Int)
    (hq : q = s.period + (if s.regs1 &&& negate_flag ≠ 0 then
      negative_adjust - (s.period >>> (s.regs1 &&& shift_mask))
      else s.period >>> (s.regs1 &&& shift_mask))) :
    s.clock_sweep negative_adjust =
      if s.sweep_delay - 1 < 0 then
        if s.regs1 &&& shift_mask ≠ 0 ∧ s.regs1 &&& 0x80 ≠ 0 ∧ s.period ≥ 8 then
          if q < 0x800 then
            { s with
              regs2 := (Int.land q 0xff % 256).toNat
              regs3 := (Int.lor (Int.land s.regs3 (~~~7))
                (Int.land (q >>> (8 : Nat)) 7) % 256).toNat
              ages2 := 0
              ages3 := 0
              reg_written1 := false
              sweep_delay := (((s.regs1 >>> 4) &&& 7 : Nat) : Int) }
          else { s with
            reg_written1 := false
            sweep_delay := (((s.regs1 >>> 4) &&& 7 : Nat) : Int) }
        else { s with
          reg_written1 := false
          sweep_delay := (((s.regs1 >>> 4) &&& 7 : Nat) : Int) }
      else if s.reg_written1 = true then
        { s with
          reg_written1 := false
          sweep_delay := (((s.regs1 >>> 4) &&& 7 : Nat) : Int) }
      else { s with sweep_delay := s.sweep_delay - 1 } := by
  subst hq
  unfold Nes_Square.clock_sweep Nes_Osc.period
  by_cases h1 : s.sweep_delay - 1 < 0
  · by_cases h2 : s.regs1 &&& shift_mask ≠ 0 ∧ s.regs1 &&& 0x80 ≠ 0 ∧
        (((s.regs3 &&& 7) * 0x100 + s.regs2 : Nat) : Int) ≥ 8
    · by_cases h3 : (((s.regs3 &&& 7) * 0x100 + s.regs2 : Nat) : Int) +
          (if s.regs1 &&& negate_flag ≠ 0 then
            negative_adjust -
              ((((s.regs3 &&& 7) * 0x100 + s.regs2 : Nat) : Int) >>> (s.regs1 &&& shift_mask))
          else (((s.regs3 &&& 7) * 0x100 + s.regs2 : Nat) : Int) >>>
            (s.regs1 &&& shift_mask)) < 0x800
      · simp only [h1, h2, h3, if_true, and_self, ne_eq, not_false_eq_true]
      · simp only [h1, h2, h3, if_true, if_false, and_self, ne_eq, not_false_eq_true]
    · simp only [h1, h2, if_true, if_false]
  · simp only [h1, if_false]

/-- C11: `clock_sweep` on a square channel with a byte-valued `regs[3]` and
`negative_adjust` in {-1, 0}. With `p = period()`, `shift = regs[1] & 7` and
`offset = p >> shift` (or `negative_adjust - (p >> shift)` when the negate bit is set): if
`sweep_delay - 1 < 0`, `shift != 0`, bit 0x80 of `regs[1]` is set, `p >= 8` and
`p + offset < 0x800`, the period afterwards is `p + offset`, lies in `[0, 0x7FF]`, the
upper five bits of `regs[3]` are unchanged and both ages are reset; in every other case
`regs[2]`, `regs[3]` and the ages are unchanged. `regs[0]`, `regs[1]` and `length_counter`
never change; `sweep_delay` becomes `(regs[1] >> 4) & 7` if register 1 had been written or
the delay underflowed and `sweep_delay - 1` otherwise, so it is non-negative afterwards,
and `reg_written[1]` is false afterwards. -/
theorem clock_sweep_postcondition (s : Nes_Square) (negative_adjust : Int)
    (h3 : s.regs3 < 256) (hna : negative_adjust = -1 ∨ negative_adjust = 0) :
    let p := s.period
    let shift := s.regs1 &&& shift_mask
    let offset := if s.regs1 &&& negate_flag ≠ 0 then negative_adjust - (p >>> shift)
      else p >>> shift
    let r := s.clock_sweep negative_adjust
    ((s.sweep_delay - 1 < 0 ∧ shift ≠ 0 ∧ s.regs1 &&& 0x80 ≠ 0 ∧ p ≥ 8 ∧ p + offset < 0x800) →
      r.period = p + offset ∧ 0 ≤ r.period ∧ r.period ≤ 0x7FF ∧
      r.regs3 >>> 3 = s.regs3 >>> 3 ∧ r.ages2 = 0 ∧ r.ages3 = 0) ∧
    (¬ (s.sweep_delay - 1 < 0 ∧ shift ≠ 0 ∧ s.regs1 &&& 0x80 ≠ 0 ∧ p ≥ 8 ∧
        p + offset < 0x800) →
      r.regs2 = s.regs2 ∧ r.regs3 = s.regs3 ∧ r.ages2 = s.ages2 ∧ r.ages3 = s.ages3) ∧
    r.regs0 = s.regs0 ∧ r.regs1 = s.regs1 ∧ r.length_counter = s.length_counter ∧
    r.sweep_delay = (if s.reg_written1 = true ∨ s.sweep_delay - 1 < 0 then
      (((s.regs1 >>> 4) &&& 7 : Nat) : Int) else s.sweep_delay - 1) ∧
    0 ≤ r.sweep_delay ∧ r.reg_written1 = false := by
  intro p shift offset r
  have hp0 : 0 ≤ p := s.period_nonneg
  have hr : r = _ := Nes_Square.clock_sweep_eq s negative_adjust (p + offset) rfl
  clear_value r
  have hreload : (0 : Int) ≤ (((s.regs1 >>> 4) &&& 7 : Nat) : Int) := by positivity
  by_cases hd : s.sweep_delay - 1 < 0
  · rw [if_pos hd] at hr
    have hsd : (if s.reg_written1 = true ∨ s.sweep_delay - 1 < 0 then
        (((s.regs1 >>> 4) &&& 7 : Nat) : Int) else s.sweep_delay - 1) =
        (((s.regs1 >>> 4) &&& 7 : Nat) : Int) := if_pos (Or.inr hd)
    rw [hsd]
    by_cases hc : shift ≠ 0 ∧ s.regs1 &&& 0x80 ≠ 0 ∧ p ≥ 8
    · rw [if_pos hc] at hr
      by_cases hw : p + offset < 0x800
      · -- the period is rewritten
        rw [if_pos hw] at hr
        have hq0 : 0 ≤ p + offset := by
          have hs := shr_half_le p shift hp0 hc.1
          have hp8 := hc.2.2
          show 0 ≤ p + (if s.regs1 &&& negate_flag ≠ 0 then negative_adjust - (p >>> shift)
            else p >>> shift)
          split <;> rcases hna with h | h <;> omega
        obtain ⟨e1, e2⟩ := sweep_regs s.regs3 (p + offset) hq0 hw
        have hper : r.period = p + offset := by
          rw [hr]
          exact e1
        have hr3 : r.regs3 >>> 3 = s.regs3 >>> 3 := by
          rw [hr]
          exact e2 h3
        refine ⟨fun _ => ⟨hper, ?_, ?_, hr3, ?_, ?_⟩,
          fun hn => absurd ⟨hd, hc.1, hc.2.1, hc.2.2, hw⟩ hn, ?_, ?_, ?_, ?_, ?_, ?_⟩
        · rw [hper]; exact hq0
        · rw [hper]; omega
        all_goals rw [hr]
        all_goals first | rfl | exact hreload
      · -- the new period would overflow
        rw [if_neg hw] at hr
        refine ⟨fun h => absurd h.2.2.2.2 hw, fun _ => ?_, ?_, ?_, ?_, ?_, ?_, ?_⟩
        all_goals rw [hr]
        all_goals first | rfl | exact hreload | exact ⟨rfl, rfl, rfl, rfl⟩
    · -- the sweep is disabled or the period too small
      rw [if_neg hc] at hr
      refine ⟨fun h => absurd ⟨h.2.1, h.2.2.1, h.2.2.2.1⟩ hc, fun _ => ?_, ?_, ?_, ?_, ?_, ?_, ?_⟩
      all_goals rw [hr]
      all_goals first | rfl | exact hreload | exact ⟨rfl, rfl, rfl, rfl⟩
  · -- no underflow
    rw [if_neg hd] at hr
    by_cases hwr : s.reg_written1 = true
    · rw [if_pos hwr] at hr
      rw [if_pos (Or.inl hwr), hr]
      exact ⟨fun h => absurd h.1 hd, fun _ => ⟨rfl, rfl, rfl, rfl⟩, rfl, rfl, rfl, rfl,
        hreload, rfl⟩
    · rw [if_neg hwr] at hr
      have hno : ¬ (s.reg_written1 = true ∨ s.sweep_delay - 1 < 0) := by
        rintro (h | h)
        · exact hwr h
        · exact hd h
      rw [if_neg hno, hr]
      refine ⟨fun h => absurd h.1 hd, fun _ => ⟨rfl, rfl, rfl, rfl⟩, rfl, rfl, rfl, rfl,
        ?_, ?_⟩
      · show 0 ≤ s.sweep_delay - 1
        omega
      · show s.reg_written1 = false
        simpa using hwr

theorem clock_sweep_postcondition_witness :
    exampleSweep.regs3 < 256 ∧
    (exampleSweep.sweep_delay - 1 < 0 ∧ exampleSweep.regs1 &&& shift_mask ≠ 0 ∧
      exampleSweep.regs1 &&& 0x80 ≠ 0 ∧ exampleSweep.period ≥ 8) ∧
    ((exampleSweep.clock_sweep 0).period = 150 ∧ 0 ≤ (exampleSweep.clock_sweep 0).period ∧
      (exampleSweep.clock_sweep 0).period ≤ 0x7FF ∧
      (exampleSweep.clock_sweep 0).regs3 >>> 3 = 0x15 ∧
      (exampleSweep.clock_sweep 0).ages2 = 0 ∧ (exampleSweep.clock_sweep 0).ages3 = 0) :=
  ⟨by decide, by decide,
    (clock_sweep_postcondition exampleSweep 0 (by decide) (Or.inr rfl)).1 (by decide)⟩

/-! ## Nes_Dmc: batching of silent edges -/

/-- One pass of the loop of `Nes_Dmc::run` while silent with nothing buffered: only the
time and the bit counter move. -/
theorem Nes_Dmc.run_body_quiet (X : Ext) (period : Int) (l : DmcLoop)
    (hs : l.d.silence = true) (hb : l.d.buf_full = false)
    (h1 : 1 ≤ l.bits_remain) (h8 : l.bits_remain ≤ 8) :
    Nes_Dmc.run_body X period l =
      { l with time := l.time + period, bits_remain := (l.bits_remain - 2) % 8 + 1 } := by
  unfold Nes_Dmc.run_body
  simp only
  rw [Nes_Dmc.run_shift_silent l hs]
  unfold Nes_Dmc.run_reload
  simp only
  by_cases h : l.bits_remain - 1 = 0
  · have hc : (!l.d.buf_full) = true := by simp [hb]
    simp only [h, if_true, hc]
    have hd : ({ l.d with silence := true } : Nes_Dmc) = l.d := by
      rw [← hs]
    rw [hd]
    have : (l.bits_remain - 2) % 8 + 1 = 8 := by omega
    rw [this]
  · simp only [h, if_false]
    have : (l.bits_remain - 2) % 8 + 1 = l.bits_remain - 1 := by omega
    rw [this]

theorem Nes_Dmc.iterate_quiet (X : Ext) (period : Int) (n : Nat) (l : DmcLoop)
    (hs : l.d.silence = true) (hb : l.d.buf_full = false)
    (h1 : 1 ≤ l.bits_remain) (h8 : l.bits_remain ≤ 8) :
    (Nes_Dmc.run_body X period)^[n] l =
      { l with
        time := l.time + n * period
        bits_remain := (l.bits_remain - 1 - n) % 8 + 1 } := by
  induction n with
  | zero =>
    simp only [Function.iterate_zero, id]
    have e1 : l.time + ((0 : Nat) : Int) * period = l.time := by simp
    have e2 : (l.bits_remain - 1 - ((0 : Nat) : Int)) % 8 + 1 = l.bits_remain := by
      push_cast; omega
    rw [e1, e2]
  | succ n ih =>
    rw [Function.iterate_succ_apply', ih]
    have hq := Nes_Dmc.run_body_quiet X period
      { l with
        time := l.time + n * period
        bits_remain := (l.bits_remain - 1 - n) % 8 + 1 } hs hb
      (by show 1 ≤ (l.bits_remain - 1 - (n : Int)) % 8 + 1; omega)
      (by show (l.bits_remain - 1 - (n : Int)) % 8 + 1 ≤ 8; omega)
    rw [hq]
    have e1 : l.time + (n : Int) * period + period = l.time + ((n + 1 : Nat) : Int) * period := by
      push_cast; ring
    have e2 : ((l.bits_remain - 1 - (n : Int)) % 8 + 1 - 2) % 8 + 1 =
        (l.bits_remain - 1 - ((n + 1 : Nat) : Int)) % 8 + 1 := by
      push_cast; omega
    show ({ l with
        time := l.time + (n : Int) * period + period
        bits_remain := ((l.bits_remain - 1 - (n : Int)) % 8 + 1 - 2) % 8 + 1 } : DmcLoop) = _
    rw [e1, e2]

/-- C18: for a DMC state with `silence` set, `buf_full` clear, `bits_remain` in `[1,8]`,
a positive period and `time + delay < end_time`, `Nes_Dmc::run` (which takes the batched
path) returns exactly what the per-edge `do ... while` loop returns from the same state.
With `count = ceil((end_time - time - delay) / period)` the result has
`bits_remain = (bits_remain - 1 + 8 - count mod 8) mod 8 + 1`, still in `[1,8]`, and
`delay = time + delay + count * period - end_time`; `dac`, `bits`, `silence`, `buf_full`,
`length_counter` and the list of memory reads are unchanged, `last_amp` is `dac`, and
nothing is emitted apart from the initial `update_amp` delta. -/
theorem dmc_silent_batching (X : Ext) (d : Nes_Dmc) (time end_time : Int)
    (hs : d.silence = true) (hb : d.buf_full = false)
    (h1 : 1 ≤ d.bits_remain) (h8 : d.bits_remain ≤ 8) (hp : 0 < d.period)
    (ht : time + d.delay < end_time) :
    d.run X time end_time = d.run_per_edge X time end_time ∧
    ∃ r out, d.run X time end_time = some (r, out) ∧
      r.bits_remain = (d.bits_remain - 1 + 8 -
        (edges (time + d.delay) end_time d.period : Int) % 8) % 8 + 1 ∧
      1 ≤ r.bits_remain ∧ r.bits_remain ≤ 8 ∧
      r.delay = time + d.delay + edges (time + d.delay) end_time d.period * d.period
        - end_time ∧
      r.dac = d.dac ∧ r.last_amp = d.dac ∧ r.bits = d.bits ∧ r.silence = true ∧
      r.buf_full = false ∧ r.length_counter = d.length_counter ∧
      r.rom_reads = d.rom_reads ∧
      out = (if d.dac - d.last_amp ≠ 0 ∧ d.output = true then
        [Emit.offset time (d.dac - d.last_amp)] else []) := by
  have hne : d.period ≠ 0 := by omega
  obtain ⟨n, hn⟩ : ∃ n : Nat, n = edges (time + d.delay) end_time d.period := ⟨_, rfl⟩
  have hcount : Int.tdiv (end_time - (time + d.delay) + d.period - 1) d.period = (n : Int) := by
    have := edge_count_eq (time + d.delay) end_time d.period hp (by omega)
    unfold edge_count at this
    rw [this, hn]
  have hrun : d.run X time end_time = some ({ d with
      last_amp := d.dac
      bits_remain := (d.bits_remain - 1 - n) % 8 + 1
      delay := time + d.delay + n * d.period - end_time },
      if d.dac - d.last_amp ≠ 0 ∧ d.output = true then
        [Emit.offset time (d.dac - d.last_amp)] else []) := by
    unfold Nes_Dmc.run
    have hc : (!d.buf_full) = true := by simp [hb]
    simp only [update_amp, ht, if_true, hs, hc, and_self, hne, if_false, hcount]
    have e1 : Int.tmod (n : Int) 8 = (n : Int) % 8 :=
      Int.tmod_eq_emod (by positivity) (by norm_num)
    have e2 : Int.tmod (d.bits_remain - 1 + 8 - (n : Int) % 8) 8 =
        (d.bits_remain - 1 + 8 - (n : Int) % 8) % 8 :=
      Int.tmod_eq_emod (by omega) (by norm_num)
    have e3 : (d.bits_remain - 1 + 8 - (n : Int) % 8) % 8 + 1 =
        (d.bits_remain - 1 - n) % 8 + 1 := by omega
    rw [e1, e2, e3]
  have hedge : d.run_per_edge X time end_time = some ({ d with
      last_amp := d.dac
      bits_remain := (d.bits_remain - 1 - n) % 8 + 1
      delay := time + d.delay + n * d.period - end_time },
      if d.dac - d.last_amp ≠ 0 ∧ d.output = true then
        [Emit.offset time (d.dac - d.last_amp)] else []) := by
    unfold Nes_Dmc.run_per_edge
    simp only [update_amp, ht, if_true]
    have h := doWhile_iterate (Nes_Dmc.run_body X d.period) DmcLoop.time end_time _ hp
      (Nes_Dmc.dmc_body_time X _) (end_time - (time + d.delay)).toNat
      ⟨{ d with last_amp := d.dac }, time + d.delay, d.bits_remain, d.bits, d.dac,
        if d.dac - d.last_amp ≠ 0 ∧ d.output = true then
          [Emit.offset time (d.dac - d.last_amp)] else []⟩ ht (edges_le _ _ _ hp)
    simp only at h
    rw [h, ← hn]
    rw [Nes_Dmc.iterate_quiet X d.period n _ hs hb h1 h8]
  rw [hrun, hedge]
  refine ⟨rfl, _, _, rfl, ?_, ?_, ?_, ?_, rfl, rfl, rfl, hs, hb, rfl, rfl, rfl⟩
  · show (d.bits_remain - 1 - n) % 8 + 1 = _
    rw [← hn]; omega
  · show 1 ≤ (d.bits_remain - 1 - n) % 8 + 1
    omega
  · show (d.bits_remain - 1 - n) % 8 + 1 ≤ 8
    omega
  · show time + d.delay + n * d.period - end_time = _
    rw [← hn]

theorem dmc_silent_batching_witness :
    exampleSilentDmc.silence = true ∧ exampleSilentDmc.buf_full = false ∧
    (0 : Int) + exampleSilentDmc.delay < 5000 ∧
    exampleSilentDmc.run exampleExt 0 5000 = exampleSilentDmc.run_per_edge exampleExt 0 5000 :=
  ⟨by decide, by decide, by decide,
    (dmc_silent_batching exampleExt exampleSilentDmc 0 5000 (by decide) (by decide)
      (by decide) (by decide) (by decide) (by decide)).1⟩

/-! ## Nes_Dmc: the reads performed by `run` -/

/-- The value of `count_reads` at a time between the byte boundaries `J - 1` and `J`
counted from the first read. -/
theorem Nes_Dmc.count_reads_window (d : Nes_Dmc) (t J : Int) (hJ : 0 ≤ J)
    (hl : 1 ≤ d.length_counter) (hp : 0 < d.period)
    (hhi : t ≤ d.first_read + J * (d.period * 8))
    (hlo : J = 0 ∨ d.first_read + (J - 1) * (d.period * 8) < t) :
    (d.count_reads t).1 =
      if d.regs0 &&& loop_flag ≠ 0 then J else min J d.length_counter := by
  have hP : 0 < d.period * 8 := by omega
  have hl0 : d.length_counter ≠ 0 := by omega
  unfold Nes_Dmc.count_reads
  simp only [hl0, if_false]
  by_cases h0 : J = 0
  · subst h0
    have hav : t - d.first_read ≤ 0 := by simp at hhi; omega
    simp only [hav, if_true]
    split
    · rfl
    · rw [min_eq_left (by omega)]
  · have hlo : d.first_read + (J - 1) * (d.period * 8) < t := by
      rcases hlo with h | h
      · exact absurd h h0
      · exact h
    have hJ1 : 1 ≤ J := by omega
    have hav : ¬ (t - d.first_read ≤ 0) := by
      have : 0 ≤ (J - 1) * (d.period * 8) := mul_nonneg (by omega) (le_of_lt hP)
      omega
    simp only [hav, if_false]
    have hq : (t - d.first_read - 1) / (d.period * 8) = J - 1 := by
      apply le_antisymm
      · have : (t - d.first_read - 1) / (d.period * 8) < J := by
          rw [Int.ediv_lt_iff_lt_mul hP]
          omega
        omega
      · rw [Int.le_ediv_iff_mul_le hP]
        omega
    rw [Int.tdiv_eq_ediv (by omega) (le_of_lt hP), hq]
    have e : J - 1 + 1 = J := by ring
    rw [e]
    by_cases hloop : d.regs0 &&& loop_flag ≠ 0
    · rw [if_pos hloop, if_neg (fun h => h.1 hloop)]
    · rw [if_neg hloop]
      by_cases hgt : J > d.length_counter
      · rw [if_pos ⟨hloop, hgt⟩, min_eq_right (by omega)]
      · rw [if_neg (fun h => hgt h.2), min_eq_left (by omega)]

theorem Nes_Dmc.run_shift_frame (l : DmcLoop) :
    (Nes_Dmc.run_shift l).d = l.d ∧ (Nes_Dmc.run_shift l).time = l.time ∧
    (Nes_Dmc.run_shift l).bits_remain = l.bits_remain := by
  unfold Nes_Dmc.run_shift
  simp only
  split
  · split <;> exact ⟨rfl, rfl, rfl⟩
  · exact ⟨rfl, rfl, rfl⟩

/-- What `fill_buffer` reads when the buffer is empty. -/
theorem Nes_Dmc.fill_buffer_reads (X : Ext) (e : Nes_Dmc) (hb : e.buf_full = false) :
    (e.fill_buffer X).regs0 = e.regs0 ∧
    (e.length_counter = 0 → e.fill_buffer X = e) ∧
    (e.length_counter ≠ 0 →
      (∃ a, (e.fill_buffer X).rom_reads = e.rom_reads ++ [a]) ∧
      (e.fill_buffer X).buf_full = true ∧
      (e.length_counter - 1 ≠ 0 → (e.fill_buffer X).length_counter = e.length_counter - 1) ∧
      (e.length_counter - 1 = 0 → e.regs0 &&& loop_flag ≠ 0 →
        1 ≤ (e.fill_buffer X).length_counter) ∧
      (e.length_counter - 1 = 0 → ¬ (e.regs0 &&& loop_flag ≠ 0) →
        (e.fill_buffer X).length_counter = 0)) := by
  have hc : (!e.buf_full) = true := by simp [hb]
  by_cases hl : e.length_counter = 0
  · have hfb : e.fill_buffer X = e := by
      unfold Nes_Dmc.fill_buffer
      simp only [hc, hl, ne_eq, not_true_eq_false, and_false, if_false]
    rw [hfb]
    exact ⟨rfl, fun _ => rfl, fun h => absurd hl h⟩
  · by_cases hl1 : e.length_counter - 1 = 0
    · by_cases hloop : e.regs0 &&& loop_flag ≠ 0
      · have hfb : e.fill_buffer X = Nes_Dmc.reload_sample { e with
            buf := X.rom_reader ((0x8000 + e.address) % 2 ^ 32)
            rom_reads := e.rom_reads ++ [(0x8000 + e.address) % 2 ^ 32]
            address := Int.land (e.address + 1) 0x7FFF
            buf_full := true
            length_counter := e.length_counter - 1 } := by
          unfold Nes_Dmc.fill_buffer
          simp only [hc, hl, ne_eq, not_false_eq_true, and_self, if_true, hl1]
          rw [if_pos hloop]
        rw [hfb]
        refine ⟨rfl, fun h => absurd h hl, fun _ => ⟨⟨_, rfl⟩, rfl, fun h => absurd hl1 h,
          fun _ _ => ?_, fun _ h => absurd hloop h⟩⟩
        show 1 ≤ (e.regs3 : Int) * 0x10 + 1
        have := Int.natCast_nonneg e.regs3
        omega
      · have hfb : e.fill_buffer X = { e with
            buf := X.rom_reader ((0x8000 + e.address) % 2 ^ 32)
            rom_reads := e.rom_reads ++ [(0x8000 + e.address) % 2 ^ 32]
            address := Int.land (e.address + 1) 0x7FFF
            buf_full := true
            length_counter := e.length_counter - 1
            apu := Nes_Apu.irq_changed
              { e.apu with osc_enables := Int.land e.apu.osc_enables (~~~0x10) }
            irq_flag := e.irq_enabled
            next_irq := X.no_irq } := by
          unfold Nes_Dmc.fill_buffer
          simp only [hc, hl, ne_eq, not_false_eq_true, and_self, if_true, hl1]
          rw [if_neg hloop]
        rw [hfb]
        exact ⟨rfl, fun h => absurd h hl, fun _ => ⟨⟨_, rfl⟩, rfl, fun h => absurd hl1 h,
          fun _ h => absurd h hloop, fun _ _ => hl1⟩⟩
    · have hfb : e.fill_buffer X = { e with
          buf := X.rom_reader ((0x8000 + e.address) % 2 ^ 32)
          rom_reads := e.rom_reads ++ [(0x8000 + e.address) % 2 ^ 32]
          address := Int.land (e.address + 1) 0x7FFF
          buf_full := true
          length_counter := e.length_counter - 1 } := by
        unfold Nes_Dmc.fill_buffer
        simp only [hc, hl, ne_eq, not_false_eq_true, and_self, if_true, hl1, if_false]
      rw [hfb]
      exact ⟨rfl, fun h => absurd h hl, fun _ => ⟨⟨_, rfl⟩, rfl, fun _ => rfl,
        fun h => absurd h hl1, fun h => absurd h hl1⟩⟩

/-- One pass of the loop of `Nes_Dmc::run` keeps the bookkeeping of the reads: `J` byte
boundaries have been passed, the next one is due at `first_read + J * 8 * period`, and
the bytes read so far number `J` (capped by the initial length when not looping). -/
theorem Nes_Dmc.run_body_reads (X : Ext) (d : Nes_Dmc) (P : DmcLoop → Prop)
    (hP : ∀ l, P l ↔ ∃ (J : Int) (new : List Int), 0 ≤ J ∧
      l.time + (l.bits_remain - 1) * d.period = d.first_read + J * (d.period * 8) ∧
      1 ≤ l.bits_remain ∧ (J = 0 ∨ l.bits_remain ≤ 8) ∧ l.d.regs0 = d.regs0 ∧
      l.d.rom_reads = d.rom_reads ++ new ∧
      ((d.regs0 &&& loop_flag ≠ 0 ∧ l.d.buf_full = true ∧ 1 ≤ l.d.length_counter ∧
          (new.length : Int) = J) ∨
        (¬ (d.regs0 &&& loop_flag ≠ 0) ∧ J ≤ d.length_counter ∧ l.d.buf_full = true ∧
          l.d.length_counter = d.length_counter - J ∧ (new.length : Int) = J) ∨
        (¬ (d.regs0 &&& loop_flag ≠ 0) ∧ d.length_counter < J ∧ l.d.buf_full = false ∧
          l.d.length_counter = 0 ∧ (new.length : Int) = d.length_counter))) :
    ∀ l, P l → P (Nes_Dmc.run_body X d.period l) := by
  intro l hl
  rw [hP] at hl ⊢
  obtain ⟨J, new, hJ, hnb, hb1, hb8, hr0, hnew, hcase⟩ := hl
  obtain ⟨sd, st, sb⟩ := Nes_Dmc.run_shift_frame l
  have hbody : Nes_Dmc.run_body X d.period l =
      Nes_Dmc.run_reload X
        { Nes_Dmc.run_shift l with time := (Nes_Dmc.run_shift l).time + d.period } := rfl
  rw [hbody]
  obtain ⟨l1, hl1⟩ : ∃ l1, l1 = Nes_Dmc.run_shift l := ⟨_, rfl⟩
  rw [← hl1] at sd st sb ⊢
  by_cases hz : l1.bits_remain - 1 = 0
  · -- a byte boundary
    have hbr : l.bits_remain = 1 := by omega
    rw [hbr] at hnb
    have hnb' : l1.time + d.period + (8 - 1) * d.period =
        d.first_read + (J + 1) * (d.period * 8) := by
      rw [st]; linarith
    by_cases hbf : l1.d.buf_full = true
    · -- a byte is buffered: it is taken and the buffer refilled
      obtain ⟨e, he⟩ : ∃ e : Nes_Dmc, e =
          (if (!({ l1.d with silence := false, buf_full := false } : Nes_Dmc).output) = true
            then { ({ l1.d with silence := false, buf_full := false } : Nes_Dmc) with
              silence := true }
            else { l1.d with silence := false, buf_full := false }) := ⟨_, rfl⟩
      have hr : Nes_Dmc.run_reload X { l1 with time := l1.time + d.period } =
          { l1 with
            time := l1.time + d.period
            bits_remain := 8
            bits := l1.d.buf
            d := e.fill_buffer X } := by
        unfold Nes_Dmc.run_reload
        have hc : (!l1.d.buf_full) = false := by simp [hbf]
        simp only [hz, if_true, hc, Bool.false_eq_true, if_false]
        rw [he]
      have hefacts : e.buf_full = false ∧ e.regs0 = l1.d.regs0 ∧
          e.length_counter = l1.d.length_counter ∧ e.rom_reads = l1.d.rom_reads := by
        rw [he]
        split <;> exact ⟨rfl, rfl, rfl, rfl⟩
      obtain ⟨eb, e0, el, er⟩ := hefacts
      obtain ⟨f0, fz, fn⟩ := Nes_Dmc.fill_buffer_reads X e eb
      rw [hr]
      rw [sd] at e0 el er hbf
      rcases hcase with ⟨hloop, -, hlc, hlen⟩ | ⟨hloop, hJL, -, hlc, hlen⟩ | ⟨-, -, hbf2, -, -⟩
      · -- looping
        obtain ⟨⟨a, ha⟩, fb, f1, f2, -⟩ := fn (by omega)
        refine ⟨J + 1, new ++ [a], by omega, hnb', by norm_num, Or.inr (le_refl _), ?_, ?_,
          Or.inl ⟨hloop, fb, ?_, ?_⟩⟩
        · show (e.fill_buffer X).regs0 = d.regs0
          rw [f0, e0, hr0]
        · show (e.fill_buffer X).rom_reads = d.rom_reads ++ (new ++ [a])
          rw [ha, er, hnew, List.append_assoc]
        · show 1 ≤ (e.fill_buffer X).length_counter
          by_cases h1 : e.length_counter - 1 = 0
          · exact f2 h1 (by rw [e0, hr0]; exact hloop)
          · rw [f1 h1]; omega
        · rw [List.length_append]
          push_cast
          simp only [List.length_singleton, Nat.cast_one]
          omega
      · -- not looping, bytes remain or the last one is buffered
        by_cases hlast : J = d.length_counter
        · -- nothing left to read
          have hz0 : e.length_counter = 0 := by omega
          rw [fz hz0]
          refine ⟨J + 1, new, by omega, hnb', by norm_num, Or.inr (le_refl _), ?_, ?_,
            Or.inr (Or.inr ⟨hloop, by omega, eb, hz0, by omega⟩)⟩
          · show e.regs0 = d.regs0
            rw [e0, hr0]
          · show e.rom_reads = d.rom_reads ++ new
            rw [er, hnew]
        · obtain ⟨⟨a, ha⟩, fb, f1, -, f3⟩ := fn (by omega)
          refine ⟨J + 1, new ++ [a], by omega, hnb', by norm_num, Or.inr (le_refl _), ?_, ?_,
            Or.inr (Or.inl ⟨hloop, by omega, fb, ?_, ?_⟩)⟩
          · show (e.fill_buffer X).regs0 = d.regs0
            rw [f0, e0, hr0]
          · show (e.fill_buffer X).rom_reads = d.rom_reads ++ (new ++ [a])
            rw [ha, er, hnew, List.append_assoc]
          · show (e.fill_buffer X).length_counter = d.length_counter - (J + 1)
            by_cases h1 : e.length_counter - 1 = 0
            · rw [f3 h1 (by rw [e0, hr0]; exact hloop)]; omega
            · rw [f1 h1]; omega
          · rw [List.length_append]
            push_cast
            simp only [List.length_singleton, Nat.cast_one]
            omega
      · rw [hbf] at hbf2
        exact absurd hbf2 (by decide)
    · -- nothing buffered: the channel falls silent
      have hbf' : l1.d.buf_full = false := by simpa using hbf
      have hr : Nes_Dmc.run_reload X { l1 with time := l1.time + d.period } =
          { l1 with
            time := l1.time + d.period
            bits_remain := 8
            d := { l1.d with silence := true } } := by
        unfold Nes_Dmc.run_reload
        have hc : (!l1.d.buf_full) = true := by simp [hbf']
        simp only [hz, if_true, hc]
      rw [hr]
      rw [sd] at hbf'
      rcases hcase with ⟨-, hb, -, -⟩ | ⟨-, -, hb, -, -⟩ | ⟨hloop, hJL, hb, hlc, hlen⟩
      · rw [hbf'] at hb; exact absurd hb (by decide)
      · rw [hbf'] at hb; exact absurd hb (by decide)
      · refine ⟨J + 1, new, by omega, hnb', by norm_num, Or.inr (le_refl _), ?_, ?_,
          Or.inr (Or.inr ⟨hloop, by omega, ?_, ?_, hlen⟩)⟩
        · show l1.d.regs0 = d.regs0
          rw [sd, hr0]
        · show l1.d.rom_reads = d.rom_reads ++ new
          rw [sd, hnew]
        · show l1.d.buf_full = false
          rw [sd, hbf']
        · show l1.d.length_counter = 0
          rw [sd, hlc]
  · -- no boundary at this edge
    have hr : Nes_Dmc.run_reload X { l1 with time := l1.time + d.period } =
        { l1 with time := l1.time + d.period, bits_remain := l1.bits_remain - 1 } := by
      unfold Nes_Dmc.run_reload
      simp only [hz, if_false]
    rw [hr]
    refine ⟨J, new, hJ, ?_, ?_, ?_, ?_, ?_, ?_⟩
    · show l1.time + d.period + (l1.bits_remain - 1 - 1) * d.period = _
      rw [st, sb, ← hnb]; ring
    · show 1 ≤ l1.bits_remain - 1
      omega
    · show J = 0 ∨ l1.bits_remain - 1 ≤ 8
      rcases hb8 with h | h
      · exact Or.inl h
      · right; omega
    · show l1.d.regs0 = d.regs0
      rw [sd, hr0]
    · show l1.d.rom_reads = d.rom_reads ++ new
      rw [sd, hnew]
    · show (_ ∧ l1.d.buf_full = true ∧ 1 ≤ l1.d.length_counter ∧ _) ∨
        (_ ∧ _ ∧ l1.d.buf_full = true ∧ l1.d.length_counter = _ ∧ _) ∨
        (_ ∧ _ ∧ l1.d.buf_full = false ∧ l1.d.length_counter = 0 ∧ _)
      rw [sd]
      exact hcase

/-- C20: for a DMC state with `length_counter >= 1`, `buf_full` set, `bits_remain >= 1`,
a positive period and owner `last_time = T`, and for every `t`, `Nes_Dmc::run(T, t)`
returns, and the memory-reader invocations it makes (the addresses appended to the list
of reads) number exactly `count_reads(t)` as computed on the state before the run, with
the loop flag set or clear and with or without an output bound. The bounds
`bits_remain <= 8`, `delay >= 0` and `t >= T` are not needed. `count_reads` is a `const`
member; here it is a function of the state that returns no new state. -/
theorem count_reads_predicts_run (X : Ext) (d : Nes_Dmc) (T t : Int)
    (hl : 1 ≤ d.length_counter) (hbf : d.buf_full = true) (hb1 : 1 ≤ d.bits_remain)
    (hp : 0 < d.period) (hT : d.apu.last_time = T) :
    ∃ r out new, d.run X T t = some (r, out) ∧ r.rom_reads = d.rom_reads ++ new ∧
      (new.length : Int) = (d.count_reads t).1 := by
  have hF : d.first_read = T + d.delay + (d.bits_remain - 1) * d.period := by
    unfold Nes_Dmc.first_read
    rw [hT]
  have hbp : 0 ≤ (d.bits_remain - 1) * d.period := mul_nonneg (by omega) (le_of_lt hp)
  by_cases hlt : T + d.delay < t
  · -- the loop runs
    obtain ⟨P, hPdef⟩ : ∃ P : DmcLoop → Prop, P = fun l =>
        ∃ (J : Int) (new : List Int), 0 ≤ J ∧
        l.time + (l.bits_remain - 1) * d.period = d.first_read + J * (d.period * 8) ∧
        1 ≤ l.bits_remain ∧ (J = 0 ∨ l.bits_remain ≤ 8) ∧ l.d.regs0 = d.regs0 ∧
        l.d.rom_reads = d.rom_reads ++ new ∧
        ((d.regs0 &&& loop_flag ≠ 0 ∧ l.d.buf_full = true ∧ 1 ≤ l.d.length_counter ∧
            (new.length : Int) = J) ∨
          (¬ (d.regs0 &&& loop_flag ≠ 0) ∧ J ≤ d.length_counter ∧ l.d.buf_full = true ∧
            l.d.length_counter = d.length_counter - J ∧ (new.length : Int) = J) ∨
          (¬ (d.regs0 &&& loop_flag ≠ 0) ∧ d.length_counter < J ∧ l.d.buf_full = false ∧
            l.d.length_counter = 0 ∧ (new.length : Int) = d.length_counter)) := ⟨_, rfl⟩
    have hP : ∀ l, P l ↔ _ := fun l => by rw [hPdef]
    have hstep := Nes_Dmc.run_body_reads X d P hP
    obtain ⟨l0, hl0⟩ : ∃ l0 : DmcLoop, l0 =
        ⟨{ d with last_amp := d.dac }, T + d.delay, d.bits_remain, d.bits, d.dac,
          if d.dac - d.last_amp ≠ 0 ∧ d.output = true then
            [Emit.offset T (d.dac - d.last_amp)] else []⟩ := ⟨_, rfl⟩
    have hP0 : P l0 := by
      rw [hP, hl0]
      refine ⟨0, [], le_refl _, ?_, hb1, Or.inl rfl, rfl, ?_, ?_⟩
      · show T + d.delay + (d.bits_remain - 1) * d.period = _
        rw [hF]; ring
      · show d.rom_reads = d.rom_reads ++ []
        rw [List.append_nil]
      · by_cases hloop : d.regs0 &&& loop_flag ≠ 0
        · exact Or.inl ⟨hloop, hbf, hl, rfl⟩
        · refine Or.inr (Or.inl ⟨hloop, by omega, hbf, ?_, rfl⟩)
          show d.length_counter = d.length_counter - 0
          omega
    obtain ⟨n, hn⟩ : ∃ n : Nat, n = edges (T + d.delay) t d.period := ⟨_, rfl⟩
    have hn1 : 0 < n := by rw [hn]; exact edges_pos _ _ _ hp hlt
    have hPn := iterate_invariant (Nes_Dmc.run_body X d.period) P hstep n l0 hP0
    have htime : ((Nes_Dmc.run_body X d.period)^[n] l0).time = T + d.delay + n * d.period := by
      rw [iterate_time _ DmcLoop.time _ (Nes_Dmc.dmc_body_time X _), hl0]
    have hge : t ≤ T + d.delay + n * d.period := by
      have := (edges_spec (T + d.delay) t d.period hp n).not.mp (by rw [← hn]; omega)
      omega
    have hlast : T + d.delay + ((n - 1 : Nat) : Int) * d.period < t :=
      (edges_spec (T + d.delay) t d.period hp (n - 1)).mp (by rw [← hn]; omega)
    have hrun : d.run X T t = some ({ ((Nes_Dmc.run_body X d.period)^[n] l0).d with
        dac := ((Nes_Dmc.run_body X d.period)^[n] l0).dac
        last_amp := ((Nes_Dmc.run_body X d.period)^[n] l0).dac
        bits := ((Nes_Dmc.run_body X d.period)^[n] l0).bits
        bits_remain := ((Nes_Dmc.run_body X d.period)^[n] l0).bits_remain
        delay := ((Nes_Dmc.run_body X d.period)^[n] l0).time - t },
        ((Nes_Dmc.run_body X d.period)^[n] l0).out) := by
      unfold Nes_Dmc.run
      have hc : (!d.buf_full) = false := by simp [hbf]
      simp only [update_amp, hlt, if_true, hc, Bool.false_eq_true, and_false, if_false]
      have h := doWhile_iterate (Nes_Dmc.run_body X d.period) DmcLoop.time t _ hp
        (Nes_Dmc.dmc_body_time X _) (t - (T + d.delay)).toNat
        ⟨{ d with last_amp := d.dac }, T + d.delay, d.bits_remain, d.bits, d.dac,
          if d.dac - d.last_amp ≠ 0 ∧ d.output = true then
            [Emit.offset T (d.dac - d.last_amp)] else []⟩ hlt (edges_le _ _ _ hp)
      simp only at h
      rw [h, ← hn, ← hl0]
    obtain ⟨ln, hln⟩ : ∃ ln, ln = (Nes_Dmc.run_body X d.period)^[n] l0 := ⟨_, rfl⟩
    rw [← hln] at hPn htime hrun
    rw [hP] at hPn
    obtain ⟨J, new, hJ, hnb, hbr1, hbr8, -, hnew, hcase⟩ := hPn
    have hnp : ((n - 1 : Nat) : Int) * d.period = n * d.period - d.period := by
      have : ((n - 1 : Nat) : Int) = (n : Int) - 1 := by omega
      rw [this]; ring
    have hhi : t ≤ d.first_read + J * (d.period * 8) := by
      have : 0 ≤ (ln.bits_remain - 1) * d.period := mul_nonneg (by omega) (le_of_lt hp)
      rw [← hnb, htime]
      omega
    have hlo : J = 0 ∨ d.first_read + (J - 1) * (d.period * 8) < t := by
      rcases hbr8 with h | h
      · exact Or.inl h
      · right
        have h1 : (ln.bits_remain - 1) * d.period ≤ 7 * d.period :=
          mul_le_mul_of_nonneg_right (by omega) (le_of_lt hp)
        have h2 : d.first_read + (J - 1) * (d.period * 8) =
            ln.time + (ln.bits_remain - 1) * d.period - 8 * d.period := by
          rw [hnb]; ring
        rw [h2, htime]
        omega
    have hcount := Nes_Dmc.count_reads_window d t J hJ hl hp hhi hlo
    refine ⟨_, _, new, hrun, hnew, ?_⟩
    rw [hcount]
    rcases hcase with ⟨hloop, -, -, hlen⟩ | ⟨hloop, hJL, -, -, hlen⟩ | ⟨hloop, hJL, -, -, hlen⟩
    · rw [if_pos hloop, hlen]
    · rw [if_neg hloop, hlen, min_eq_left hJL]
    · rw [if_neg hloop, hlen, min_eq_right (le_of_lt hJL)]
  · -- no timer edge before `t`
    have hrun : d.run X T t = some ({ d with last_amp := d.dac, delay := T + d.delay - t },
        if d.dac - d.last_amp ≠ 0 ∧ d.output = true then
          [Emit.offset T (d.dac - d.last_amp)] else []) := by
      unfold Nes_Dmc.run
      simp only [update_amp, hlt, if_false]
    have hcount := Nes_Dmc.count_reads_window d t 0 (le_refl _) hl hp
      (by rw [hF]; omega) (Or.inl rfl)
    refine ⟨_, _, [], hrun, ?_, ?_⟩
    · show d.rom_reads = d.rom_reads ++ []
      rw [List.append_nil]
    · rw [hcount]
      by_cases hloop : d.regs0 &&& loop_flag ≠ 0
      · rw [if_pos hloop]; rfl
      · rw [if_neg hloop, min_eq_left (by omega)]; rfl

theorem count_reads_predicts_run_witness :
    1 ≤ exampleDmc.length_counter ∧ exampleDmc.buf_full = true ∧
    (exampleDmc.count_reads 5000).1 = 2 ∧
    ∃ r out new, exampleDmc.run exampleExt 0 5000 = some (r, out) ∧
      r.rom_reads = exampleDmc.rom_reads ++ new ∧
      (new.length : Int) = (exampleDmc.count_reads 5000).1 :=
  ⟨by decide, by decide, by decide,
    count_reads_predicts_run exampleExt exampleDmc 0 5000 (by decide) (by decide) (by decide)
      (by decide) (by decide)⟩

end NesOscs
